import Mathlib

/-!
# BSP layout tree of the window manager (`src/bsp.c`)

A shallow embedding of the pointer-linked binary-space-partition tree.

* Memory is a heap `Nat → Option bsp_node`: an address holds a live node or nothing
  (never allocated, or freed).  A C pointer is an `Option Nat`, `none` being `NULL`.
* A function that dereferences a dead or `NULL` pointer has undefined behaviour in C;
  the embedding returns `none` for such a run.
* `calloc` is an oracle: the address it hands out (or `none` when it fails) is a
  parameter of the operation that allocates.
* The C `int` fields are `Int` (runs without signed overflow).  A `float` or `double` is
  the rational it denotes; a conversion to `float` and a `float` product round to the
  nearest binary32 value (`f32_round`); the `(int)` cast truncates towards zero.
-/

namespace BSP

/-- The enum `split_type` of `bsp.h`. -/
inductive split_type where
  | SPLIT_HORIZONTAL
  | SPLIT_VERTICAL
  deriving DecidableEq, Repr

open split_type

/-- The struct `bsp_node` of `bsp.h`; `window` is the address of the occupying window. -/
structure bsp_node where
  parent : Option Nat
  left_child : Option Nat
  right_child : Option Nat
  window : Option Nat
  x : Int
  y : Int
  width : Int
  height : Int
  split : split_type
  split_ratio : ℚ
  deriving DecidableEq

/-- Node memory: the live nodes by address. -/
abbrev Heap := Nat → Option bsp_node

/-- Store `n` at address `p`. -/
def Heap.write (h : Heap) (p : Nat) (n : bsp_node) : Heap :=
  fun a => if a = p then some n else h a

/-- Drop the cell at address `p`. -/
def Heap.erase (h : Heap) (p : Nat) : Heap :=
  fun a => if a = p then none else h a

/-- An assignment through a pointer, `p->field = ...`: undefined when `p` is dead. -/
def Heap.modify (h : Heap) (p : Nat) (f : bsp_node → bsp_node) : Option Heap :=
  match h p with
  | none => none
  | some n => some (h.write p (f n))

/-- The library call `free(p)` on a non-null pointer: undefined when `p` is not live. -/
def c_free (h : Heap) (p : Nat) : Option Heap :=
  match h p with
  | none => none
  | some _ => some (h.erase p)

/-- The cast `(int)` of a real value: truncation towards zero. -/
def c_int_cast (q : ℚ) : Int :=
  if 0 ≤ q then ⌊q⌋ else ⌈q⌉

/-- Two to the power `k`, for an exponent of either sign. -/
def pow2 (k : Int) : ℚ :=
  if 0 ≤ k then ((2 ^ k.toNat : Nat) : ℚ) else 1 / ((2 ^ (-k).toNat : Nat) : ℚ)

/-- The number of binary digits of `n`, for `n` up to `fuel`. -/
def bit_length : Nat → Nat → Nat
  | 0, _ => 0
  | fuel + 1, n => if n = 0 then 0 else bit_length fuel (n / 2) + 1

/-- The exponent `e` of a positive rational `x`, with `2 ^ e ≤ x < 2 ^ (e + 1)`: the
difference of the digit counts of numerator and denominator, or one less. -/
def f32_exponent (x : ℚ) : Int :=
  if pow2 ((bit_length x.num.natAbs x.num.natAbs : Int) - (bit_length x.den x.den : Int)) ≤ x
  then (bit_length x.num.natAbs x.num.natAbs : Int) - (bit_length x.den x.den : Int)
  else (bit_length x.num.natAbs x.num.natAbs : Int) - (bit_length x.den x.den : Int) - 1

/-- The exponent of the spacing of the `float` (binary32) values around a positive `x`:
24 significant binary digits, and never finer than `2 ^ (-149)`, the spacing of the
subnormal values. -/
def f32_quantum (x : ℚ) : Int :=
  if f32_exponent x - 23 < -149 then -149 else f32_exponent x - 23

/-- The integer nearest to `t`, the even one of the two when `t` is half-way. -/
def round_half_even (t : ℚ) : Int :=
  if t - ⌊t⌋ < 1 / 2 then ⌊t⌋
  else if 1 / 2 < t - ⌊t⌋ then ⌊t⌋ + 1
  else if ⌊t⌋ % 2 = 0 then ⌊t⌋ else ⌊t⌋ + 1

/-- The `float` value nearest to `x ≥ 0`, ties to the even significand. -/
def f32_round_abs (x : ℚ) : ℚ :=
  (round_half_even (x / pow2 (f32_quantum x)) : ℚ) * pow2 (f32_quantum x)

/-- The `float` (binary32) value nearest to `x`, ties to even: the rounding of every
conversion to `float` and of every `float` operation.  A `float` is the rational it
denotes, so the values of the type are the `x` with `f32_round x = x`.  The exponent is
not bounded above: an `int` operand is far below the largest `float`. -/
def f32_round (x : ℚ) : ℚ :=
  if x < 0 then -f32_round_abs (-x) else f32_round_abs x

/-- The C expression `(int)(len * ratio)` with `int len` and `float ratio`, as in
`int left_width = (int)(width * root->split_ratio)`: `len` is converted to `float`, the
product is rounded to `float`, and the cast truncates it. -/
def float_scale (len : Int) (ratio : ℚ) : Int :=
  c_int_cast (f32_round (f32_round (len : ℚ) * ratio))

/-- The node `bsp_create_node` leaves behind: all pointers null, zero geometry,
vertical split, ratio one half. -/
def fresh_node : bsp_node :=
  { parent := none, left_child := none, right_child := none, window := none,
    x := 0, y := 0, width := 0, height := 0,
    split := SPLIT_VERTICAL, split_ratio := 1 / 2 }

/-- `bsp_create_node`: `c` is what `calloc` returned. -/
def bsp_create_node (h : Heap) (c : Option Nat) : Heap × Option Nat :=
  match c with
  | none => (h, none)
  | some a => (h.write a fresh_node, some a)

/-- Sequencing of C statements: the run is undefined as soon as one step is. -/
@[noinline] def andThen {α β : Type} (o : Option α) (k : α → Option β) : Option β :=
  match o with
  | none => none
  | some a => k a

/-- The clean-up `if (q) { free(q); q = NULL; }` for the left child of `p`. -/
def cleanup_left (h : Heap) (p : Nat) : Option Heap :=
  andThen (h p) fun (n : bsp_node) =>
  match n.left_child with
  | some l =>
    andThen (c_free h l) fun (h1 : Heap) =>
    h1.modify p (fun n => { n with left_child := none })
  | none => some h

/-- The clean-up `if (q) { free(q); q = NULL; }` for the right child of `p`. -/
def cleanup_right (h : Heap) (p : Nat) : Option Heap :=
  andThen (h p) fun (n : bsp_node) =>
  match n.right_child with
  | some r =>
    andThen (c_free h r) fun (h1 : Heap) =>
    h1.modify p (fun n => { n with right_child := none })
  | none => some h

/-- `bsp_split_node`: `c1` and `c2` are the results of the two `calloc` calls. -/
def bsp_split_node (h : Heap) (node : Option Nat) (split : split_type) (ratio : ℚ)
    (c1 c2 : Option Nat) : Option (Heap × Option Nat) :=
  match node with
  | none => some (h, none)
  | some p =>
    if ratio ≤ 0 ∨ ratio ≥ 1 then some (h, none)
    else
      andThen (h p) fun (n : bsp_node) =>
      -- Can't split a node that already has children
      if n.left_child.isSome ∨ n.right_child.isSome then some (h, none)
      else
        -- Create children
        andThen ((bsp_create_node h c1).1.modify p
          (fun n => { n with left_child := (bsp_create_node h c1).2 })) fun (h1 : Heap) =>
        andThen ((bsp_create_node h1 c2).1.modify p
          (fun n => { n with right_child := (bsp_create_node h1 c2).2 })) fun (h2 : Heap) =>
        andThen (h2 p) fun (n : bsp_node) =>
        if n.left_child.isNone ∨ n.right_child.isNone then
          -- Clean up on error
          andThen (cleanup_left h2 p) fun (h3 : Heap) =>
          andThen (cleanup_right h3 p) fun (h4 : Heap) =>
          some (h4, none)
        else
          -- Set up parent references
          andThen n.left_child fun (l : Nat) =>
          andThen (h2.modify l (fun c => { c with parent := some p })) fun (h3 : Heap) =>
          andThen (h3 p) fun (n : bsp_node) =>
          andThen n.right_child fun (r : Nat) =>
          andThen (h3.modify r (fun c => { c with parent := some p })) fun (h4 : Heap) =>
          -- Set split properties
          andThen (h4.modify p (fun n => { n with split := split })) fun (h5 : Heap) =>
          andThen (h5.modify p (fun n => { n with split_ratio := ratio })) fun (h6 : Heap) =>
          -- Move window to left child (if any)
          andThen (h6 p) fun (n : bsp_node) =>
          andThen n.left_child fun (l : Nat) =>
          andThen (h6.modify l (fun c => { c with window := n.window })) fun (h7 : Heap) =>
          andThen (h7.modify p (fun n => { n with window := none })) fun (h8 : Heap) =>
          andThen (h8 p) fun (n : bsp_node) =>
          some (h8, n.right_child)

/-- The statement `if (q) q->parent = parent;` of `bsp_remove_node`. -/
def set_parent_if (h : Heap) (q : Option Nat) (parent : Nat) : Option Heap :=
  match q with
  | some c => h.modify c (fun C => { C with parent := some parent })
  | none => some h

/-- `bsp_remove_node`. -/
def bsp_remove_node (h : Heap) (node : Option Nat) : Option Heap :=
  match node with
  | none => some h
  | some p =>
    andThen (h p) fun (n : bsp_node) =>
    match n.parent with
    | none => some h  -- Can't remove the root or NULL node
    | some parent =>
      andThen (h parent) fun (P : bsp_node) =>
      andThen (if P.left_child = some p then P.right_child else P.left_child)
        fun (sibling : Nat) =>
      -- Move sibling properties to parent
      andThen (h sibling) fun (S : bsp_node) =>
      andThen (h.modify parent (fun P => { P with window := S.window })) fun (h1 : Heap) =>
      andThen (h1 sibling) fun (S : bsp_node) =>
      andThen (h1.modify parent (fun P => { P with left_child := S.left_child }))
        fun (h2 : Heap) =>
      andThen (h2 sibling) fun (S : bsp_node) =>
      andThen (h2.modify parent (fun P => { P with right_child := S.right_child }))
        fun (h3 : Heap) =>
      -- Update parent refs of children
      andThen (h3 parent) fun (P : bsp_node) =>
      andThen (set_parent_if h3 P.left_child parent) fun (h4 : Heap) =>
      andThen (h4 parent) fun (P : bsp_node) =>
      andThen (set_parent_if h4 P.right_child parent) fun (h5 : Heap) =>
      -- Free the nodes
      andThen (h5.modify sibling (fun S => { S with left_child := none })) fun (h6 : Heap) =>
      andThen (h6.modify sibling (fun S => { S with right_child := none })) fun (h7 : Heap) =>
      andThen (c_free h7 sibling) fun (h8 : Heap) =>
      andThen (h8.modify p (fun n => { n with parent := none })) fun (h9 : Heap) =>
      c_free h9 p

/-- The branch "Sibling is a leaf node with a window" of `bsp_remove_window`. -/
def take_sibling_window (h : Heap) (parent sibling : Nat) : Option Heap :=
  andThen (h sibling) fun (S : bsp_node) =>
  andThen (h.modify parent (fun P => { P with window := S.window })) fun (h1 : Heap) =>
  andThen (h1.modify parent (fun P => { P with left_child := none })) fun (h2 : Heap) =>
  h2.modify parent (fun P => { P with right_child := none })

/-- The branch "Sibling is an internal node" of `bsp_remove_window`. -/
def take_sibling_children (h : Heap) (parent sibling : Nat) : Option Heap :=
  andThen (h sibling) fun (S : bsp_node) =>
  andThen (h.modify parent (fun P => { P with left_child := S.left_child }))
    fun (h1 : Heap) =>
  andThen (h1 sibling) fun (S : bsp_node) =>
  andThen (h1.modify parent (fun P => { P with right_child := S.right_child }))
    fun (h2 : Heap) =>
  andThen (h2 sibling) fun (S : bsp_node) =>
  andThen (h2.modify parent (fun P => { P with split := S.split })) fun (h3 : Heap) =>
  andThen (h3 sibling) fun (S : bsp_node) =>
  andThen (h3.modify parent (fun P => { P with split_ratio := S.split_ratio }))
    fun (h4 : Heap) =>
  -- Update parent references
  andThen (h4 parent) fun (P : bsp_node) =>
  andThen P.left_child fun (l : Nat) =>
  andThen (h4.modify l (fun C => { C with parent := some parent })) fun (h5 : Heap) =>
  andThen (h5 parent) fun (P : bsp_node) =>
  andThen P.right_child fun (r : Nat) =>
  h5.modify r (fun C => { C with parent := some parent })

/-- The branch "sibling is empty leaf" of `bsp_remove_window`. -/
def take_nothing (h : Heap) (parent : Nat) : Option Heap :=
  andThen (h.modify parent (fun P => { P with window := none })) fun (h1 : Heap) =>
  andThen (h1.modify parent (fun P => { P with left_child := none })) fun (h2 : Heap) =>
  h2.modify parent (fun P => { P with right_child := none })

/-- `bsp_remove_window`, the second removal path of `bsp.c`. -/
def bsp_remove_window (h : Heap) (node : Option Nat) : Option Heap :=
  match node with
  | none => some h
  | some p =>
    -- Clear the window reference
    andThen (h.modify p (fun n => { n with window := none })) fun (h1 : Heap) =>
    andThen (h1 p) fun (n : bsp_node) =>
    match n.parent with
    | none => some h1  -- a leaf node with no parent: just clear it
    | some parent =>
      -- Get sibling node
      andThen (h1 parent) fun (P : bsp_node) =>
      andThen (if P.left_child = some p then P.right_child else P.left_child)
        fun (sibling : Nat) =>
      andThen (h1 sibling) fun (S : bsp_node) =>
      -- Move sibling's properties to parent
      andThen (if S.window.isSome then take_sibling_window h1 parent sibling
        else if S.left_child.isSome ∧ S.right_child.isSome then
          take_sibling_children h1 parent sibling
        else take_nothing h1 parent) fun (h2 : Heap) =>
      -- Free the nodes
      andThen (c_free h2 p) fun (h3 : Heap) =>
      c_free h3 sibling

/-- `bsp_apply_layout`; the fuel bounds the depth of the recursion.  The lengths
`left_width` and `top_height` are `(int)(width * root->split_ratio)` and
`(int)(height * root->split_ratio)`, products of `float` values. -/
def bsp_apply_layout : Nat → Heap → Option Nat → Int → Int → Int → Int → Option Heap
  | 0, _, _, _, _, _, _ => none
  | _ + 1, h, none, _, _, _, _ => some h
  | fuel + 1, h, some root, x, y, width, height =>
    -- Set the dimensions of this node
    andThen (h.modify root (fun n => { n with x := x })) fun (h1 : Heap) =>
    andThen (h1.modify root (fun n => { n with y := y })) fun (h2 : Heap) =>
    andThen (h2.modify root (fun n => { n with width := width })) fun (h3 : Heap) =>
    andThen (h3.modify root (fun n => { n with height := height })) fun (h4 : Heap) =>
    andThen (h4 root) fun (n : bsp_node) =>
    -- If this is a leaf node, we're done
    if n.left_child.isNone ∧ n.right_child.isNone then some h4
    else if n.split = SPLIT_VERTICAL then
      -- Split along Y axis (side by side windows)
      andThen (bsp_apply_layout fuel h4 n.left_child x y
        (float_scale width n.split_ratio) height) fun (h5 : Heap) =>
      andThen (h5 root) fun (m : bsp_node) =>
      bsp_apply_layout fuel h5 m.right_child (x + float_scale width n.split_ratio) y
        (width - float_scale width n.split_ratio) height
    else
      -- Split along X axis (stacked windows)
      andThen (bsp_apply_layout fuel h4 n.left_child x y width
        (float_scale height n.split_ratio)) fun (h5 : Heap) =>
      andThen (h5 root) fun (m : bsp_node) =>
      bsp_apply_layout fuel h5 m.right_child x (y + float_scale height n.split_ratio)
        width (height - float_scale height n.split_ratio)

/-- `bsp_find_node_at`; the fuel bounds the depth of the recursion.  The outer `none` is
a run that did not finish or read a dead cell, `some none` is the result `NULL`. -/
def bsp_find_node_at : Nat → Heap → Option Nat → ℚ → ℚ → Option (Option Nat)
  | 0, _, _, _, _ => none
  | _ + 1, _, none, _, _ => some none
  | fuel + 1, h, some root, x, y =>
    andThen (h root) fun (n : bsp_node) =>
    -- Check if point is within this node
    if x < (n.x : ℚ) ∨ y < (n.y : ℚ) ∨ x ≥ ((n.x + n.width : Int) : ℚ)
        ∨ y ≥ ((n.y + n.height : Int) : ℚ) then some none
    -- If leaf node, return this node
    else if n.left_child.isNone ∧ n.right_child.isNone then some (some root)
    else
      -- Check children
      andThen (bsp_find_node_at fuel h n.left_child x y) fun (found : Option Nat) =>
      if found.isSome then some found
      else
        andThen (bsp_find_node_at fuel h n.right_child x y) fun (found2 : Option Nat) =>
        if found2.isSome then some found2
        else some none

/-- The number of nodes below `root`, by the traversal of `bsp_destroy_node` (this node
after its left and right subtrees); `none` when the fuel runs out or a pointer is dead. -/
def count_nodes : Nat → Heap → Option Nat → Option Nat
  | 0, _, _ => none
  | _ + 1, _, none => some 0
  | fuel + 1, h, some p =>
    andThen (h p) fun (n : bsp_node) =>
    andThen (count_nodes fuel h n.left_child) fun (a : Nat) =>
    andThen (count_nodes fuel h n.right_child) fun (b : Nat) =>
    some (a + b + 1)

/-! ## Trees in the heap -/

/-- The shape of a tree: which address is a leaf, which is split into which subtrees. -/
inductive Shape where
  | leaf (a : Nat)
  | node (a : Nat) (l r : Shape)
  deriving DecidableEq, Repr

/-- The address of the top node. -/
def Shape.root : Shape → Nat
  | .leaf a => a
  | .node a _ _ => a

/-- The addresses of all nodes, the top one first. -/
def Shape.addrs : Shape → List Nat
  | .leaf a => [a]
  | .node a l r => a :: (l.addrs ++ r.addrs)

/-- The addresses of the leaves, left to right. -/
def Shape.leaf_addrs : Shape → List Nat
  | .leaf a => [a]
  | .node _ l r => l.leaf_addrs ++ r.leaf_addrs

/-- The number of leaves. -/
def Shape.leaves : Shape → Nat
  | .leaf _ => 1
  | .node _ l r => l.leaves + r.leaves

/-- The number of nodes on the longest path from the top to a leaf. -/
def Shape.depth : Shape → Nat
  | .leaf _ => 1
  | .node _ l r => max l.depth r.depth + 1

/-- The heap holds a tree of shape `s`: every address of `s` is live, a leaf has no
child pointer, and a split node points to the tops of its two subtrees. -/
def Reps (h : Heap) : Shape → Prop
  | .leaf a =>
    match h a with
    | some n => n.left_child = none ∧ n.right_child = none
    | none => False
  | .node a l r =>
    (match h a with
     | some n => n.left_child = some l.root ∧ n.right_child = some r.root
     | none => False) ∧ Reps h l ∧ Reps h r

/-- The split ratio of every split node of `s` is a `float` value that lies strictly
between 0 and 1. -/
def RatiosOK (h : Heap) : Shape → Prop
  | .leaf _ => True
  | .node a l r =>
    (match h a with
     | some n => 0 < n.split_ratio ∧ n.split_ratio < 1 ∧ f32_round n.split_ratio = n.split_ratio
     | none => False) ∧ RatiosOK h l ∧ RatiosOK h r

/-- The parent pointers of the tree `s` are right: the top node points to `par`, the top
of each subtree of a split node points to that node. -/
def ParentsOK (h : Heap) : Shape → Option Nat → Prop
  | .leaf a, par =>
    match h a with
    | some n => n.parent = par
    | none => False
  | .node a l r, par =>
    (match h a with
     | some n => n.parent = par
     | none => False) ∧ ParentsOK h l (some a) ∧ ParentsOK h r (some a)

/-- No split node of the tree `s` has an occupant. -/
def OccOK (h : Heap) : Shape → Prop
  | .leaf _ => True
  | .node a l r =>
    (match h a with
     | some n => n.window = none
     | none => False) ∧ OccOK h l ∧ OccOK h r

/-- The heap holds a well-formed tree of shape `s` under the parent `par`: child and
parent pointers are right, split nodes have no occupant, and no cell occurs twice. -/
def WellFormed (h : Heap) (s : Shape) (par : Option Nat) : Prop :=
  Reps h s ∧ ParentsOK h s par ∧ OccOK h s ∧ s.addrs.Nodup

/-- The heap holds a tree of shape `s` under the parent `par` with right child and
parent pointers and no cell occurring twice. -/
def Linked (h : Heap) (s : Shape) (par : Option Nat) : Prop :=
  Reps h s ∧ ParentsOK h s par ∧ s.addrs.Nodup

/-- The windows that occupy the leaves of `s`, left to right. -/
def leaf_windows (h : Heap) : Shape → List Nat
  | .leaf a =>
    match h a with
    | some n => n.window.toList
    | none => []
  | .node _ l r => leaf_windows h l ++ leaf_windows h r

/-- A node is a leaf (no child), or internal: two children and no occupant. -/
def bsp_node.leaf_or_internal (n : bsp_node) : Prop :=
  (n.left_child = none ∧ n.right_child = none) ∨
  (n.left_child ≠ none ∧ n.right_child ≠ none ∧ n.window = none)

/-- Every node of the tree `s` is a leaf or internal; none has exactly one child. -/
def LeafOrInternal (h : Heap) (s : Shape) : Prop :=
  ∀ a ∈ s.addrs, ∀ n, h a = some n → n.leaf_or_internal

/-- The shape with the address of the top node replaced. -/
def Shape.reroot : Shape → Nat → Shape
  | .leaf _, x => .leaf x
  | .node _ l r, x => .node x l r

/-- The shape after `bsp_remove_node` on the node `a` below the top: the sibling subtree
of `a` takes the place of their parent, under the parent's address. -/
def Shape.collapse : Shape → Nat → Shape
  | .leaf x, _ => .leaf x
  | .node x l r, a =>
    if l.root = a then r.reroot x
    else if r.root = a then l.reroot x
    else .node x (l.collapse a) (r.collapse a)

/-- The shape after a successful `bsp_split_node` on the leaf `p`: the leaf becomes a
split node over the new leaves `a1` and `a2`. -/
def Shape.split_at : Shape → Nat → Nat → Nat → Shape
  | .leaf x, p, a1, a2 => if x = p then .node x (.leaf a1) (.leaf a2) else .leaf x
  | .node x l r, p, a1, a2 => .node x (l.split_at p a1 a2) (r.split_at p a1 a2)

/-- A pixel rectangle: origin top-left, width and height. -/
structure Rect where
  x : Int
  y : Int
  width : Int
  height : Int
  deriving DecidableEq, Repr

/-- The cached rectangle of a node. -/
def bsp_node.rect (n : bsp_node) : Rect :=
  { x := n.x, y := n.y, width := n.width, height := n.height }

/-- Half-open containment of the point `(px, py)`, the test of `bsp_find_node_at`. -/
def Rect.contains (R : Rect) (px py : ℚ) : Prop :=
  (R.x : ℚ) ≤ px ∧ px < ((R.x + R.width : Int) : ℚ) ∧
  (R.y : ℚ) ≤ py ∧ py < ((R.y + R.height : Int) : ℚ)

/-- The area of a rectangle. -/
def Rect.area (R : Rect) : Int := R.width * R.height

/-- The sum of the areas of the cached rectangles of the leaves of `s`. -/
def leaf_area_sum (h : Heap) : Shape → Int
  | .leaf a =>
    match h a with
    | some n => n.rect.area
    | none => 0
  | .node _ l r => leaf_area_sum h l + leaf_area_sum h r

/-- A node with everything but its cached rectangle. -/
def bsp_node.no_rect (n : bsp_node) : bsp_node :=
  { n with x := 0, y := 0, width := 0, height := 0 }

/-- The rectangle `bsp_apply_layout` passes to the left child of a split node `n`
laid out on `R`. -/
def left_rect (n : bsp_node) (R : Rect) : Rect :=
  if n.split = SPLIT_VERTICAL then
    { R with width := float_scale R.width n.split_ratio }
  else
    { R with height := float_scale R.height n.split_ratio }

/-- The rectangle `bsp_apply_layout` passes to the right child of a split node `n`
laid out on `R`. -/
def right_rect (n : bsp_node) (R : Rect) : Rect :=
  if n.split = SPLIT_VERTICAL then
    { R with x := R.x + float_scale R.width n.split_ratio,
             width := R.width - float_scale R.width n.split_ratio }
  else
    { R with y := R.y + float_scale R.height n.split_ratio,
             height := R.height - float_scale R.height n.split_ratio }

/-- The cached rectangles of the tree `s` in `h` are the ones a layout on `R` computes:
the top node has `R`, and the subtrees of a split node are laid out on the rectangles
the node passes down. -/
def Laid (h : Heap) : Shape → Rect → Prop
  | .leaf a, R =>
    match h a with
    | some n => n.rect = R
    | none => False
  | .node a l r, R =>
    match h a with
    | some n => n.rect = R ∧ Laid h l (left_rect n R) ∧ Laid h r (right_rect n R)
    | none => False

instance instDecidableReps (h : Heap) : (s : Shape) → Decidable (Reps h s)
  | .leaf a =>
    match e : h a with
    | some n =>
      decidable_of_iff (n.left_child = none ∧ n.right_child = none) (by simp [Reps, e])
    | none => isFalse (by simp [Reps, e])
  | .node a l r =>
    have := instDecidableReps h l
    have := instDecidableReps h r
    match e : h a with
    | some n =>
      decidable_of_iff
        ((n.left_child = some l.root ∧ n.right_child = some r.root) ∧ Reps h l ∧ Reps h r)
        (by simp [Reps, e])
    | none => isFalse (by simp [Reps, e])

instance instDecidableRatiosOK (h : Heap) : (s : Shape) → Decidable (RatiosOK h s)
  | .leaf _ => isTrue (by simp [RatiosOK])
  | .node a l r =>
    have := instDecidableRatiosOK h l
    have := instDecidableRatiosOK h r
    match e : h a with
    | some n =>
      decidable_of_iff
        ((0 < n.split_ratio ∧ n.split_ratio < 1 ∧ f32_round n.split_ratio = n.split_ratio) ∧
          RatiosOK h l ∧ RatiosOK h r)
        (by simp [RatiosOK, e])
    | none => isFalse (by simp [RatiosOK, e])

instance instDecidableParentsOK (h : Heap) :
    (s : Shape) → (par : Option Nat) → Decidable (ParentsOK h s par)
  | .leaf a, par =>
    match e : h a with
    | some n => decidable_of_iff (n.parent = par) (by simp [ParentsOK, e])
    | none => isFalse (by simp [ParentsOK, e])
  | .node a l r, par =>
    have := instDecidableParentsOK h l (some a)
    have := instDecidableParentsOK h r (some a)
    match e : h a with
    | some n =>
      decidable_of_iff (n.parent = par ∧ ParentsOK h l (some a) ∧ ParentsOK h r (some a))
        (by simp [ParentsOK, e])
    | none => isFalse (by simp [ParentsOK, e])

instance instDecidableOccOK (h : Heap) : (s : Shape) → Decidable (OccOK h s)
  | .leaf _ => isTrue (by simp [OccOK])
  | .node a l r =>
    have := instDecidableOccOK h l
    have := instDecidableOccOK h r
    match e : h a with
    | some n =>
      decidable_of_iff (n.window = none ∧ OccOK h l ∧ OccOK h r) (by simp [OccOK, e])
    | none => isFalse (by simp [OccOK, e])

instance instDecidableContains (R : Rect) (px py : ℚ) : Decidable (R.contains px py) := by
  unfold Rect.contains
  infer_instance

instance instDecidableLaid (h : Heap) : (s : Shape) → (R : Rect) → Decidable (Laid h s R)
  | .leaf a, R =>
    match e : h a with
    | some n => decidable_of_iff (n.rect = R) (by simp [Laid, e])
    | none => isFalse (by simp [Laid, e])
  | .node a l r, R =>
    match e : h a with
    | some n =>
      have := instDecidableLaid h l (left_rect n R)
      have := instDecidableLaid h r (right_rect n R)
      decidable_of_iff
        (n.rect = R ∧ Laid h l (left_rect n R) ∧ Laid h r (right_rect n R))
        (by simp [Laid, e])
    | none => isFalse (by simp [Laid, e])

/-! ## The heaps the two mutators produce -/

/-- The heap after a successful split of the leaf `p` (content `n`) into the fresh cells
`a1` (first child) and `a2` (second child). -/
def split_heap (h : Heap) (p : Nat) (n : bsp_node) (o : split_type) (r : ℚ)
    (a1 a2 : Nat) : Heap :=
  fun a =>
    if a = p then
      some { n with left_child := some a1, right_child := some a2, window := none,
                    split := o, split_ratio := r }
    else if a = a1 then some { fresh_node with parent := some p, window := n.window }
    else if a = a2 then some { fresh_node with parent := some p }
    else h a

/-- The heap after `bsp_remove_node` folded the sibling `s` (content `S`) of `p` into
the common parent `par` (content `P`). -/
def remove_heap (h : Heap) (p par s : Nat) (P S : bsp_node) : Heap :=
  fun a =>
    if a = par then
      some { P with window := S.window, left_child := S.left_child,
                    right_child := S.right_child }
    else if a = p ∨ a = s then none
    else if some a = S.left_child ∨ some a = S.right_child then
      (h a).map (fun C => { C with parent := some par })
    else h a

/-! ## Example heaps -/

/-- A root 0 split vertically at one half into the empty leaves 1 and 2. -/
def pair_heap : Heap := fun a =>
  match a with
  | 0 => some { fresh_node with left_child := some 1, right_child := some 2 }
  | 1 => some { fresh_node with parent := some 0 }
  | 2 => some { fresh_node with parent := some 0 }
  | _ => none

/-- The tree of `pair_heap` with the rectangles of a layout on `(0, 0, 1000, 800)`. -/
def laid_pair_heap : Heap := fun a =>
  match a with
  | 0 => some { fresh_node with left_child := some 1, right_child := some 2,
                                width := 1000, height := 800 }
  | 1 => some { fresh_node with parent := some 0, width := 500, height := 800 }
  | 2 => some { fresh_node with parent := some 0, x := 500, width := 500, height := 800 }
  | _ => none

/-- A root 0 split vertically at one half: its first child 1 is a leaf holding window 10,
its second child 2 is split horizontally at one quarter into the leaves 3 (window 11)
and 4 (window 12). -/
def nested_heap : Heap := fun a =>
  match a with
  | 0 => some { fresh_node with left_child := some 1, right_child := some 2 }
  | 1 => some { fresh_node with parent := some 0, window := some 10 }
  | 2 => some { fresh_node with parent := some 0, left_child := some 3, right_child := some 4,
                                split := SPLIT_HORIZONTAL, split_ratio := 1 / 4 }
  | 3 => some { fresh_node with parent := some 2, window := some 11 }
  | 4 => some { fresh_node with parent := some 2, window := some 12 }
  | _ => none

/-- A root 0 split vertically into the empty leaves 1 and 2 with the ratio `0.7f`, the
`float` nearest to seven tenths: `11744051 / 2 ^ 24`. -/
def seven_tenths_heap : Heap := fun a =>
  match a with
  | 0 => some { fresh_node with left_child := some 1, right_child := some 2,
                                split_ratio := 11744051 / 16777216 }
  | 1 => some { fresh_node with parent := some 0 }
  | 2 => some { fresh_node with parent := some 0 }
  | _ => none

/-- A tree whose cached rectangles break the geometry invariant below the root: node 1,
with `(0, 0, 500, 800)`, has the children 3 with `(0, 0, 200, 800)` and 4 with
`(400, 0, 100, 800)`, so the points with `200 ≤ x < 400` are in neither; the rectangle
`(250, 0, 750, 800)` of leaf 2, the second child of the root, overlaps that of node 1. -/
def deep_gap_heap : Heap := fun a =>
  match a with
  | 0 => some { fresh_node with left_child := some 1, right_child := some 2,
                                width := 1000, height := 800 }
  | 1 => some { fresh_node with parent := some 0, left_child := some 3,
                                right_child := some 4, width := 500, height := 800 }
  | 2 => some { fresh_node with parent := some 0, x := 250, width := 750, height := 800 }
  | 3 => some { fresh_node with parent := some 1, width := 200, height := 800 }
  | 4 => some { fresh_node with parent := some 1, x := 400, width := 100, height := 800 }
  | _ => none

/-- A tree whose cached rectangles break the geometry invariant: the root 0 has
`(0, 0, 1000, 800)`, its children 1 and 2 have `(0, 0, 400, 800)` and
`(600, 0, 400, 800)`, so the points with `400 ≤ x < 600` are in neither child. -/
def gap_heap : Heap := fun a =>
  match a with
  | 0 => some { fresh_node with left_child := some 1, right_child := some 2,
                                width := 1000, height := 800 }
  | 1 => some { fresh_node with parent := some 0, width := 400, height := 800 }
  | 2 => some { fresh_node with parent := some 0, x := 600, width := 400, height := 800 }
  | _ => none

/-- The shape of the tree in `nested_heap`. -/
def nested_shape : Shape := .node 0 (.leaf 1) (.node 2 (.leaf 3) (.leaf 4))

/-! ## Windows and the server (`window.c`, `server.c`) -/

/-- The fields of `struct window` the tiling code uses.  `mapped` stands for
`xdg_toplevel->base->surface->mapped`, a flag kept by the display library. -/
structure window where
  x : Int
  y : Int
  width : Int
  height : Int
  node : Option Nat
  floating : Bool
  mapped : Bool
  deriving DecidableEq, Repr

/-- Window memory: the live windows by address. -/
abbrev WHeap := Nat → Option window

/-- Store `v` at address `w`. -/
def WHeap.write (m : WHeap) (w : Nat) (v : window) : WHeap :=
  fun a => if a = w then some v else m a

/-- Drop the window at address `w`. -/
def WHeap.erase (m : WHeap) (w : Nat) : WHeap :=
  fun a => if a = w then none else m a

/-- The part of `struct server` and of its active workspace the tiling code uses.
`windows` is the list `server->windows` in list order, `root` is
`active_workspace->root`, an output is its width and height. -/
structure server where
  nodes : Heap
  wins : WHeap
  windows : List Nat
  focused_window : Option Nat
  root : Option Nat
  assigned_output : Option (Int × Int)
  outputs : List (Int × Int)
  outer_gaps : Int

/-- An assignment through a window pointer, `w->field = ...`. -/
def server.set_win (s : server) (w : Nat) (f : window → window) : Option server :=
  match s.wins w with
  | none => none
  | some v => some { s with wins := s.wins.write w (f v) }

/-- An assignment through a node pointer, `p->field = ...`. -/
def server.set_node (s : server) (p : Nat) (f : bsp_node → bsp_node) : Option server :=
  match s.nodes.modify p f with
  | none => none
  | some h => some { s with nodes := h }

/-- `window_move`; the scene graph is not modelled. -/
def window_move (s : server) (w : Nat) (x y : Int) : Option server :=
  andThen (s.set_win w (fun v => { v with x := x })) fun (s1 : server) =>
  s1.set_win w (fun v => { v with y := y })

/-- `window_resize`; the size request sent to the client is not modelled. -/
def window_resize (s : server) (w : Nat) (width height : Int) : Option server :=
  andThen (s.set_win w (fun v => { v with width := width })) fun (s1 : server) =>
  s1.set_win w (fun v => { v with height := height })

/-- The block `if (window->node) { bsp_remove_node(window->node); window->node = NULL; }`
of `window_set_floating`. -/
def unbind_node (s : server) (w : Nat) : Option server :=
  andThen (s.wins w) fun (v : window) =>
  match v.node with
  | some n =>
    andThen (bsp_remove_node s.nodes (some n)) fun (h : Heap) =>
    server.set_win { s with nodes := h } w (fun v => { v with node := none })
  | none => some s

/-- The block of `window_set_floating` that centres the window on the first output. -/
def centre_on_output (s : server) (w : Nat) (box_width box_height : Int) : Option server :=
  match s.outputs with
  | (output_width, output_height) :: _ =>
    window_move s w (Int.tdiv (output_width - box_width) 2)
      (Int.tdiv (output_height - box_height) 2)
  | [] => some s

/-- `window_set_floating`; `box_width`, `box_height` is the geometry the client reports. -/
def window_set_floating (s : server) (w : Nat) (box_width box_height : Int) :
    Option server :=
  -- Remove from BSP tree if tiled
  andThen (unbind_node s w) fun (s1 : server) =>
  andThen (s1.set_win w (fun v => { v with floating := true })) fun (s2 : server) =>
  -- Center the window on the current output
  andThen (centre_on_output s2 w box_width box_height) fun (s3 : server) =>
  window_resize s3 w box_width box_height

/-- `window_destroy`: the window leaves the list, its node is removed from the tree,
the window is freed. -/
def window_destroy (s : server) (w : Nat) : Option server :=
  andThen (s.wins w) fun (v : window) =>
  -- Remove from BSP tree if tiled
  andThen (match v.node with
    | some n => bsp_remove_node s.nodes (some n)
    | none => some s.nodes) fun (h : Heap) =>
  some { s with windows := s.windows.erase w, nodes := h, wins := s.wins.erase w }

/-- `window_set_tiled`. -/
def window_set_tiled (s : server) (w : Nat) (node : Nat) : Option server :=
  andThen (s.wins w) fun (v : window) =>
  -- Remove from previous node if any
  andThen (match v.node with
    | some n => bsp_remove_node s.nodes (some n)
    | none => some s.nodes) fun (h : Heap) =>
  -- Set new node
  andThen (server.set_win { s with nodes := h } w (fun v => { v with node := some node }))
    fun (s1 : server) =>
  andThen (s1.set_node node (fun n => { n with window := some w })) fun (s2 : server) =>
  andThen (s2.set_win w (fun v => { v with floating := false })) fun (s3 : server) =>
  -- Apply the node's position and size to the window
  andThen (s3.nodes node) fun (n : bsp_node) =>
  andThen (window_move s3 w n.x n.y) fun (s4 : server) =>
  window_resize s4 w n.width n.height

/-- The statements `p->window = window; window->node = p;` (in either order). -/
def bind_window (s : server) (w : Nat) (p : Nat) : Option server :=
  andThen (s.set_node p (fun n => { n with window := some w })) fun (s1 : server) =>
  s1.set_win w (fun v => { v with node := some p })

/-- The branch of `handle_xdg_toplevel_map` that splits the located, occupied node. -/
def map_split (s : server) (w : Nat) (target : Nat) (c1 c2 : Option Nat) : Option server :=
  andThen (s.nodes target) fun (T : bsp_node) =>
  andThen (bsp_split_node s.nodes (some target)
    (if T.width > T.height then SPLIT_VERTICAL else SPLIT_HORIZONTAL) (1 / 2) c1 c2)
    fun (res : Heap × Option Nat) =>
  match res.2 with
  | some new_node => bind_window { s with nodes := res.1 } w new_node
  | none =>
    -- If splitting failed, make it floating
    server.set_win { s with nodes := res.1 } w (fun v => { v with floating := true })

/-- The `else` branch of `handle_xdg_toplevel_map`, "No empty node found". -/
def map_no_empty (s : server) (w : Nat) (root : Nat) (target : Option Nat)
    (c1 c2 : Option Nat) : Option server :=
  andThen (s.nodes root) fun (R : bsp_node) =>
  if R.window.isNone ∧ R.left_child.isNone ∧ R.right_child.isNone then
    -- Root is empty, use it directly
    bind_window s w root
  else
    match target with
    | some t => map_split s w t c1 c2
    | none =>
      -- Fallback to floating if no suitable node found
      s.set_win w (fun v => { v with floating := true })

/-- The block "Add window to the BSP tree" of `handle_xdg_toplevel_map`, on a window
that is not floating: locate the node at the centre of the root, take it when it has no
occupant, else fall to `map_no_empty`. -/
def map_tile (fuel : Nat) (s : server) (w : Nat) (c1 c2 : Option Nat) : Option server :=
  andThen s.root fun (root : Nat) =>
  andThen (s.nodes root) fun (R : bsp_node) =>
  andThen (bsp_find_node_at fuel s.nodes (some root)
    ((R.x + Int.tdiv R.width 2 : Int) : ℚ) ((R.y + Int.tdiv R.height 2 : Int) : ℚ))
    fun (target : Option Nat) =>
  match target with
  | some t =>
    andThen (s.nodes t) fun (T : bsp_node) =>
    if T.window.isNone then
      -- Found an empty node, assign the window directly
      bind_window s w t
    else map_no_empty s w root target c1 c2
  | none => map_no_empty s w root target c1 c2

/-- The loop "Update all tiled windows positions" of `server_update_layout` over the
windows `ws`. -/
def update_windows (fuel : Nat) : server → List Nat → Option server
  | s, [] => some s
  | s, w :: ws =>
    andThen (s.wins w) fun (v : window) =>
    if v.floating = false ∧ v.mapped = true then
      andThen (bsp_find_node_at fuel s.nodes s.root ((v.x + 5 : Int) : ℚ)
        ((v.y + 5 : Int) : ℚ)) fun (node : Option Nat) =>
      match node with
      | some p =>
        andThen (s.nodes p) fun (n : bsp_node) =>
        andThen (window_move s w n.x n.y) fun (s1 : server) =>
        andThen (window_resize s1 w n.width n.height) fun (s2 : server) =>
        update_windows fuel s2 ws
      | none => update_windows fuel s ws
    else update_windows fuel s ws

/-- `server_update_layout`: the output is the assigned one, else the first one. -/
def server_update_layout (fuel : Nat) (s : server) : Option server :=
  match (match s.assigned_output with
         | some o => some o
         | none => s.outputs.head?) with
  | none => some s
  | some (output_width, output_height) =>
    -- Apply outer gaps, then the layout to the BSP tree
    andThen (bsp_apply_layout fuel s.nodes s.root s.outer_gaps s.outer_gaps
      (output_width - 2 * s.outer_gaps) (output_height - 2 * s.outer_gaps))
      fun (h : Heap) =>
    -- Update all tiled windows positions
    update_windows fuel { s with nodes := h } s.windows

/-- The block "Apply layout position and size for tiled windows" of
`handle_xdg_toplevel_map`. -/
def map_place (s : server) (w : Nat) (box_width box_height : Int) : Option server :=
  andThen (s.wins w) fun (v : window) =>
  match v.node with
  | some p =>
    if v.floating = false then
      andThen (s.nodes p) fun (n : bsp_node) =>
      andThen (window_move s w n.x n.y) fun (s1 : server) =>
      window_resize s1 w n.width n.height
    else window_set_floating s w box_width box_height
  | none => window_set_floating s w box_width box_height

/-- `handle_xdg_toplevel_map` for the window `w`; `box_width`, `box_height` is the
geometry the client reports, `c1`, `c2` are the results of the `calloc` calls of a
split.  Of `window_focus` only the assignment to `server->focused_window` is kept. -/
def handle_xdg_toplevel_map (fuel : Nat) (s : server) (w : Nat) (box_width box_height : Int)
    (c1 c2 : Option Nat) : Option server :=
  -- Get initial size
  andThen (s.set_win w (fun v => { v with width := box_width })) fun (s1 : server) =>
  andThen (s1.set_win w (fun v => { v with height := box_height })) fun (s2 : server) =>
  andThen (s2.wins w) fun (v : window) =>
  -- Add window to the BSP tree (for tiled windows)
  andThen (if v.floating = false then map_tile fuel s2 w c1 c2 else some s2)
    fun (s3 : server) =>
  -- Apply layout position and size for tiled windows
  andThen (map_place s3 w box_width box_height) fun (s4 : server) =>
  -- Focus the new window, update the layout
  server_update_layout fuel { s4 with focused_window := some w }

/-- The cases `XKB_KEY_h` and `XKB_KEY_v` of `handle_keyboard_key` (`input.c`) with the
modifier pressed: the node of the focused, tiled window is split at one half when it is
a leaf, then the layout is updated. -/
def key_split (fuel : Nat) (s : server) (split : split_type) (c1 c2 : Option Nat) :
    Option server :=
  match s.focused_window with
  | none => some s
  | some w =>
    andThen (s.wins w) fun (v : window) =>
    if v.floating = true then some s
    else
      match v.node with
      | none => some s
      | some p =>
        andThen (s.nodes p) fun (n : bsp_node) =>
        if n.left_child.isNone ∧ n.right_child.isNone then
          andThen (bsp_split_node s.nodes (some p) split (1 / 2) c1 c2)
            fun (res : Heap × Option Nat) =>
          server_update_layout fuel { s with nodes := res.1 }
        else some s

/-- What the display library does before it emits the map event of `w`. -/
def surface_map (s : server) (w : Nat) : Option server :=
  s.set_win w (fun v => { v with mapped := true })

/-- The window `window_create_xdg` leaves behind: zeroed memory, not floating. -/
def fresh_window : window :=
  { x := 0, y := 0, width := 0, height := 0, node := none, floating := false,
    mapped := false }

/-- `window_create_xdg`: `c` is what `calloc` returned; the window goes to the head of
the list. -/
def window_create_xdg (s : server) (c : Option Nat) : server × Option Nat :=
  match c with
  | none => (s, none)
  | some w => ({ s with wins := s.wins.write w fresh_window, windows := w :: s.windows },
               some w)

/-! ## Example server states -/

/-- One output of 1000 by 800, no gaps, an empty root at address 0 laid out on
`(0, 0, 1000, 800)`, no window. -/
def empty_workspace : server :=
  { nodes := fun a =>
      match a with
      | 0 => some { fresh_node with width := 1000, height := 800 }
      | _ => none,
    wins := fun _ => none,
    windows := [],
    focused_window := none,
    root := some 0,
    assigned_output := none,
    outputs := [(1000, 800)],
    outer_gaps := 0 }

/-- The root leaf holds window 100; window 101 is created and mapped but not yet
inserted. -/
def one_window : server :=
  { empty_workspace with
    nodes := fun a =>
      match a with
      | 0 => some { fresh_node with width := 1000, height := 800, window := some 100 }
      | _ => none,
    wins := fun a =>
      match a with
      | 100 => some { fresh_window with width := 1000, height := 800, node := some 0,
                                        mapped := true }
      | 101 => some { fresh_window with mapped := true }
      | _ => none,
    windows := [101, 100],
    focused_window := some 100 }

/-- A laid-out tree on `(0, 0, 1000, 800)`: the root 0 is split vertically into leaf 1
(window 100) and node 2, itself split vertically into leaf 3 (window 101) and the empty
leaf 4; window 102 is created and mapped but not yet inserted. -/
def side_empty : server :=
  { empty_workspace with
    nodes := fun a =>
      match a with
      | 0 => some { fresh_node with left_child := some 1, right_child := some 2,
                                    width := 1000, height := 800 }
      | 1 => some { fresh_node with parent := some 0, window := some 100,
                                    width := 500, height := 800 }
      | 2 => some { fresh_node with parent := some 0, left_child := some 3,
                                    right_child := some 4, x := 500, width := 500,
                                    height := 800 }
      | 3 => some { fresh_node with parent := some 2, window := some 101, x := 500,
                                    width := 250, height := 800 }
      | 4 => some { fresh_node with parent := some 2, x := 750, width := 250, height := 800 }
      | _ => none,
    wins := fun a =>
      match a with
      | 100 => some { fresh_window with width := 500, height := 800, node := some 1,
                                        mapped := true }
      | 101 => some { fresh_window with x := 500, width := 250, height := 800,
                                        node := some 3, mapped := true }
      | 102 => some { fresh_window with mapped := true }
      | _ => none,
    windows := [102, 101, 100],
    focused_window := some 101 }

/-- A map event of the window `w`: the display library marks the surface mapped, then
`handle_xdg_toplevel_map` runs; the client reports a geometry of 640 by 480, a split
would get the cells 1 and 2, and the fuel 3 is enough for the trees of the examples. -/
def map_event (s : server) (w : Nat) : Option server :=
  andThen (surface_map s w) fun (s1 : server) =>
  handle_xdg_toplevel_map 3 s1 w 640 480 (some 1) (some 2)

/-- The state after window 100 is created in `empty_workspace` and mapped. -/
def after_A : Option server :=
  map_event (window_create_xdg empty_workspace (some 100)).1 100

/-- The state after window 101 is then created and mapped as well. -/
def after_AB : Option server :=
  andThen after_A fun (s : server) => map_event (window_create_xdg s (some 101)).1 101

/-- What the examples observe of a node: children, occupant, orientation, rectangle. -/
def bsp_node.view (n : bsp_node) : Option Nat × Option Nat × Option Nat × split_type × Rect :=
  (n.left_child, n.right_child, n.window, n.split, n.rect)

/-- The view of the node at `p` in the state `s`, when the run gave one. -/
def node_view (s : Option server) (p : Nat) :
    Option (Option Nat × Option Nat × Option Nat × split_type × Rect) :=
  andThen s fun (t : server) => (t.nodes p).map bsp_node.view

/-- The window at `w` in the state `s`, when the run gave one; `some none` is a freed
window. -/
def window_view (s : Option server) (w : Nat) : Option (Option window) :=
  andThen s fun (t : server) => some (t.wins w)

/-! ## Basic facts about the heap primitives -/

@[simp] theorem andThen_some {α β : Type} (a : α) (k : α → Option β) :
    andThen (some a) k = k a := rfl

@[simp] theorem andThen_none {α β : Type} (k : α → Option β) :
    andThen (none : Option α) k = none := rfl

@[simp] theorem write_same (h : Heap) (p : Nat) (n : bsp_node) : h.write p n p = some n := by
  simp [Heap.write]

theorem write_other (h : Heap) (p : Nat) (n : bsp_node) (a : Nat) (hne : a ≠ p) :
    h.write p n a = h a := by
  simp [Heap.write, hne]

@[simp] theorem erase_same (h : Heap) (p : Nat) : h.erase p p = none := by
  simp [Heap.erase]

theorem erase_other (h : Heap) (p : Nat) (a : Nat) (hne : a ≠ p) : h.erase p a = h a := by
  simp [Heap.erase, hne]

theorem modify_of_live (h : Heap) (p : Nat) (n : bsp_node) (f : bsp_node → bsp_node)
    (hp : h p = some n) : h.modify p f = some (h.write p (f n)) := by
  simp [Heap.modify, hp]

theorem c_free_of_live (h : Heap) (p : Nat) (n : bsp_node) (hp : h p = some n) :
    c_free h p = some (h.erase p) := by
  simp [c_free, hp]

/-! ## Splitting a leaf -/

theorem bsp_split_node_eq (h : Heap) (p : Nat) (n : bsp_node) (o : split_type) (r : ℚ)
    (a1 a2 : Nat) (hp : h p = some n) (hl : n.left_child = none) (hr : n.right_child = none)
    (r0 : 0 < r) (r1 : r < 1) (f1 : h a1 = none) (f2 : h a2 = none) (hne : a1 ≠ a2) :
    bsp_split_node h (some p) o r (some a1) (some a2)
      = some (split_heap h p n o r a1 a2, some a2) := by
  have hp1 : p ≠ a1 := by rintro rfl; simp [hp] at f1
  have hp2 : p ≠ a2 := by rintro rfl; simp [hp] at f2
  have h21 : a2 ≠ a1 := fun e => hne e.symm
  have nr : ¬ (r ≤ 0 ∨ r ≥ 1) := by
    intro hc
    rcases hc with hc | hc
    · exact absurd r0 (not_lt.mpr hc)
    · exact absurd r1 (not_lt.mpr hc)
  simp only [bsp_split_node, if_neg nr, hp, andThen_some, hl, hr, bsp_create_node]
  simp [Heap.modify, Heap.write, hp, hp1, hp2, hne, h21, hl, hr, Ne.symm hp1, Ne.symm hp2]
  funext a
  by_cases e0 : a = p
  · subst e0
    simp [split_heap, Heap.write]
  · by_cases e1 : a = a1
    · subst e1
      simp [split_heap, Heap.write, e0, fresh_node]
    · by_cases e2 : a = a2
      · subst e2
        simp [split_heap, Heap.write, e0, e1, fresh_node]
      · simp [split_heap, Heap.write, e0, e1, e2]

/-- C1: splitting a live leaf `p` (content `n`, any occupant) with a ratio strictly between
0 and 1, the two allocations returning fresh distinct cells `a1`, `a2`, succeeds and returns
the second child `a2`.  Afterwards `p` is internal with children `a1`, `a2`, records the
orientation and the ratio and has no occupant; `a1` is a leaf holding the former occupant
of `p`; `a2` is a leaf with no occupant; no other cell changes. -/
theorem bsp_split_node_leaf (h : Heap) (p : Nat) (n : bsp_node) (o : split_type) (r : ℚ)
    (a1 a2 : Nat) (hp : h p = some n) (hl : n.left_child = none) (hr : n.right_child = none)
    (r0 : 0 < r) (r1 : r < 1) (f1 : h a1 = none) (f2 : h a2 = none) (hne : a1 ≠ a2) :
    ∃ (h' : Heap) (N L R : bsp_node),
      bsp_split_node h (some p) o r (some a1) (some a2) = some (h', some a2) ∧
      h' p = some N ∧ h' a1 = some L ∧ h' a2 = some R ∧
      N.left_child = some a1 ∧ N.right_child = some a2 ∧
      L.left_child = none ∧ L.right_child = none ∧
      R.left_child = none ∧ R.right_child = none ∧
      N.split = o ∧ N.split_ratio = r ∧ N.window = none ∧
      L.window = n.window ∧ R.window = none ∧
      L.parent = some p ∧ R.parent = some p ∧ N.parent = n.parent ∧
      (∀ q, q ≠ p → q ≠ a1 → q ≠ a2 → h' q = h q) := by
  have hp1 : p ≠ a1 := by rintro rfl; simp [hp] at f1
  have hp2 : p ≠ a2 := by rintro rfl; simp [hp] at f2
  refine ⟨split_heap h p n o r a1 a2,
    { n with left_child := some a1, right_child := some a2, window := none,
             split := o, split_ratio := r },
    { fresh_node with parent := some p, window := n.window },
    { fresh_node with parent := some p },
    bsp_split_node_eq h p n o r a1 a2 hp hl hr r0 r1 f1 f2 hne, ?_, ?_, ?_,
    ?_, ?_, ?_, ?_, ?_, ?_, ?_, ?_, ?_, ?_, ?_, ?_, ?_, ?_, ?_⟩
  · simp only [split_heap, if_true]
  · simp only [split_heap, if_neg (Ne.symm hp1), if_true]
  · simp only [split_heap, if_neg (Ne.symm hp2), if_neg (Ne.symm hne), if_true]
  all_goals first
    | rfl
    | (intro q q0 q1 q2; simp [split_heap, q0, q1, q2])

/-- Witness of C1: the single empty root at address 0, split vertically at one half into
the fresh cells 1 and 2. -/
theorem bsp_split_node_leaf_witness :
    ∃ (h' : Heap) (N L R : bsp_node),
      bsp_split_node (fun a => if a = 0 then some fresh_node else none) (some 0)
          SPLIT_VERTICAL (1 / 2) (some 1) (some 2) = some (h', some 2) ∧
      h' 0 = some N ∧ h' 1 = some L ∧ h' 2 = some R ∧
      N.left_child = some 1 ∧ N.right_child = some 2 ∧
      L.left_child = none ∧ L.right_child = none ∧
      R.left_child = none ∧ R.right_child = none ∧
      N.split = SPLIT_VERTICAL ∧ N.split_ratio = 1 / 2 ∧ N.window = none ∧
      L.window = fresh_node.window ∧ R.window = none ∧
      L.parent = some 0 ∧ R.parent = some 0 ∧ N.parent = fresh_node.parent ∧
      (∀ q, q ≠ 0 → q ≠ 1 → q ≠ 2 →
        h' q = (fun a => if a = 0 then some fresh_node else none) q) :=
  bsp_split_node_leaf (fun a => if a = 0 then some fresh_node else none) 0 fresh_node
    SPLIT_VERTICAL (1 / 2) 1 2 (by simp) rfl rfl (by norm_num) (by norm_num)
    (by simp) (by simp) (by decide)

/-- C2: on a live node that already has a child, or with a ratio that is not strictly
between 0 and 1 (the boundary values included), `bsp_split_node` returns `NULL` and the
heap it returns is the heap it was given, whatever the allocator would have returned. -/
theorem bsp_split_node_rejects (h : Heap) (p : Nat) (n : bsp_node) (o : split_type) (r : ℚ)
    (c1 c2 : Option Nat) (hp : h p = some n)
    (hbad : n.left_child ≠ none ∨ n.right_child ≠ none ∨ r ≤ 0 ∨ 1 ≤ r) :
    bsp_split_node h (some p) o r c1 c2 = some (h, none) := by
  by_cases hr : r ≤ 0 ∨ r ≥ 1
  · simp only [bsp_split_node, if_pos hr]
  · have hk : n.left_child.isSome = true ∨ n.right_child.isSome = true := by
      rcases hbad with hb | hb | hb | hb
      · exact Or.inl (Option.isSome_iff_ne_none.mpr hb)
      · exact Or.inr (Option.isSome_iff_ne_none.mpr hb)
      · exact absurd (Or.inl hb) hr
      · exact absurd (Or.inr hb) hr
    simp only [bsp_split_node, if_neg hr, hp, andThen_some, if_pos hk]

/-- Witness of C2: ratio 1 on the single empty root. -/
theorem bsp_split_node_rejects_witness :
    bsp_split_node (fun a => if a = 0 then some fresh_node else none) (some 0)
      SPLIT_HORIZONTAL 1 (some 1) (some 2)
      = some ((fun a => if a = 0 then some fresh_node else none), none) :=
  bsp_split_node_rejects (fun a => if a = 0 then some fresh_node else none) 0 fresh_node
    SPLIT_HORIZONTAL 1 (some 1) (some 2) (by simp)
    (Or.inr (Or.inr (Or.inr (le_refl 1))))

/-! ## Removing a node -/

theorem bsp_remove_node_eq (h : Heap) (p par s : Nat) (n P S : bsp_node)
    (hp : h p = some n) (hpar : n.parent = some par) (hP : h par = some P)
    (hkids : (P.left_child = some p ∧ P.right_child = some s) ∨
             (P.left_child = some s ∧ P.right_child = some p))
    (hS : h s = some S) (hsp : s ≠ p) (hpp : par ≠ p) (hps : par ≠ s)
    (hcl : ∀ c, S.left_child = some c → (h c).isSome ∧ c ≠ p ∧ c ≠ s ∧ c ≠ par)
    (hcr : ∀ c, S.right_child = some c → (h c).isSome ∧ c ≠ p ∧ c ≠ s ∧ c ≠ par) :
    bsp_remove_node h (some p) = some (remove_heap h p par s P S) := by
  have hsib : (if P.left_child = some p then P.right_child else P.left_child) = some s := by
    rcases hkids with ⟨h1, h2⟩ | ⟨h1, h2⟩
    · simp [h1, h2]
    · have : ¬ (some s = some p) := by simpa using hsp
      simp [h1, h2, hsp]
  have hne1 : p ≠ s := Ne.symm hsp
  have hne2 : p ≠ par := Ne.symm hpp
  have hne3 : s ≠ par := Ne.symm hps
  simp only [bsp_remove_node, hp, andThen_some, hpar, hP, hsib, hS]
  rcases hlc : S.left_child with _ | cl <;> rcases hrc : S.right_child with _ | cr
  · simp [Heap.modify, Heap.write, Heap.erase, c_free, set_parent_if, hp, hP, hS, hsp, hpp,
      hps, hne1, hne2, hne3, hlc, hrc]
    funext a
    by_cases e0 : a = par
    · subst e0
      simp [remove_heap, Heap.write, Heap.erase, hne1, hne2, hne3, hsp, hpp, hps, hlc, hrc]
    · by_cases e1 : a = p
      · subst e1
        simp [remove_heap, Heap.write, Heap.erase, hne1, hne2, hne3, hsp, hpp, hps, hlc, hrc]
      · by_cases e2 : a = s
        · subst e2
          simp [remove_heap, Heap.write, Heap.erase, hne1, hne2, hne3, hsp, hpp, hps, hlc, hrc]
        · simp [remove_heap, Heap.write, Heap.erase, e0, e1, e2, hlc, hrc]
  · obtain ⟨hl, c1, c2, c3⟩ := hcr cr hrc
    obtain ⟨C, hC⟩ := Option.isSome_iff_exists.mp hl
    simp [Heap.modify, Heap.write, Heap.erase, c_free, set_parent_if, hp, hP, hS, hsp, hpp,
      hps, hne1, hne2, hne3, hlc, hrc, hC, c1, c2, c3, Ne.symm c1, Ne.symm c2, Ne.symm c3]
    funext a
    by_cases e0 : a = par
    · subst e0
      simp [remove_heap, Heap.write, Heap.erase, hne1, hne2, hne3, hsp, hpp, hps, hlc, hrc,
        Ne.symm c3]
    · by_cases e1 : a = p
      · subst e1
        simp [remove_heap, Heap.write, Heap.erase, hne1, hne2, hne3, hsp, hpp, hps, hlc, hrc,
          Ne.symm c1]
      · by_cases e2 : a = s
        · subst e2
          simp [remove_heap, Heap.write, Heap.erase, hne1, hne2, hne3, hsp, hpp, hps, hlc, hrc,
            Ne.symm c2]
        · by_cases e3 : a = cr
          · subst e3; simp [remove_heap, Heap.write, Heap.erase, e0, e1, e2, hlc, hrc, hC]
          · have e3' : ¬ cr = a := fun e => e3 e.symm
            simp [remove_heap, Heap.write, Heap.erase, e0, e1, e2, e3, e3', hlc, hrc]
  · obtain ⟨hl, c1, c2, c3⟩ := hcl cl hlc
    obtain ⟨C, hC⟩ := Option.isSome_iff_exists.mp hl
    simp [Heap.modify, Heap.write, Heap.erase, c_free, set_parent_if, hp, hP, hS, hsp, hpp,
      hps, hne1, hne2, hne3, hlc, hrc, hC, c1, c2, c3, Ne.symm c1, Ne.symm c2, Ne.symm c3]
    funext a
    by_cases e0 : a = par
    · subst e0
      simp [remove_heap, Heap.write, Heap.erase, hne1, hne2, hne3, hsp, hpp, hps, hlc, hrc,
        Ne.symm c3]
    · by_cases e1 : a = p
      · subst e1
        simp [remove_heap, Heap.write, Heap.erase, hne1, hne2, hne3, hsp, hpp, hps, hlc, hrc,
          Ne.symm c1]
      · by_cases e2 : a = s
        · subst e2
          simp [remove_heap, Heap.write, Heap.erase, hne1, hne2, hne3, hsp, hpp, hps, hlc, hrc,
            Ne.symm c2]
        · by_cases e3 : a = cl
          · subst e3; simp [remove_heap, Heap.write, Heap.erase, e0, e1, e2, hlc, hrc, hC]
          · have e3' : ¬ cl = a := fun e => e3 e.symm
            simp [remove_heap, Heap.write, Heap.erase, e0, e1, e2, e3, e3', hlc, hrc]
  · obtain ⟨hl, c1, c2, c3⟩ := hcl cl hlc
    obtain ⟨C, hC⟩ := Option.isSome_iff_exists.mp hl
    obtain ⟨hl', d1, d2, d3⟩ := hcr cr hrc
    obtain ⟨D, hD⟩ := Option.isSome_iff_exists.mp hl'
    by_cases hcc : cr = cl
    · subst hcc
      simp [Heap.modify, Heap.write, Heap.erase, c_free, set_parent_if, hp, hP, hS, hsp, hpp,
        hps, hne1, hne2, hne3, hlc, hrc, hC, c1, c2, c3, Ne.symm c1, Ne.symm c2, Ne.symm c3]
      funext a
      by_cases e0 : a = par
      · subst e0
        simp [remove_heap, Heap.write, Heap.erase, hne1, hne2, hne3, hsp, hpp, hps, hlc, hrc,
          Ne.symm c3]
      · by_cases e1 : a = p
        · subst e1
          simp [remove_heap, Heap.write, Heap.erase, hne1, hne2, hne3, hsp, hpp, hps, hlc, hrc,
            Ne.symm c1]
        · by_cases e2 : a = s
          · subst e2
            simp [remove_heap, Heap.write, Heap.erase, hne1, hne2, hne3, hsp, hpp, hps, hlc,
              hrc, Ne.symm c2]
          · by_cases e3 : a = cr
            · subst e3; simp [remove_heap, Heap.write, Heap.erase, e0, e1, e2, hlc, hrc, hC]
            · have e3' : ¬ cr = a := fun e => e3 e.symm
              simp [remove_heap, Heap.write, Heap.erase, e0, e1, e2, e3, e3', hlc, hrc]
    · have hcc' : cl ≠ cr := fun e => hcc e.symm
      simp [Heap.modify, Heap.write, Heap.erase, c_free, set_parent_if, hp, hP, hS, hsp, hpp,
        hps, hne1, hne2, hne3, hlc, hrc, hC, hD, c1, c2, c3, d1, d2, d3, hcc, hcc',
        Ne.symm c1, Ne.symm c2, Ne.symm c3, Ne.symm d1, Ne.symm d2, Ne.symm d3]
      funext a
      by_cases e0 : a = par
      · subst e0
        simp [remove_heap, Heap.write, Heap.erase, hne1, hne2, hne3, hsp, hpp, hps, hlc, hrc,
          Ne.symm c3, Ne.symm d3]
      · by_cases e1 : a = p
        · subst e1
          simp [remove_heap, Heap.write, Heap.erase, hne1, hne2, hne3, hsp, hpp, hps, hlc, hrc,
            Ne.symm c1, Ne.symm d1]
        · by_cases e2 : a = s
          · subst e2
            simp [remove_heap, Heap.write, Heap.erase, hne1, hne2, hne3, hsp, hpp, hps, hlc,
              hrc, Ne.symm c2, Ne.symm d2]
          · by_cases e3 : a = cl
            · subst e3; simp [remove_heap, Heap.write, Heap.erase, e0, e1, e2, hlc, hrc, hC, hcc']
            · have e3' : ¬ cl = a := fun e => e3 e.symm
              by_cases e4 : a = cr
              · subst e4; simp [remove_heap, Heap.write, Heap.erase, e0, e1, e2, e3, hlc, hrc, hD]
              · have e4' : ¬ cr = a := fun e => e4 e.symm
                simp [remove_heap, Heap.write, Heap.erase, e0, e1, e2, e3, e3', e4, e4', hlc, hrc]

/-- C3: when the sibling `s` of `p` under the parent `par` is a leaf, `bsp_remove_node`
on `p` leaves `par` a leaf whose occupant is the former occupant of `s` (so an empty
leaf when `s` was empty), frees `p` and `s`, and changes no other cell. -/
theorem bsp_remove_node_leaf_sibling (h : Heap) (p par s : Nat) (n P S : bsp_node)
    (hp : h p = some n) (hpar : n.parent = some par) (hP : h par = some P)
    (hkids : (P.left_child = some p ∧ P.right_child = some s) ∨
             (P.left_child = some s ∧ P.right_child = some p))
    (hS : h s = some S) (hsp : s ≠ p) (hpp : par ≠ p) (hps : par ≠ s)
    (hSl : S.left_child = none) (hSr : S.right_child = none) :
    ∃ (h' : Heap) (N : bsp_node), bsp_remove_node h (some p) = some h' ∧
      h' par = some N ∧ N.left_child = none ∧ N.right_child = none ∧
      N.window = S.window ∧ (S.window = none → N.window = none) ∧
      N.parent = P.parent ∧ h' p = none ∧ h' s = none ∧
      (∀ q, q ≠ par → q ≠ p → q ≠ s → h' q = h q) := by
  refine ⟨remove_heap h p par s P S,
    { P with window := S.window, left_child := S.left_child, right_child := S.right_child },
    bsp_remove_node_eq h p par s n P S hp hpar hP hkids hS hsp hpp hps ?_ ?_,
    ?_, hSl, hSr, rfl, fun e => e, rfl, ?_, ?_, ?_⟩
  · intro c hc; simp [hSl] at hc
  · intro c hc; simp [hSr] at hc
  · simp [remove_heap]
  · simp [remove_heap, Ne.symm hpp]
  · simp [remove_heap, Ne.symm hps]
  · intro q q0 q1 q2
    simp [remove_heap, q0, q1, q2, hSl, hSr]

/-- Witness of C3: in `nested_heap`, removing leaf 4 folds its leaf sibling 3 into node 2. -/
theorem bsp_remove_node_leaf_sibling_witness :
    ∃ (h' : Heap) (N : bsp_node), bsp_remove_node nested_heap (some 4) = some h' ∧
      h' 2 = some N ∧ N.left_child = none ∧ N.right_child = none ∧
      N.window = (some 11 : Option Nat) ∧ ((some 11 : Option Nat) = none → N.window = none) ∧
      N.parent = some 0 ∧ h' 4 = none ∧ h' 3 = none ∧
      (∀ q, q ≠ 2 → q ≠ 4 → q ≠ 3 → h' q = nested_heap q) :=
  bsp_remove_node_leaf_sibling nested_heap 4 2 3
    { fresh_node with parent := some 2, window := some 12 }
    { fresh_node with parent := some 0, left_child := some 3, right_child := some 4,
                      split := SPLIT_HORIZONTAL, split_ratio := 1 / 4 }
    { fresh_node with parent := some 2, window := some 11 }
    rfl rfl rfl (Or.inr ⟨rfl, rfl⟩) rfl (by decide) (by decide) (by decide) rfl rfl

/-- C4 (evaluation): in `nested_heap`, `bsp_remove_node` on leaf 1 gives the root the two
children of the internal sibling 2 and reparents them, but the root keeps its own
orientation (vertical) and ratio (one half); the sibling's were horizontal and one
quarter. -/
theorem bsp_remove_node_keeps_parent_split :
    ∃ (h' : Heap) (N : bsp_node), bsp_remove_node nested_heap (some 1) = some h' ∧
      h' 0 = some N ∧ N.left_child = some 3 ∧ N.right_child = some 4 ∧ N.window = none ∧
      N.split = SPLIT_VERTICAL ∧ N.split_ratio = 1 / 2 ∧
      N.split ≠ SPLIT_HORIZONTAL ∧ N.split_ratio ≠ 1 / 4 ∧
      (h' 3).map (fun c => c.parent) = some (some 0) ∧
      (h' 4).map (fun c => c.parent) = some (some 0) := by
  refine ⟨_, { fresh_node with left_child := some 3, right_child := some 4 },
    bsp_remove_node_eq nested_heap 1 0 2
      { fresh_node with parent := some 0, window := some 10 }
      { fresh_node with left_child := some 1, right_child := some 2 }
      { fresh_node with parent := some 0, left_child := some 3, right_child := some 4,
                        split := SPLIT_HORIZONTAL, split_ratio := 1 / 4 }
      rfl rfl rfl (Or.inl ⟨rfl, rfl⟩) rfl (by decide) (by decide) (by decide) ?_ ?_,
    ?_, rfl, rfl, rfl, rfl, rfl, by decide, ?_, ?_, ?_⟩
  · intro c hc
    have : c = 3 := by simpa using hc.symm
    subst this
    exact ⟨rfl, by decide, by decide, by decide⟩
  · intro c hc
    have : c = 4 := by simpa using hc.symm
    subst this
    exact ⟨rfl, by decide, by decide, by decide⟩
  · simp [remove_heap, fresh_node]
  · norm_num [fresh_node]
  · simp [remove_heap, nested_heap]
  · simp [remove_heap, nested_heap]

/-- C5: `bsp_remove_node` on a live node without parent returns the heap it was given:
no cell is changed and none is freed. -/
theorem bsp_remove_node_root (h : Heap) (p : Nat) (n : bsp_node)
    (hp : h p = some n) (hroot : n.parent = none) :
    bsp_remove_node h (some p) = some h := by
  simp only [bsp_remove_node, hp, andThen_some, hroot]

/-- Witness of C5: the root of `nested_heap`. -/
theorem bsp_remove_node_root_witness :
    bsp_remove_node nested_heap (some 0) = some nested_heap :=
  bsp_remove_node_root nested_heap 0
    { fresh_node with left_child := some 1, right_child := some 2 } rfl rfl

/-! ## Split followed by removal -/

theorem count_nodes_congr (h h' : Heap)
    (hlinks : ∀ q, (h' q).map (fun n => (n.left_child, n.right_child))
                 = (h q).map (fun n => (n.left_child, n.right_child))) :
    ∀ (fuel : Nat) (root : Option Nat), count_nodes fuel h' root = count_nodes fuel h root := by
  intro fuel
  induction fuel with
  | zero => intro root; rfl
  | succ k ih =>
    intro root
    cases root with
    | none => rfl
    | some p =>
      have hq := hlinks p
      cases e' : h' p with
      | none =>
        cases e : h p with
        | none => simp [count_nodes, e, e']
        | some n => simp [e, e'] at hq
      | some n' =>
        cases e : h p with
        | none => simp [e, e'] at hq
        | some n =>
          simp only [e, e', Option.map_some', Option.some.injEq, Prod.mk.injEq] at hq
          simp only [count_nodes, e, e', andThen_some, hq.1, hq.2, ih]

/-- C6: under the conditions of a successful split of the leaf `p` (content `n`), the
split followed by `bsp_remove_node` on the returned second child leaves `p` a leaf with
its original occupant and parent, frees both new cells, leaves every other cell as it
was, and every traversal counts as many nodes as before the split. -/
theorem split_then_remove_restores (h : Heap) (p : Nat) (n : bsp_node) (o : split_type)
    (r : ℚ) (a1 a2 : Nat) (hp : h p = some n) (hl : n.left_child = none)
    (hr : n.right_child = none) (r0 : 0 < r) (r1 : r < 1) (f1 : h a1 = none)
    (f2 : h a2 = none) (hne : a1 ≠ a2) :
    ∃ (h1 h2 : Heap) (res : Option Nat) (N : bsp_node),
      bsp_split_node h (some p) o r (some a1) (some a2) = some (h1, res) ∧
      res = some a2 ∧
      bsp_remove_node h1 res = some h2 ∧
      h2 p = some N ∧ N.left_child = none ∧ N.right_child = none ∧
      N.window = n.window ∧ N.parent = n.parent ∧
      h2 a1 = none ∧ h2 a2 = none ∧
      (∀ q, q ≠ p → h2 q = h q) ∧
      (∀ (fuel : Nat) (root : Option Nat),
        count_nodes fuel h2 root = count_nodes fuel h root) := by
  have hp1 : p ≠ a1 := by rintro rfl; simp [hp] at f1
  have hp2 : p ≠ a2 := by rintro rfl; simp [hp] at f2
  have h1p : a1 ≠ p := Ne.symm hp1
  have h2p : a2 ≠ p := Ne.symm hp2
  have h21 : a2 ≠ a1 := Ne.symm hne
  have hrem := bsp_remove_node_eq (split_heap h p n o r a1 a2) a2 p a1
    { fresh_node with parent := some p }
    { n with left_child := some a1, right_child := some a2, window := none,
             split := o, split_ratio := r }
    { fresh_node with parent := some p, window := n.window }
    (by simp [split_heap, h2p, h21]) rfl (by simp [split_heap])
    (Or.inr ⟨rfl, rfl⟩) (by simp [split_heap, h1p]) hne hp2 hp1
    (by intro c hc; simp [fresh_node] at hc) (by intro c hc; simp [fresh_node] at hc)
  have hcell : ∀ q, q ≠ p →
      remove_heap (split_heap h p n o r a1 a2) a2 p a1
        { n with left_child := some a1, right_child := some a2, window := none,
                 split := o, split_ratio := r }
        { fresh_node with parent := some p, window := n.window } q = h q := by
    intro q q0
    by_cases q1 : q = a1
    · subst q1; simp [remove_heap, q0, f1]
    · by_cases q2 : q = a2
      · subst q2; simp [remove_heap, q0, f2]
      · simp [remove_heap, split_heap, q0, q1, q2, fresh_node]
  refine ⟨_, _, _, { n with split := o, split_ratio := r },
    bsp_split_node_eq h p n o r a1 a2 hp hl hr r0 r1 f1 f2 hne, rfl, hrem, ?_, hl, hr,
    rfl, rfl, ?_, ?_, hcell, ?_⟩
  · simp [remove_heap, fresh_node, hl, hr]
  · simp [remove_heap, h1p]
  · simp [remove_heap, h2p]
  · apply count_nodes_congr
    intro q
    by_cases q0 : q = p
    · subst q0
      simp [remove_heap, fresh_node, hp, hl, hr]
    · rw [hcell q q0]

/-- Witness of C6: leaf 3 of `nested_heap` split into the fresh cells 5 and 6. -/
theorem split_then_remove_restores_witness :
    ∃ (h1 h2 : Heap) (res : Option Nat) (N : bsp_node),
      bsp_split_node nested_heap (some 3) SPLIT_VERTICAL (1 / 3) (some 5) (some 6)
        = some (h1, res) ∧
      res = some 6 ∧
      bsp_remove_node h1 res = some h2 ∧
      h2 3 = some N ∧ N.left_child = none ∧ N.right_child = none ∧
      N.window = some 11 ∧ N.parent = some 2 ∧
      h2 5 = none ∧ h2 6 = none ∧
      (∀ q, q ≠ 3 → h2 q = nested_heap q) ∧
      (∀ (fuel : Nat) (root : Option Nat),
        count_nodes fuel h2 root = count_nodes fuel nested_heap root) :=
  split_then_remove_restores nested_heap 3
    { fresh_node with parent := some 2, window := some 11 } SPLIT_VERTICAL (1 / 3) 5 6
    rfl rfl rfl (by norm_num) (by norm_num) rfl rfl (by decide)

/-! ## Layout -/

theorem no_rect_fields (n m : bsp_node) (e : n.no_rect = m.no_rect) :
    n.parent = m.parent ∧ n.left_child = m.left_child ∧ n.right_child = m.right_child ∧
    n.window = m.window ∧ n.split = m.split ∧ n.split_ratio = m.split_ratio := by
  cases n; cases m
  simp only [bsp_node.no_rect, bsp_node.mk.injEq] at e
  simp only [e, and_self]

theorem no_rect_live (h h' : Heap) (hsame : ∀ q, (h' q).map bsp_node.no_rect
    = (h q).map bsp_node.no_rect) (q : Nat) (n : bsp_node) (hq : h q = some n) :
    ∃ m, h' q = some m ∧ m.no_rect = n.no_rect := by
  have e := hsame q
  rw [hq] at e
  cases e' : h' q with
  | none => simp [e'] at e
  | some m => exact ⟨m, rfl, by simpa [e'] using e⟩

theorem reps_congr (h h' : Heap) (hsame : ∀ q, (h' q).map bsp_node.no_rect
    = (h q).map bsp_node.no_rect) : ∀ s : Shape, Reps h s → Reps h' s := by
  intro s
  induction s with
  | leaf a =>
    intro hr
    simp only [Reps] at hr ⊢
    cases e : h a with
    | none => simp [e] at hr
    | some n =>
      obtain ⟨m, hm, hmn⟩ := no_rect_live h h' hsame a n e
      have f := no_rect_fields m n hmn
      simp only [e] at hr
      simp only [hm, f.2.1, f.2.2.1]
      exact hr
  | node a l r ihl ihr =>
    intro hr
    simp only [Reps] at hr ⊢
    cases e : h a with
    | none => simp [e] at hr
    | some n =>
      obtain ⟨m, hm, hmn⟩ := no_rect_live h h' hsame a n e
      have f := no_rect_fields m n hmn
      simp only [e] at hr
      simp only [hm, f.2.1, f.2.2.1]
      exact ⟨hr.1, ihl hr.2.1, ihr hr.2.2⟩

theorem laid_congr (h h' : Heap) : ∀ (s : Shape) (R : Rect),
    (∀ q, q ∈ s.addrs → h' q = h q) → Laid h s R → Laid h' s R := by
  intro s
  induction s with
  | leaf a =>
    intro R hq hl
    have e : h' a = h a := hq a (by simp [Shape.addrs])
    simpa only [Laid, e] using hl
  | node a l r ihl ihr =>
    intro R hq hl
    have e : h' a = h a := hq a (by simp [Shape.addrs])
    simp only [Laid, e] at hl ⊢
    cases e2 : h a with
    | none => simp [e2] at hl
    | some n =>
      simp only [e2] at hl ⊢
      refine ⟨hl.1, ihl _ (fun q hq' => hq q ?_) hl.2.1, ihr _ (fun q hq' => hq q ?_) hl.2.2⟩
      · simp [Shape.addrs, hq']
      · simp [Shape.addrs, hq']

theorem root_mem_addrs (s : Shape) : s.root ∈ s.addrs := by
  cases s <;> simp [Shape.root, Shape.addrs]

theorem depth_pos (s : Shape) : 0 < s.depth := by
  cases s <;> simp [Shape.depth]

theorem bsp_apply_layout_leaf (k : Nat) (h : Heap) (a : Nat) (n : bsp_node)
    (x y w ht : Int) (hn : h a = some n)
    (hleaf : n.left_child = none ∧ n.right_child = none) :
    bsp_apply_layout (k + 1) h (some a) x y w ht
      = some (h.write a { n with x := x, y := y, width := w, height := ht }) := by
  simp [bsp_apply_layout, Heap.modify, hn, hleaf.1, hleaf.2]
  funext q
  by_cases e : q = a <;> simp [Heap.write, e]

theorem bsp_apply_layout_internal (k : Nat) (h : Heap) (a : Nat) (n : bsp_node)
    (x y w ht : Int) (hn : h a = some n)
    (hint : ¬ (n.left_child = none ∧ n.right_child = none)) :
    bsp_apply_layout (k + 1) h (some a) x y w ht
      = andThen (bsp_apply_layout k
            (h.write a { n with x := x, y := y, width := w, height := ht }) n.left_child
            (left_rect n ⟨x, y, w, ht⟩).x (left_rect n ⟨x, y, w, ht⟩).y
            (left_rect n ⟨x, y, w, ht⟩).width (left_rect n ⟨x, y, w, ht⟩).height)
          fun (h5 : Heap) =>
          andThen (h5 a) fun (m : bsp_node) =>
          bsp_apply_layout k h5 m.right_child
            (right_rect n ⟨x, y, w, ht⟩).x (right_rect n ⟨x, y, w, ht⟩).y
            (right_rect n ⟨x, y, w, ht⟩).width (right_rect n ⟨x, y, w, ht⟩).height := by
  have hw : (((((h.write a { n with x := x }).write a { n with x := x, y := y }).write a
      { n with x := x, y := y, width := w }).write a
      { n with x := x, y := y, width := w, height := ht }) : Heap)
      = h.write a { n with x := x, y := y, width := w, height := ht } := by
    funext q
    by_cases e : q = a <;> simp [Heap.write, e]
  have hint' : ¬ (n.left_child.isNone = true ∧ n.right_child.isNone = true) := by
    simpa [Option.isNone_iff_eq_none] using hint
  simp only [bsp_apply_layout, Heap.modify, hn, andThen_some, write_same, hw, if_neg hint']
  by_cases hs : n.split = SPLIT_VERTICAL
  · simp only [if_pos hs, left_rect, right_rect]
  · simp only [if_neg hs, left_rect, right_rect]

theorem reps_leaf_iff (h : Heap) (a : Nat) :
    Reps h (.leaf a) ↔ ∃ n, h a = some n ∧ n.left_child = none ∧ n.right_child = none := by
  simp only [Reps]
  cases h a with
  | none => simp
  | some n => simp

theorem reps_node_iff (h : Heap) (a : Nat) (l r : Shape) :
    Reps h (.node a l r) ↔ ∃ n, h a = some n ∧ n.left_child = some l.root ∧
      n.right_child = some r.root ∧ Reps h l ∧ Reps h r := by
  simp only [Reps]
  cases h a with
  | none => simp
  | some n => simp [and_assoc]

/-- The layout of a tree of shape `s` held by the heap, with fuel for its depth: the run
finishes, the cached rectangles are the computed ones, cells outside the tree are
untouched and no field but the rectangle changes anywhere. -/
theorem bsp_apply_layout_spec (s : Shape) : ∀ (fuel : Nat) (h : Heap) (x y w ht : Int),
    Reps h s → s.addrs.Nodup → s.depth ≤ fuel →
    ∃ h' : Heap, bsp_apply_layout fuel h (some s.root) x y w ht = some h' ∧
      Laid h' s ⟨x, y, w, ht⟩ ∧ (∀ q, q ∉ s.addrs → h' q = h q) ∧
      (∀ q, (h' q).map bsp_node.no_rect = (h q).map bsp_node.no_rect) := by
  induction s with
  | leaf a =>
    intro fuel h x y w ht hr _ hd
    obtain ⟨n, hn, hl, hrr⟩ := (reps_leaf_iff h a).mp hr
    obtain ⟨k, rfl⟩ : ∃ k, fuel = k + 1 := ⟨fuel - 1, by simp [Shape.depth] at hd; omega⟩
    refine ⟨_, bsp_apply_layout_leaf k h a n x y w ht hn ⟨hl, hrr⟩, ?_, ?_, ?_⟩
    · simp [Laid, bsp_node.rect]
    · intro q hq
      have : q ≠ a := by simpa [Shape.addrs] using hq
      simp [Heap.write, this]
    · intro q
      by_cases e : q = a
      · subst e; simp [Heap.write, hn, bsp_node.no_rect]
      · simp [Heap.write, e]
  | node a l r ihl ihr =>
    intro fuel h x y w ht hr hnd hd
    obtain ⟨n, hn, hl, hrr, hRl, hRr⟩ := (reps_node_iff h a l r).mp hr
    obtain ⟨k, rfl⟩ : ∃ k, fuel = k + 1 := ⟨fuel - 1, by simp [Shape.depth] at hd; omega⟩
    have hdl : l.depth ≤ k := by simp [Shape.depth] at hd; omega
    have hdr : r.depth ≤ k := by simp [Shape.depth] at hd; omega
    simp only [Shape.addrs, List.nodup_cons, List.mem_append, not_or,
      List.nodup_append] at hnd
    obtain ⟨⟨hal, har⟩, hndl, hndr, hdisj⟩ := hnd
    have hint : ¬ (n.left_child = none ∧ n.right_child = none) := by simp [hl]
    -- the heap after the four assignments to the top node
    have hsame4 : ∀ q, ((h.write a { n with x := x, y := y, width := w, height := ht }) q).map
        bsp_node.no_rect = (h q).map bsp_node.no_rect := by
      intro q
      by_cases e : q = a
      · subst e; simp [Heap.write, hn, bsp_node.no_rect]
      · simp [Heap.write, e]
    obtain ⟨h5, run5, laid5, frame5, same5⟩ :=
      ihl k (h.write a { n with x := x, y := y, width := w, height := ht })
        (left_rect n ⟨x, y, w, ht⟩).x (left_rect n ⟨x, y, w, ht⟩).y
        (left_rect n ⟨x, y, w, ht⟩).width (left_rect n ⟨x, y, w, ht⟩).height
        (reps_congr h _ hsame4 l hRl) hndl hdl
    have h5a : h5 a = some { n with x := x, y := y, width := w, height := ht } := by
      rw [frame5 a hal]; simp
    have same5' : ∀ q, (h5 q).map bsp_node.no_rect = (h q).map bsp_node.no_rect :=
      fun q => (same5 q).trans (hsame4 q)
    obtain ⟨h6, run6, laid6, frame6, same6⟩ :=
      ihr k h5
        (right_rect n ⟨x, y, w, ht⟩).x (right_rect n ⟨x, y, w, ht⟩).y
        (right_rect n ⟨x, y, w, ht⟩).width (right_rect n ⟨x, y, w, ht⟩).height
        (reps_congr h _ same5' r hRr) hndr hdr
    have h6a : h6 a = some { n with x := x, y := y, width := w, height := ht } := by
      rw [frame6 a har]; exact h5a
    refine ⟨h6, ?_, ?_, ?_, ?_⟩
    · show bsp_apply_layout (k + 1) h (some a) x y w ht = some h6
      have run5' := run5
      rw [← hl] at run5'
      rw [bsp_apply_layout_internal k h a n x y w ht hn hint, run5']
      simp only [andThen_some, h5a]
      rw [hrr]
      exact run6
    · simp only [Laid, h6a]
      refine ⟨rfl, ?_, ?_⟩
      · refine laid_congr h5 h6 l _ (fun q hq => frame6 q (fun hqr => hdisj hq hqr)) ?_
        exact laid5
      · exact laid6
    · intro q hq
      simp only [Shape.addrs, List.mem_cons, List.mem_append, not_or] at hq
      rw [frame6 q hq.2.2, frame5 q hq.2.1]
      simp [Heap.write, hq.1]
    · intro q
      exact (same6 q).trans (same5' q)

theorem laid_root (h : Heap) (s : Shape) (R : Rect) (hl : Laid h s R) :
    ∃ n, h s.root = some n ∧ n.rect = R := by
  cases s with
  | leaf a =>
    simp only [Laid] at hl
    cases e : h a with
    | none => simp [e] at hl
    | some n => exact ⟨n, e, by simpa [e] using hl⟩
  | node a l r =>
    simp only [Laid] at hl
    cases e : h a with
    | none => simp [e] at hl
    | some n =>
      simp only [e] at hl
      exact ⟨n, e, hl.1⟩

theorem laid_node_iff (h : Heap) (a : Nat) (l r : Shape) (R : Rect) :
    Laid h (.node a l r) R ↔ ∃ n, h a = some n ∧ n.rect = R ∧
      Laid h l (left_rect n R) ∧ Laid h r (right_rect n R) := by
  simp only [Laid]
  cases h a with
  | none => simp
  | some n => simp

theorem c_int_cast_of_nonneg (q : ℚ) (hq : 0 ≤ q) : c_int_cast q = ⌊q⌋ := by
  simp [c_int_cast, hq]

/-! ## Rounding to `float` -/

theorem pow2_eq (k : Int) : pow2 k = (2 : ℚ) ^ k := by
  unfold pow2
  split_ifs with hk
  · obtain ⟨n, rfl⟩ : ∃ n : ℕ, k = (n : ℤ) := ⟨k.toNat, by omega⟩
    simp [zpow_natCast]
  · obtain ⟨n, rfl⟩ : ∃ n : ℕ, k = -(n : ℤ) := ⟨(-k).toNat, by omega⟩
    simp [zpow_neg, zpow_natCast]

theorem two_zpow_pos (k : Int) : (0 : ℚ) < (2 : ℚ) ^ k := zpow_pos (by norm_num) k

theorem two_zpow_mono (a b : Int) (hab : a ≤ b) : (2 : ℚ) ^ a ≤ (2 : ℚ) ^ b :=
  zpow_le_zpow_right₀ (by norm_num) hab

theorem two_zpow_add (a b : Int) : (2 : ℚ) ^ (a + b) = (2 : ℚ) ^ a * (2 : ℚ) ^ b :=
  zpow_add₀ (by norm_num) a b

theorem two_zpow_nat (n : Nat) : (2 : ℚ) ^ (n : Int) = ((2 ^ n : Int) : ℚ) := by
  simp [zpow_natCast]

theorem bit_length_zero (fuel : Nat) : bit_length fuel 0 = 0 := by
  cases fuel <;> simp [bit_length]

theorem bit_length_spec : ∀ (fuel n : Nat), n ≤ fuel → n ≠ 0 →
    1 ≤ bit_length fuel n ∧ 2 ^ (bit_length fuel n - 1) ≤ n ∧ n < 2 ^ bit_length fuel n := by
  intro fuel
  induction fuel with
  | zero => intro n hn h0; omega
  | succ f ih =>
    intro n hn h0
    simp only [bit_length, if_neg h0]
    by_cases h2 : n / 2 = 0
    · have h1 : n = 1 := by omega
      rw [h2, bit_length_zero, h1]
      simp
    · obtain ⟨b1, b2, b3⟩ := ih (n / 2) (by omega) h2
      refine ⟨by omega, ?_, ?_⟩
      · have e : bit_length f (n / 2) + 1 - 1 = (bit_length f (n / 2) - 1) + 1 := by omega
        rw [e, pow_succ]
        omega
      · rw [pow_succ]
        omega

theorem bit_length_bounds (n : Nat) (h0 : n ≠ 0) :
    (2 : ℚ) ^ ((bit_length n n : Int) - 1) ≤ (n : ℚ) ∧
    (n : ℚ) < (2 : ℚ) ^ (bit_length n n : Int) := by
  obtain ⟨b1, b2, b3⟩ := bit_length_spec n n (le_refl n) h0
  have e : ((bit_length n n : Int) - 1) = ((bit_length n n - 1 : Nat) : Int) := by omega
  constructor
  · rw [e, zpow_natCast]
    exact_mod_cast b2
  · rw [zpow_natCast]
    exact_mod_cast b3

theorem f32_exponent_spec (x : ℚ) (hx : 0 < x) :
    (2 : ℚ) ^ f32_exponent x ≤ x ∧ x < (2 : ℚ) ^ (f32_exponent x + 1) := by
  have hnum : 0 < x.num := Rat.num_pos.mpr hx
  have ha0 : x.num.natAbs ≠ 0 := by omega
  have hb0 : x.den ≠ 0 := x.den_nz
  obtain ⟨a1, a2⟩ := bit_length_bounds x.num.natAbs ha0
  obtain ⟨b1, b2⟩ := bit_length_bounds x.den hb0
  have hbpos : (0 : ℚ) < (x.den : ℚ) := by exact_mod_cast Nat.pos_of_ne_zero hb0
  have hc : ((x.num.natAbs : ℕ) : ℚ) = (x.num : ℚ) := by
    rw [Nat.cast_natAbs, abs_of_pos hnum]
  have hmul : x * (x.den : ℚ) = (x.num.natAbs : ℚ) := by
    rw [hc]
    calc x * (x.den : ℚ) = (x.num : ℚ) / (x.den : ℚ) * (x.den : ℚ) := by
          rw [Rat.num_div_den]
      _ = (x.num : ℚ) := div_mul_cancel₀ _ (ne_of_gt hbpos)
  unfold f32_exponent
  rw [pow2_eq]
  split_ifs with hc
  · refine ⟨hc, ?_⟩
    -- x * den = num < 2 ^ la = 2 ^ (e0 + 1) * 2 ^ (lb - 1) ≤ 2 ^ (e0 + 1) * den
    have hs : (2 : ℚ) ^ ((bit_length x.num.natAbs x.num.natAbs : Int)
          - (bit_length x.den x.den : Int) + 1) * (2 : ℚ) ^ ((bit_length x.den x.den : Int) - 1)
        = (2 : ℚ) ^ (bit_length x.num.natAbs x.num.natAbs : Int) := by
      rw [← two_zpow_add]
      congr 1
      ring
    have hp := two_zpow_pos ((bit_length x.num.natAbs x.num.natAbs : Int)
          - (bit_length x.den x.den : Int) + 1)
    have h1 : x * (x.den : ℚ) < (2 : ℚ) ^ ((bit_length x.num.natAbs x.num.natAbs : Int)
          - (bit_length x.den x.den : Int) + 1) * (x.den : ℚ) := by
      calc x * (x.den : ℚ) = (x.num.natAbs : ℚ) := hmul
        _ < (2 : ℚ) ^ (bit_length x.num.natAbs x.num.natAbs : Int) := a2
        _ = _ := hs.symm
        _ ≤ _ := mul_le_mul_of_nonneg_left b1 (le_of_lt hp)
    exact lt_of_mul_lt_mul_right h1 (le_of_lt hbpos)
  · refine ⟨?_, ?_⟩
    · -- 2 ^ (e0 - 1) * den ≤ 2 ^ (e0 - 1) * 2 ^ lb = 2 ^ (la - 1) ≤ num = x * den
      have hs : (2 : ℚ) ^ ((bit_length x.num.natAbs x.num.natAbs : Int)
            - (bit_length x.den x.den : Int) - 1) * (2 : ℚ) ^ (bit_length x.den x.den : Int)
          = (2 : ℚ) ^ ((bit_length x.num.natAbs x.num.natAbs : Int) - 1) := by
        rw [← two_zpow_add]
        congr 1
        ring
      have hp := two_zpow_pos ((bit_length x.num.natAbs x.num.natAbs : Int)
            - (bit_length x.den x.den : Int) - 1)
      have h1 : (2 : ℚ) ^ ((bit_length x.num.natAbs x.num.natAbs : Int)
            - (bit_length x.den x.den : Int) - 1) * (x.den : ℚ) ≤ x * (x.den : ℚ) := by
        calc _ ≤ (2 : ℚ) ^ ((bit_length x.num.natAbs x.num.natAbs : Int)
                - (bit_length x.den x.den : Int) - 1) * (2 : ℚ) ^ (bit_length x.den x.den : Int) :=
              mul_le_mul_of_nonneg_left (le_of_lt b2) (le_of_lt hp)
          _ = _ := hs
          _ ≤ (x.num.natAbs : ℚ) := a1
          _ = x * (x.den : ℚ) := hmul.symm
      exact le_of_mul_le_mul_right h1 hbpos
    · have e : (bit_length x.num.natAbs x.num.natAbs : Int) - (bit_length x.den x.den : Int)
          - 1 + 1 = (bit_length x.num.natAbs x.num.natAbs : Int)
            - (bit_length x.den x.den : Int) := by ring
      rw [e]
      exact not_le.mp hc

theorem f32_quantum_spec (x : ℚ) (hx : 0 < x) :
    -149 ≤ f32_quantum x ∧ x < (2 : ℚ) ^ (f32_quantum x + 24) ∧
    (-149 < f32_quantum x → (2 : ℚ) ^ (f32_quantum x + 23) ≤ x) := by
  obtain ⟨e1, e2⟩ := f32_exponent_spec x hx
  unfold f32_quantum
  split_ifs with hc
  · refine ⟨le_refl _, ?_, fun h => absurd h (lt_irrefl _)⟩
    exact lt_of_lt_of_le e2 (two_zpow_mono _ _ (by omega))
  · refine ⟨by omega, ?_, fun _ => ?_⟩
    · have e : f32_exponent x - 23 + 24 = f32_exponent x + 1 := by ring
      rw [e]; exact e2
    · have e : f32_exponent x - 23 + 23 = f32_exponent x := by ring
      rw [e]; exact e1

theorem round_half_even_near (t : ℚ) : |t - (round_half_even t : ℚ)| ≤ 1 / 2 := by
  have h1 := Int.floor_le t
  have h2 := Int.lt_floor_add_one t
  unfold round_half_even
  rw [abs_le]
  split_ifs with c1 c2 c3
  · constructor <;> linarith
  · push_cast; constructor <;> linarith
  · constructor <;> linarith
  · push_cast; constructor <;> linarith

theorem round_half_even_nearest (t : ℚ) (k : Int) :
    |t - (round_half_even t : ℚ)| ≤ |t - (k : ℚ)| := by
  by_contra hcon
  have hlt := not_le.mp hcon
  have hn := round_half_even_near t
  have h1 : |((round_half_even t - k : Int) : ℚ)| < 1 := by
    have e : ((round_half_even t - k : Int) : ℚ)
        = (t - (k : ℚ)) - (t - (round_half_even t : ℚ)) := by push_cast; ring
    rw [e]
    calc |(t - (k : ℚ)) - (t - (round_half_even t : ℚ))|
        ≤ |t - (k : ℚ)| + |t - (round_half_even t : ℚ)| := abs_sub _ _
      _ < 1 := by linarith
  have h2 : |round_half_even t - k| < 1 := by exact_mod_cast h1
  have h3 : round_half_even t - k = 0 := Int.abs_lt_one_iff.mp h2
  have h4 : round_half_even t = k := by omega
  rw [h4] at hlt
  exact lt_irrefl _ hlt

theorem round_half_even_le (t : ℚ) (k : Int) (h : t ≤ (k : ℚ)) : round_half_even t ≤ k := by
  by_contra hcon
  have h1 : k + 1 ≤ round_half_even t := by omega
  have h2 : ((k : ℚ)) + 1 ≤ (round_half_even t : ℚ) := by exact_mod_cast h1
  have hn := (abs_le.mp (round_half_even_near t)).1
  linarith

theorem round_half_even_ge (t : ℚ) (k : Int) (h : (k : ℚ) ≤ t) : k ≤ round_half_even t := by
  by_contra hcon
  have h1 : round_half_even t + 1 ≤ k := by omega
  have h2 : (round_half_even t : ℚ) + 1 ≤ (k : ℚ) := by exact_mod_cast h1
  have hn := (abs_le.mp (round_half_even_near t)).2
  linarith

theorem f32_round_abs_eq (x : ℚ) : f32_round_abs x
    = (round_half_even (x / (2 : ℚ) ^ f32_quantum x) : ℚ) * (2 : ℚ) ^ f32_quantum x := by
  unfold f32_round_abs
  rw [pow2_eq]

/-- The rounded value of a positive `x` is `M * 2 ^ q` with at most 24 binary digits in
`M` and `q` not below `-149`; `M` has exactly 24 digits unless `x` is subnormal. -/
theorem f32_round_abs_form (x : ℚ) (hx : 0 < x) :
    ∃ M : Int, f32_round_abs x = (M : ℚ) * (2 : ℚ) ^ f32_quantum x ∧
      0 ≤ M ∧ M ≤ 2 ^ 24 ∧ (-149 < f32_quantum x → 2 ^ 23 ≤ M) := by
  obtain ⟨q1, q2, q3⟩ := f32_quantum_spec x hx
  have hp := two_zpow_pos (f32_quantum x)
  refine ⟨round_half_even (x / (2 : ℚ) ^ f32_quantum x), f32_round_abs_eq x, ?_, ?_, ?_⟩
  · apply round_half_even_ge
    push_cast
    exact div_nonneg (le_of_lt hx) (le_of_lt hp)
  · apply round_half_even_le
    rw [div_le_iff₀ hp]
    have e : (((2 : Int) ^ 24 : Int) : ℚ) * (2 : ℚ) ^ f32_quantum x
        = (2 : ℚ) ^ (f32_quantum x + 24) := by
      rw [two_zpow_add]
      norm_num
      ring
    rw [e]
    exact le_of_lt q2
  · intro hq
    apply round_half_even_ge
    rw [le_div_iff₀ hp]
    have e : (((2 : Int) ^ 23 : Int) : ℚ) * (2 : ℚ) ^ f32_quantum x
        = (2 : ℚ) ^ (f32_quantum x + 23) := by
      rw [two_zpow_add]
      norm_num
      ring
    rw [e]
    exact q3 hq

/-- No multiple of the spacing is nearer to `x` than its rounded value. -/
theorem f32_round_abs_grid (x : ℚ) (k : Int) :
    |x - f32_round_abs x| ≤ |x - (k : ℚ) * (2 : ℚ) ^ f32_quantum x| := by
  have hp := two_zpow_pos (f32_quantum x)
  have h := round_half_even_nearest (x / (2 : ℚ) ^ f32_quantum x) k
  have e1 : x - f32_round_abs x = (x / (2 : ℚ) ^ f32_quantum x
      - (round_half_even (x / (2 : ℚ) ^ f32_quantum x) : ℚ)) * (2 : ℚ) ^ f32_quantum x := by
    rw [f32_round_abs_eq]
    field_simp
    ring
  have e2 : x - (k : ℚ) * (2 : ℚ) ^ f32_quantum x
      = (x / (2 : ℚ) ^ f32_quantum x - (k : ℚ)) * (2 : ℚ) ^ f32_quantum x := by
    field_simp
    ring
  rw [e1, e2, abs_mul, abs_mul, abs_of_pos hp]
  exact mul_le_mul_of_nonneg_right h (le_of_lt hp)

/-- No number `m * 2 ^ e` with at most 24 binary digits in `m` and `e` not below `-149`
is nearer to a positive `x` than its rounded value. -/
theorem f32_round_abs_nearest (x : ℚ) (hx : 0 < x) (m e : Int) (hm : |m| ≤ 2 ^ 24)
    (he : -149 ≤ e) :
    |x - f32_round_abs x| ≤ |x - (m : ℚ) * (2 : ℚ) ^ e| := by
  obtain ⟨q1, q2, q3⟩ := f32_quantum_spec x hx
  by_cases hqe : f32_quantum x ≤ e
  · obtain ⟨d, hd⟩ : ∃ d : ℕ, e = f32_quantum x + (d : ℤ) :=
      ⟨(e - f32_quantum x).toNat, by omega⟩
    have e1 : (m : ℚ) * (2 : ℚ) ^ e
        = ((m * 2 ^ d : Int) : ℚ) * (2 : ℚ) ^ f32_quantum x := by
      rw [hd, two_zpow_add, zpow_natCast]
      push_cast
      ring
    rw [e1]
    exact f32_round_abs_grid x _
  · have hq : -149 < f32_quantum x := by omega
    have hg := q3 hq
    have hgrid := f32_round_abs_grid x (2 ^ 23)
    have e1 : (((2 : Int) ^ 23 : Int) : ℚ) * (2 : ℚ) ^ f32_quantum x
        = (2 : ℚ) ^ (f32_quantum x + 23) := by
      rw [two_zpow_add]
      norm_num
      ring
    rw [e1] at hgrid
    have hmq : ((m : ℚ)) ≤ 2 ^ 24 := by
      have : m ≤ 2 ^ 24 := le_trans (le_abs_self m) hm
      exact_mod_cast this
    have hf : (m : ℚ) * (2 : ℚ) ^ e ≤ (2 : ℚ) ^ (f32_quantum x + 23) := by
      calc (m : ℚ) * (2 : ℚ) ^ e ≤ 2 ^ 24 * (2 : ℚ) ^ e :=
            mul_le_mul_of_nonneg_right hmq (le_of_lt (two_zpow_pos e))
        _ ≤ 2 ^ 24 * (2 : ℚ) ^ (f32_quantum x - 1) :=
            mul_le_mul_of_nonneg_left (two_zpow_mono _ _ (by omega)) (by norm_num)
        _ = (2 : ℚ) ^ (f32_quantum x + 23) := by
            have : f32_quantum x + 23 = (24 : Int) + (f32_quantum x - 1) := by ring
            rw [this, two_zpow_add]
            norm_num
    calc |x - f32_round_abs x| ≤ |x - (2 : ℚ) ^ (f32_quantum x + 23)| := hgrid
      _ = x - (2 : ℚ) ^ (f32_quantum x + 23) := abs_of_nonneg (by linarith)
      _ ≤ x - (m : ℚ) * (2 : ℚ) ^ e := by linarith
      _ ≤ |x - (m : ℚ) * (2 : ℚ) ^ e| := le_abs_self _

theorem f32_round_abs_zero : f32_round_abs 0 = 0 := by
  simp [f32_round_abs, round_half_even]

theorem f32_round_of_pos (x : ℚ) (hx : 0 < x) : f32_round x = f32_round_abs x := by
  simp [f32_round, not_lt.mpr (le_of_lt hx)]

theorem f32_round_abs_nonneg (x : ℚ) (hx : 0 ≤ x) : 0 ≤ f32_round_abs x := by
  rw [f32_round_abs_eq]
  have hp := two_zpow_pos (f32_quantum x)
  have : (0 : Int) ≤ round_half_even (x / (2 : ℚ) ^ f32_quantum x) := by
    apply round_half_even_ge
    push_cast
    exact div_nonneg hx (le_of_lt hp)
  have h2 : (0 : ℚ) ≤ (round_half_even (x / (2 : ℚ) ^ f32_quantum x) : ℚ) := by
    exact_mod_cast this
  exact mul_nonneg h2 (le_of_lt hp)

/-- A binary32 value strictly between 0 and 1 is at most `1 - 2 ^ (-24)`. -/
theorem f32_below_one (r : ℚ) (r0 : 0 < r) (r1 : r < 1) (hf : f32_round r = r) :
    r ≤ 1 - (2 : ℚ) ^ (-24 : Int) := by
  rw [f32_round_of_pos r r0] at hf
  obtain ⟨M, hM, M0, M1, -⟩ := f32_round_abs_form r r0
  obtain ⟨q1, -, -⟩ := f32_quantum_spec r r0
  rw [hf] at hM
  by_cases hq : -24 ≤ f32_quantum r
  · obtain ⟨d, hd⟩ : ∃ d : ℕ, f32_quantum r = -24 + (d : ℤ) :=
      ⟨(f32_quantum r + 24).toNat, by omega⟩
    have e1 : r = ((M * 2 ^ d : Int) : ℚ) * (2 : ℚ) ^ (-24 : Int) := by
      rw [hM, hd, two_zpow_add, zpow_natCast]
      push_cast
      ring
    have hp : (0 : ℚ) < (2 : ℚ) ^ (-24 : Int) := two_zpow_pos _
    have hK : ((M * 2 ^ d : Int) : ℚ) < 2 ^ 24 := by
      have : ((M * 2 ^ d : Int) : ℚ) * (2 : ℚ) ^ (-24 : Int) < 1 := by rw [← e1]; exact r1
      have e2 : (1 : ℚ) = 2 ^ 24 * (2 : ℚ) ^ (-24 : Int) := by norm_num
      rw [e2] at this
      exact lt_of_mul_lt_mul_right this (le_of_lt hp)
    have hK' : M * 2 ^ d < 2 ^ 24 := by exact_mod_cast hK
    have hK2 : M * 2 ^ d ≤ 2 ^ 24 - 1 := by omega
    have hK3 : ((M * 2 ^ d : Int) : ℚ) ≤ 2 ^ 24 - 1 := by exact_mod_cast hK2
    rw [e1]
    calc ((M * 2 ^ d : Int) : ℚ) * (2 : ℚ) ^ (-24 : Int)
        ≤ (2 ^ 24 - 1) * (2 : ℚ) ^ (-24 : Int) := mul_le_mul_of_nonneg_right hK3 (le_of_lt hp)
      _ = 1 - (2 : ℚ) ^ (-24 : Int) := by norm_num
  · have hMq : (M : ℚ) ≤ 2 ^ 24 := by exact_mod_cast M1
    have hle : (2 : ℚ) ^ f32_quantum r ≤ (2 : ℚ) ^ (-25 : Int) := two_zpow_mono _ _ (by omega)
    rw [hM]
    calc (M : ℚ) * (2 : ℚ) ^ f32_quantum r ≤ 2 ^ 24 * (2 : ℚ) ^ (-25 : Int) :=
          mul_le_mul hMq hle (le_of_lt (two_zpow_pos _)) (by norm_num)
      _ ≤ 1 - (2 : ℚ) ^ (-24 : Int) := by norm_num

/-- The product of a rounded positive `int` and a binary32 ratio below 1, rounded, is
not above the `int`. -/
theorem f32_scale_le (w : Int) (r : ℚ) (hw : 0 < w) (r0 : 0 < r) (r1 : r < 1)
    (hf : f32_round r = r) :
    0 < f32_round_abs (w : ℚ) * r ∧
    f32_round_abs (f32_round_abs (w : ℚ) * r) ≤ (w : ℚ) := by
  have hwq : (0 : ℚ) < (w : ℚ) := by exact_mod_cast hw
  have hw1 : (1 : ℚ) ≤ (w : ℚ) := by exact_mod_cast hw
  obtain ⟨M, hM, M0, M1, M2⟩ := f32_round_abs_form (w : ℚ) hwq
  obtain ⟨q1, q2, -⟩ := f32_quantum_spec (w : ℚ) hwq
  have hQ23 : -23 ≤ f32_quantum (w : ℚ) := by
    by_contra hcon
    have h1 : (2 : ℚ) ^ (f32_quantum (w : ℚ) + 24) ≤ (2 : ℚ) ^ (0 : ℤ) :=
      two_zpow_mono _ _ (by omega)
    rw [zpow_zero] at h1
    linarith
  have hM23 : 2 ^ 23 ≤ M := M2 (by omega)
  have hM23q : ((2 : ℚ) ^ 23) ≤ (M : ℚ) := by exact_mod_cast hM23
  have hp := two_zpow_pos (f32_quantum (w : ℚ))
  have hWpos : 0 < f32_round_abs (w : ℚ) := by
    rw [hM]
    exact mul_pos (by linarith [show (0 : ℚ) < 2 ^ 23 by norm_num]) hp
  have hr' := f32_below_one r r0 r1 hf
  have hx0 : 0 < f32_round_abs (w : ℚ) * r := mul_pos hWpos r0
  refine ⟨hx0, ?_⟩
  have hxW : f32_round_abs (w : ℚ) * r
      ≤ f32_round_abs (w : ℚ) - f32_round_abs (w : ℚ) * (2 : ℚ) ^ (-24 : Int) := by
    have := mul_le_mul_of_nonneg_left hr' (le_of_lt hWpos)
    linarith
  have hMabs : |M| ≤ 2 ^ 24 := by rw [abs_of_nonneg M0]; exact M1
  -- the rounded product is not above the rounded length
  have ha : f32_round_abs (f32_round_abs (w : ℚ) * r) ≤ f32_round_abs (w : ℚ) := by
    have hn := f32_round_abs_nearest _ hx0 M (f32_quantum (w : ℚ)) hMabs q1
    rw [← hM] at hn
    have h2 : |f32_round_abs (w : ℚ) * r - f32_round_abs (w : ℚ)|
        = f32_round_abs (w : ℚ) - f32_round_abs (w : ℚ) * r := by
      rw [abs_of_nonpos (by nlinarith)]
      ring
    rw [h2] at hn
    have h3 := neg_abs_le (f32_round_abs (w : ℚ) * r
      - f32_round_abs (f32_round_abs (w : ℚ) * r))
    linarith
  by_cases hWw : f32_round_abs (w : ℚ) ≤ (w : ℚ)
  · exact le_trans ha hWw
  · have hWw' : (w : ℚ) < f32_round_abs (w : ℚ) := not_le.mp hWw
    -- a value of the format below the rounded length, nearer to the product
    have hpred : ∃ (m e : Int), |m| ≤ 2 ^ 24 ∧ -149 ≤ e ∧
        (m : ℚ) * (2 : ℚ) ^ e < f32_round_abs (w : ℚ) ∧
        2 * (f32_round_abs (w : ℚ) * r) < (m : ℚ) * (2 : ℚ) ^ e + f32_round_abs (w : ℚ) := by
      have e24 : (2 : ℚ) ^ f32_quantum (w : ℚ) * (2 : ℚ) ^ (-24 : Int)
          = (2 : ℚ) ^ (f32_quantum (w : ℚ) - 1) * (2 : ℚ) ^ (-23 : Int) := by
        rw [← two_zpow_add, ← two_zpow_add]
        congr 1
        ring
      have eQ : (2 : ℚ) ^ f32_quantum (w : ℚ) = 2 * (2 : ℚ) ^ (f32_quantum (w : ℚ) - 1) := by
        have : f32_quantum (w : ℚ) = 1 + (f32_quantum (w : ℚ) - 1) := by ring
        rw [this, two_zpow_add]
        norm_num
      have hp1 := two_zpow_pos (f32_quantum (w : ℚ) - 1)
      by_cases hMe : M = 2 ^ 23
      · refine ⟨2 ^ 24 - 1, f32_quantum (w : ℚ) - 1, by norm_num, by omega, ?_, ?_⟩
        · rw [hM, hMe, eQ]
          push_cast
          nlinarith
        · have hWv : f32_round_abs (w : ℚ) = 2 ^ 24 * (2 : ℚ) ^ (f32_quantum (w : ℚ) - 1) := by
            rw [hM, hMe, eQ]
            push_cast
            ring
          have hW24 : f32_round_abs (w : ℚ) * (2 : ℚ) ^ (-24 : Int)
              = (2 : ℚ) ^ (f32_quantum (w : ℚ) - 1) := by
            rw [hWv]
            norm_num
            ring
          rw [hW24] at hxW
          push_cast
          rw [hWv] at hxW ⊢
          nlinarith
      · have hM1 : 2 ^ 23 + 1 ≤ M := by omega
        have hM1q : ((2 : ℚ) ^ 23 + 1) ≤ (M : ℚ) := by exact_mod_cast hM1
        refine ⟨M - 1, f32_quantum (w : ℚ), ?_, q1, ?_, ?_⟩
        · rw [abs_of_nonneg (by omega)]
          omega
        · rw [hM]
          push_cast
          nlinarith
        · have hW24 : f32_round_abs (w : ℚ) * (2 : ℚ) ^ (-24 : Int)
              = (M : ℚ) * (2 : ℚ) ^ (-24 : Int) * (2 : ℚ) ^ f32_quantum (w : ℚ) := by
            rw [hM]
            ring
          have hgt : (2 : ℚ) ^ f32_quantum (w : ℚ)
              < 2 * ((M : ℚ) * (2 : ℚ) ^ (-24 : Int) * (2 : ℚ) ^ f32_quantum (w : ℚ)) := by
            have h1 : (1 : ℚ) < 2 * ((M : ℚ) * (2 : ℚ) ^ (-24 : Int)) := by
              have : (2 : ℚ) ^ (-24 : Int) = 1 / 2 ^ 24 := by norm_num
              rw [this]
              have h24 : (0 : ℚ) < 2 ^ 24 := by norm_num
              rw [mul_one_div, ← mul_div_assoc, lt_div_iff₀ h24]
              linarith
            nlinarith
          rw [hW24] at hxW
          rw [hM] at hxW ⊢
          push_cast
          linarith
    obtain ⟨m, e, hm, he, hfW, hmid⟩ := hpred
    have hyW : f32_round_abs (f32_round_abs (w : ℚ) * r) < f32_round_abs (w : ℚ) := by
      by_contra hc
      have hy : f32_round_abs (f32_round_abs (w : ℚ) * r) = f32_round_abs (w : ℚ) :=
        le_antisymm ha (not_lt.mp hc)
      have hn := f32_round_abs_nearest _ hx0 m e hm he
      rw [hy] at hn
      have h2 : |f32_round_abs (w : ℚ) * r - f32_round_abs (w : ℚ)|
          = f32_round_abs (w : ℚ) - f32_round_abs (w : ℚ) * r := by
        rw [abs_of_nonpos (by nlinarith)]
        ring
      rw [h2] at hn
      have h3 : |f32_round_abs (w : ℚ) * r - (m : ℚ) * (2 : ℚ) ^ e|
          < f32_round_abs (w : ℚ) - f32_round_abs (w : ℚ) * r := by
        rw [abs_lt]
        constructor <;> linarith
      linarith
    obtain ⟨M', hM', M0', M1', -⟩ := f32_round_abs_form _ hx0
    have hMabs' : |M'| ≤ 2 ^ 24 := by rw [abs_of_nonneg M0']; exact M1'
    have hn2 := f32_round_abs_nearest (w : ℚ) hwq M' _ hMabs' (f32_quantum_spec _ hx0).1
    rw [← hM'] at hn2
    by_contra hc
    have hyw : (w : ℚ) < f32_round_abs (f32_round_abs (w : ℚ) * r) := not_le.mp hc
    rw [abs_of_nonpos (by linarith), abs_of_nonpos (by linarith)] at hn2
    linarith

theorem float_scale_pos (w : Int) (r : ℚ) (hw : 0 < w) (r0 : 0 < r) (r1 : r < 1)
    (hf : f32_round r = r) : 0 ≤ float_scale w r ∧ float_scale w r ≤ w := by
  have hwq : (0 : ℚ) < (w : ℚ) := by exact_mod_cast hw
  obtain ⟨hx0, hle⟩ := f32_scale_le w r hw r0 r1 hf
  have hy0 := f32_round_abs_nonneg _ (le_of_lt hx0)
  unfold float_scale
  rw [f32_round_of_pos _ hwq, f32_round_of_pos _ hx0, c_int_cast_of_nonneg _ hy0]
  refine ⟨Int.floor_nonneg.mpr hy0, ?_⟩
  have := Int.floor_le_floor hle
  rwa [Int.floor_intCast] at this

theorem float_scale_zero (r : ℚ) : float_scale 0 r = 0 := by
  simp [float_scale, f32_round, f32_round_abs_zero, c_int_cast]

theorem float_scale_neg (w : Int) (r : ℚ) (hw : 0 < w) (r0 : 0 < r) :
    float_scale (-w) r = -float_scale w r := by
  have hwq : (0 : ℚ) < (w : ℚ) := by exact_mod_cast hw
  have hW0 := f32_round_abs_nonneg (w : ℚ) (le_of_lt hwq)
  have hx0 : 0 ≤ f32_round_abs (w : ℚ) * r := mul_nonneg hW0 (le_of_lt r0)
  have hy0 := f32_round_abs_nonneg _ hx0
  have e1 : f32_round ((-w : Int) : ℚ) = -f32_round_abs (w : ℚ) := by
    have : ((-w : Int) : ℚ) < 0 := by push_cast; linarith
    simp only [f32_round, if_pos this]
    push_cast
    rw [neg_neg]
  have e2 : f32_round (w : ℚ) = f32_round_abs (w : ℚ) := f32_round_of_pos _ hwq
  unfold float_scale
  rw [e1, e2]
  rcases eq_or_lt_of_le hx0 with hz | hpos
  · rw [neg_mul, ← hz]
    simp [f32_round, f32_round_abs_zero, c_int_cast]
  · have hneg : -f32_round_abs (w : ℚ) * r < 0 := by rw [neg_mul]; linarith
    have e3 : f32_round (-f32_round_abs (w : ℚ) * r)
        = -f32_round_abs (f32_round_abs (w : ℚ) * r) := by
      simp only [f32_round, if_pos hneg]
      rw [neg_mul, neg_neg]
    rw [e3, f32_round_of_pos _ hpos, c_int_cast_of_nonneg _ hy0]
    rcases eq_or_lt_of_le hy0 with hz | hpos2
    · rw [← hz]
      simp [c_int_cast]
    · have hn : ¬ (0 ≤ -f32_round_abs (f32_round_abs (w : ℚ) * r)) := by
        intro hc; linarith
      simp only [c_int_cast, if_neg hn]
      rw [Int.ceil_neg]

/-- The length `(int)(len * ratio)` lies between 0 and `len`, whatever the sign of `len`,
for a binary32 ratio strictly between 0 and 1. -/
theorem float_scale_between (w : Int) (r : ℚ) (r0 : 0 < r) (r1 : r < 1)
    (hf : f32_round r = r) :
    (0 ≤ w → 0 ≤ float_scale w r ∧ float_scale w r ≤ w) ∧
    (w ≤ 0 → w ≤ float_scale w r ∧ float_scale w r ≤ 0) := by
  constructor
  · intro hw
    rcases eq_or_lt_of_le hw with hz | hpos
    · rw [← hz, float_scale_zero]
      exact ⟨le_refl _, le_refl _⟩
    · exact float_scale_pos w r hpos r0 r1 hf
  · intro hw
    rcases eq_or_lt_of_le hw with hz | hneg
    · rw [hz, float_scale_zero]
      exact ⟨le_refl _, le_refl _⟩
    · have hpos : 0 < -w := by omega
      obtain ⟨b0, b1⟩ := float_scale_pos (-w) r hpos r0 r1 hf
      have e := float_scale_neg (-w) r hpos r0
      rw [neg_neg] at e
      rw [e]
      omega

theorem float_scale_exact (len : Int) (r : ℚ) (h0 : 0 ≤ (len : ℚ) * r)
    (e1 : f32_round (len : ℚ) = (len : ℚ))
    (e2 : f32_round ((len : ℚ) * r) = (len : ℚ) * r) :
    float_scale len r = ⌊(len : ℚ) * r⌋ := by
  unfold float_scale
  rw [e1, e2, c_int_cast_of_nonneg _ h0]

/-- C7 (counterexample): the root of `seven_tenths_heap` is split vertically with the
ratio `0.7f`, a `float` value.  Laid out on `(0, 0, 1000, 800)` its first child gets
`(0, 0, 700, 800)` and its second child `(700, 0, 300, 800)`, while `⌊1000 * ratio⌋` is
699: the `float` product of 1000 and the ratio is 700. -/
theorem bsp_apply_layout_rounds_product :
    (seven_tenths_heap 0).map (fun n => (n.left_child, n.right_child, n.split, n.split_ratio))
      = some (some 1, some 2, SPLIT_VERTICAL, 11744051 / 16777216) ∧
    f32_round (11744051 / 16777216) = 11744051 / 16777216 ∧
    ⌊((1000 : Int) : ℚ) * (11744051 / 16777216)⌋ = 699 ∧
    ((andThen (bsp_apply_layout 2 seven_tenths_heap (some 0) 0 0 1000 800)
        fun h => h 1).map bsp_node.rect) = some ⟨0, 0, 700, 800⟩ ∧
    ((andThen (bsp_apply_layout 2 seven_tenths_heap (some 0) 0 0 1000 800)
        fun h => h 2).map bsp_node.rect) = some ⟨700, 0, 300, 800⟩ :=
  ⟨by decide!, by decide!, by decide!, by decide!, by decide!⟩

/-- C7 (amended): a split node `a` (content `n`, ratio not negative, as every ratio of the
data model is) heading a tree held by the heap is laid out on `(x, y, w, ht)` with `w`
and `ht` not negative.  If it is split vertically, its first child gets `(x, y, l, ht)`
and its second child `(x + l, y, w - l, ht)`, where `l` is `(int)(w * ratio)`: the
`float` product of `w` and the ratio, truncated.  If horizontally, they get
`(x, y, w, t)` and `(x, y + t, w, ht - t)`, where `t` is `(int)(ht * ratio)`.  The length
`l` is `⌊w * ratio⌋` whenever `w` and the exact product are `float` values, and likewise
`t`. -/
theorem bsp_apply_layout_children (h : Heap) (a : Nat) (l r : Shape) (n : bsp_node)
    (fuel : Nat) (x y w ht : Int) (hrep : Reps h (.node a l r))
    (hnd : (Shape.node a l r).addrs.Nodup) (hfuel : (Shape.node a l r).depth ≤ fuel)
    (hn : h a = some n) (hw : 0 ≤ w) (hh : 0 ≤ ht) (hr0 : 0 ≤ n.split_ratio) :
    ∃ (h' : Heap) (L R : bsp_node),
      bsp_apply_layout fuel h (some a) x y w ht = some h' ∧
      n.left_child = some l.root ∧ n.right_child = some r.root ∧
      h' l.root = some L ∧ h' r.root = some R ∧
      (n.split = SPLIT_VERTICAL →
        L.rect = ⟨x, y, float_scale w n.split_ratio, ht⟩ ∧
        R.rect = ⟨x + float_scale w n.split_ratio, y, w - float_scale w n.split_ratio, ht⟩) ∧
      (n.split = SPLIT_HORIZONTAL →
        L.rect = ⟨x, y, w, float_scale ht n.split_ratio⟩ ∧
        R.rect = ⟨x, y + float_scale ht n.split_ratio, w,
          ht - float_scale ht n.split_ratio⟩) ∧
      (f32_round (w : ℚ) = (w : ℚ) →
        f32_round ((w : ℚ) * n.split_ratio) = (w : ℚ) * n.split_ratio →
        float_scale w n.split_ratio = ⌊(w : ℚ) * n.split_ratio⌋) ∧
      (f32_round (ht : ℚ) = (ht : ℚ) →
        f32_round ((ht : ℚ) * n.split_ratio) = (ht : ℚ) * n.split_ratio →
        float_scale ht n.split_ratio = ⌊(ht : ℚ) * n.split_ratio⌋) := by
  obtain ⟨h', run, laid, -, same⟩ :=
    bsp_apply_layout_spec (.node a l r) fuel h x y w ht hrep hnd hfuel
  obtain ⟨n0, hn0, hl0, hr0', -, -⟩ := (reps_node_iff h a l r).mp hrep
  have en : n0 = n := by rw [hn] at hn0; exact (Option.some.inj hn0).symm
  subst en
  obtain ⟨m, hm, -, laidl, laidr⟩ := (laid_node_iff h' a l r _).mp laid
  have hmn : m.no_rect = n0.no_rect := by
    have := same a
    simpa [hm, hn] using this
  have f := no_rect_fields m n0 hmn
  obtain ⟨L, hL, rL⟩ := laid_root h' l _ laidl
  obtain ⟨R, hR, rR⟩ := laid_root h' r _ laidr
  refine ⟨h', L, R, run, hl0, hr0', hL, hR, ?_, ?_, ?_, ?_⟩
  · intro hv
    rw [rL, rR]
    simp only [left_rect, right_rect, f.2.2.2.2.1, f.2.2.2.2.2, hv, if_true, and_self]
  · intro hv
    have hv' : ¬ n0.split = SPLIT_VERTICAL := by rw [hv]; decide
    rw [rL, rR]
    simp only [left_rect, right_rect, f.2.2.2.2.1, f.2.2.2.2.2, hv', if_false, and_self]
  · exact float_scale_exact w n0.split_ratio (mul_nonneg (by exact_mod_cast hw) hr0)
  · exact float_scale_exact ht n0.split_ratio (mul_nonneg (by exact_mod_cast hh) hr0)

/-- Witness of C7: the root of `pair_heap`, vertical at one half, on `(0, 0, 1000, 800)`:
the first child gets `(0, 0, 500, 800)`, the second `(500, 0, 500, 800)`. -/
theorem bsp_apply_layout_children_witness :
    ∃ (h' : Heap) (L R : bsp_node),
      bsp_apply_layout 2 pair_heap (some 0) 0 0 1000 800 = some h' ∧
      h' 1 = some L ∧ h' 2 = some R ∧
      L.rect = ⟨0, 0, 500, 800⟩ ∧ R.rect = ⟨500, 0, 500, 800⟩ := by
  obtain ⟨h', L, R, run, -, -, hL, hR, hv, -, -, -⟩ :=
    bsp_apply_layout_children pair_heap 0 (.leaf 1) (.leaf 2)
      { fresh_node with left_child := some 1, right_child := some 2 } 2 0 0 1000 800
      (by simp [Reps, pair_heap, Shape.root, fresh_node])
      (by simp [Shape.addrs]) (by simp [Shape.depth]) rfl (by norm_num) (by norm_num)
      (by norm_num [fresh_node])
  have hv' := hv rfl
  have e : float_scale 1000 (1 / 2) = 500 := by decide!
  simp only [fresh_node, e] at hv'
  exact ⟨h', L, R, run, hL, hR, by simpa using hv'.1, by simpa using hv'.2⟩

/-! ## Geometry of a layout -/

theorem ratios_node_iff (h : Heap) (a : Nat) (l r : Shape) :
    RatiosOK h (.node a l r) ↔ ∃ n, h a = some n ∧ 0 < n.split_ratio ∧ n.split_ratio < 1 ∧
      f32_round n.split_ratio = n.split_ratio ∧ RatiosOK h l ∧ RatiosOK h r := by
  simp only [RatiosOK]
  cases h a with
  | none => simp
  | some n => simp [and_assoc]

theorem ratios_congr (h h' : Heap) (hsame : ∀ q, (h' q).map bsp_node.no_rect
    = (h q).map bsp_node.no_rect) : ∀ s : Shape, RatiosOK h s → RatiosOK h' s := by
  intro s
  induction s with
  | leaf a => intro _; simp [RatiosOK]
  | node a l r ihl ihr =>
    intro hr
    obtain ⟨n, hn, r0, r1, rf, hl, hrr⟩ := (ratios_node_iff h a l r).mp hr
    obtain ⟨m, hm, hmn⟩ := no_rect_live h h' hsame a n hn
    have f := no_rect_fields m n hmn
    exact (ratios_node_iff h' a l r).mpr
      ⟨m, hm, by rw [f.2.2.2.2.2]; exact r0, by rw [f.2.2.2.2.2]; exact r1,
        by rw [f.2.2.2.2.2]; exact rf, ihl hl, ihr hrr⟩

/-- The two rectangles a split node passes down tile the rectangle it is laid out on. -/
theorem split_rects_tile (n : bsp_node) (R : Rect) (hw : 0 ≤ R.width) (hh : 0 ≤ R.height)
    (r0 : 0 < n.split_ratio) (r1 : n.split_ratio < 1)
    (rf : f32_round n.split_ratio = n.split_ratio) :
    (0 ≤ (left_rect n R).width ∧ 0 ≤ (left_rect n R).height) ∧
    (0 ≤ (right_rect n R).width ∧ 0 ≤ (right_rect n R).height) ∧
    (∀ px py : ℚ, ¬ ((left_rect n R).contains px py ∧ (right_rect n R).contains px py)) ∧
    (∀ px py : ℚ, R.contains px py ↔
      ((left_rect n R).contains px py ∨ (right_rect n R).contains px py)) := by
  by_cases hv : n.split = SPLIT_VERTICAL
  · obtain ⟨b0, b1⟩ := (float_scale_between R.width n.split_ratio r0 r1 rf).1 hw
    have b0q : (0 : ℚ) ≤ (float_scale R.width n.split_ratio : ℚ) := by exact_mod_cast b0
    have b1q : (float_scale R.width n.split_ratio : ℚ) ≤ (R.width : ℚ) := by
      exact_mod_cast b1
    simp only [left_rect, right_rect, if_pos hv, Rect.contains]
    refine ⟨⟨b0, hh⟩, ⟨by omega, hh⟩, ?_, ?_⟩
    · intro px py
      push_cast
      rintro ⟨⟨-, h2, -, -⟩, ⟨h3, -, -, -⟩⟩
      linarith
    · intro px py
      push_cast
      constructor
      · rintro ⟨h1, h2, h3, h4⟩
        by_cases hc : px < (R.x : ℚ) + (float_scale R.width n.split_ratio : ℚ)
        · exact Or.inl ⟨h1, hc, h3, h4⟩
        · exact Or.inr ⟨not_lt.mp hc, by linarith, h3, h4⟩
      · rintro (⟨h1, h2, h3, h4⟩ | ⟨h1, h2, h3, h4⟩)
        · exact ⟨h1, by linarith, h3, h4⟩
        · exact ⟨by linarith, by linarith, h3, h4⟩
  · obtain ⟨b0, b1⟩ := (float_scale_between R.height n.split_ratio r0 r1 rf).1 hh
    have b0q : (0 : ℚ) ≤ (float_scale R.height n.split_ratio : ℚ) := by
      exact_mod_cast b0
    have b1q : (float_scale R.height n.split_ratio : ℚ) ≤ (R.height : ℚ) := by
      exact_mod_cast b1
    simp only [left_rect, right_rect, if_neg hv, Rect.contains]
    refine ⟨⟨hw, b0⟩, ⟨hw, by omega⟩, ?_, ?_⟩
    · intro px py
      push_cast
      rintro ⟨⟨-, -, -, h2⟩, ⟨-, -, h3, -⟩⟩
      linarith
    · intro px py
      push_cast
      constructor
      · rintro ⟨h1, h2, h3, h4⟩
        by_cases hc : py < (R.y : ℚ) + (float_scale R.height n.split_ratio : ℚ)
        · exact Or.inl ⟨h1, h2, h3, hc⟩
        · exact Or.inr ⟨h1, h2, not_lt.mp hc, by linarith⟩
      · rintro (⟨h1, h2, h3, h4⟩ | ⟨h1, h2, h3, h4⟩)
        · exact ⟨h1, h2, h3, by linarith⟩
        · exact ⟨h1, h2, by linarith, by linarith⟩

/-- In a laid-out tree with ratios in range, on a rectangle with no negative side, the
cached rectangles of the two children of every split node tile that of the node. -/
theorem laid_geometry (h : Heap) : ∀ (s : Shape) (R0 : Rect),
    Reps h s → RatiosOK h s → Laid h s R0 → 0 ≤ R0.width → 0 ≤ R0.height →
    ∀ a ∈ s.addrs, ∀ (n L R : bsp_node) (cl cr : Nat),
      h a = some n → n.left_child = some cl → n.right_child = some cr →
      h cl = some L → h cr = some R →
      (∀ px py : ℚ, ¬ (L.rect.contains px py ∧ R.rect.contains px py)) ∧
      (∀ px py : ℚ, n.rect.contains px py ↔
        (L.rect.contains px py ∨ R.rect.contains px py)) := by
  intro s
  induction s with
  | leaf a =>
    intro R0 hrep _ _ _ _ b hb n L R cl cr hn hcl _ _ _
    have hb' : b = a := by simpa [Shape.addrs] using hb
    subst hb'
    obtain ⟨m, hm, hml, -⟩ := (reps_leaf_iff h b).mp hrep
    rw [hn] at hm
    have := Option.some.inj hm
    subst this
    rw [hcl] at hml
    exact absurd hml (by simp)
  | node a l r ihl ihr =>
    intro R0 hrep hrat hlaid hw hh b hb n L R cl cr hn hcl hcr hL hR
    obtain ⟨m, hm, hml, hmr, hRl, hRr⟩ := (reps_node_iff h a l r).mp hrep
    obtain ⟨m1, hm1, r0, r1, rf, hratl, hratr⟩ := (ratios_node_iff h a l r).mp hrat
    obtain ⟨m2, hm2, hrect, laidl, laidr⟩ := (laid_node_iff h a l r R0).mp hlaid
    have e1 : m1 = m := by rw [hm] at hm1; exact (Option.some.inj hm1).symm
    have e2 : m2 = m := by rw [hm] at hm2; exact (Option.some.inj hm2).symm
    subst e1; subst e2
    obtain ⟨nnl, nnr, hdis, hcov⟩ := split_rects_tile m2 R0 hw hh r0 r1 rf
    simp only [Shape.addrs, List.mem_cons, List.mem_append] at hb
    rcases hb with hb | hb | hb
    · rw [hb, hm2] at hn
      have e3 : m2 = n := Option.some.inj hn
      rw [e3] at hml hmr hrect laidl laidr hdis hcov
      have ecl : l.root = cl := by rw [hml] at hcl; exact Option.some.inj hcl
      have ecr : r.root = cr := by rw [hmr] at hcr; exact Option.some.inj hcr
      obtain ⟨L', hL', rL⟩ := laid_root h l _ laidl
      obtain ⟨R', hR', rR⟩ := laid_root h r _ laidr
      rw [ecl, hL] at hL'
      rw [ecr, hR] at hR'
      have eL : L = L' := Option.some.inj hL'
      have eR : R = R' := Option.some.inj hR'
      rw [eL, eR, rL, rR, hrect]
      exact ⟨hdis, hcov⟩
    · exact ihl _ hRl hratl laidl nnl.1 nnl.2 b hb n L R cl cr hn hcl hcr hL hR
    · exact ihr _ hRr hratr laidr nnr.1 nnr.2 b hb n L R cl cr hn hcl hcr hL hR

/-- C8: for a tree of shape `s` held by the heap (distinct cells, ratios `float` values
strictly between 0 and 1) and a rectangle with no negative side, `bsp_apply_layout` finishes, and
afterwards the cached rectangles of the two children of every split node of the tree share
no point and together cover exactly the points of the node's cached rectangle
(half-open containment). -/
theorem bsp_apply_layout_geometry (s : Shape) (fuel : Nat) (h : Heap) (x y w ht : Int)
    (hrep : Reps h s) (hnd : s.addrs.Nodup) (hfuel : s.depth ≤ fuel)
    (hrat : RatiosOK h s) (hw : 0 ≤ w) (hh : 0 ≤ ht) :
    ∃ h' : Heap, bsp_apply_layout fuel h (some s.root) x y w ht = some h' ∧
      ∀ a ∈ s.addrs, ∀ (n L R : bsp_node) (cl cr : Nat),
        h' a = some n → n.left_child = some cl → n.right_child = some cr →
        h' cl = some L → h' cr = some R →
        (∀ px py : ℚ, ¬ (L.rect.contains px py ∧ R.rect.contains px py)) ∧
        (∀ px py : ℚ, n.rect.contains px py ↔
          (L.rect.contains px py ∨ R.rect.contains px py)) := by
  obtain ⟨h', run, laid, -, same⟩ := bsp_apply_layout_spec s fuel h x y w ht hrep hnd hfuel
  exact ⟨h', run, laid_geometry h' s ⟨x, y, w, ht⟩ (reps_congr h h' same s hrep)
    (ratios_congr h h' same s hrat) laid hw hh⟩

theorem nested_reps : Reps nested_heap nested_shape := by
  simp [Reps, nested_heap, nested_shape, Shape.root, fresh_node]

theorem nested_nodup : nested_shape.addrs.Nodup := by
  simp [nested_shape, Shape.addrs]

theorem nested_depth : nested_shape.depth ≤ 3 := by
  simp [nested_shape, Shape.depth]

theorem nested_ratios : RatiosOK nested_heap nested_shape := by
  decide!

/-- Witness of C8: `nested_heap` laid out on `(0, 0, 1001, 803)`. -/
theorem bsp_apply_layout_geometry_witness :
    ∃ h' : Heap, bsp_apply_layout 3 nested_heap (some nested_shape.root) 0 0 1001 803
        = some h' ∧
      ∀ a ∈ nested_shape.addrs, ∀ (n L R : bsp_node) (cl cr : Nat),
        h' a = some n → n.left_child = some cl → n.right_child = some cr →
        h' cl = some L → h' cr = some R →
        (∀ px py : ℚ, ¬ (L.rect.contains px py ∧ R.rect.contains px py)) ∧
        (∀ px py : ℚ, n.rect.contains px py ↔
          (L.rect.contains px py ∨ R.rect.contains px py)) :=
  bsp_apply_layout_geometry nested_shape 3 nested_heap 0 0 1001 803
    nested_reps nested_nodup nested_depth nested_ratios (by norm_num) (by norm_num)

/-! ## Areas -/

theorem split_rects_area (n : bsp_node) (R : Rect) :
    (left_rect n R).area + (right_rect n R).area = R.area := by
  by_cases hv : n.split = SPLIT_VERTICAL
  · simp only [left_rect, right_rect, if_pos hv, Rect.area]; ring
  · simp only [left_rect, right_rect, if_neg hv, Rect.area]; ring

theorem laid_area (h : Heap) : ∀ (s : Shape) (R : Rect),
    Laid h s R → leaf_area_sum h s = R.area := by
  intro s
  induction s with
  | leaf a =>
    intro R hl
    obtain ⟨n, hn, hr⟩ := laid_root h (.leaf a) R hl
    simp only [Shape.root] at hn
    simp only [leaf_area_sum, hn, hr]
  | node a l r ihl ihr =>
    intro R hl
    obtain ⟨n, -, -, laidl, laidr⟩ := (laid_node_iff h a l r R).mp hl
    simp only [leaf_area_sum, ihl _ laidl, ihr _ laidr, split_rects_area]

theorem leaves_pos (s : Shape) : 1 ≤ s.leaves := by
  induction s with
  | leaf a => simp [Shape.leaves]
  | node a l r ihl _ => simp only [Shape.leaves]; omega

/-- C9: for a tree of shape `s` held by the heap (distinct cells), `bsp_apply_layout` on
`(x, y, w, ht)` finishes, and afterwards the areas of the cached rectangles of the leaves
sum to at most `w * ht` and to at least `w * ht` minus (number of leaves - 1). -/
theorem bsp_apply_layout_area_bounds (s : Shape) (fuel : Nat) (h : Heap) (x y w ht : Int)
    (hrep : Reps h s) (hnd : s.addrs.Nodup) (hfuel : s.depth ≤ fuel) :
    ∃ h' : Heap, bsp_apply_layout fuel h (some s.root) x y w ht = some h' ∧
      leaf_area_sum h' s ≤ Rect.area ⟨x, y, w, ht⟩ ∧
      Rect.area ⟨x, y, w, ht⟩ - ((s.leaves : Int) - 1) ≤ leaf_area_sum h' s := by
  obtain ⟨h', run, laid, -, -⟩ := bsp_apply_layout_spec s fuel h x y w ht hrep hnd hfuel
  have e := laid_area h' s _ laid
  have hl : (1 : Int) ≤ (s.leaves : Int) := by exact_mod_cast leaves_pos s
  refine ⟨h', run, le_of_eq e, ?_⟩
  rw [e]
  omega

/-- Witness of C9: `nested_heap` laid out on `(0, 0, 1001, 803)`. -/
theorem bsp_apply_layout_area_bounds_witness :
    ∃ h' : Heap, bsp_apply_layout 3 nested_heap (some nested_shape.root) 0 0 1001 803
        = some h' ∧
      leaf_area_sum h' nested_shape ≤ Rect.area ⟨0, 0, 1001, 803⟩ ∧
      Rect.area ⟨0, 0, 1001, 803⟩ - ((nested_shape.leaves : Int) - 1)
        ≤ leaf_area_sum h' nested_shape :=
  bsp_apply_layout_area_bounds nested_shape 3 nested_heap 0 0 1001 803
    nested_reps nested_nodup nested_depth

/-! ## Locating a point -/

theorem bsp_find_node_at_sound : ∀ (fuel : Nat) (h : Heap) (root : Option Nat) (px py : ℚ)
    (q : Nat), bsp_find_node_at fuel h root px py = some (some q) →
    ∃ n, h q = some n ∧ n.left_child = none ∧ n.right_child = none ∧
      n.rect.contains px py := by
  intro fuel
  induction fuel with
  | zero => intro h root px py q hq; simp [bsp_find_node_at] at hq
  | succ k ih =>
    intro h root px py q hq
    cases root with
    | none => simp [bsp_find_node_at] at hq
    | some p =>
      cases hp : h p with
      | none => simp [bsp_find_node_at, hp] at hq
      | some n =>
        simp only [bsp_find_node_at, hp, andThen_some] at hq
        by_cases hout : px < (n.x : ℚ) ∨ py < (n.y : ℚ) ∨ px ≥ ((n.x + n.width : Int) : ℚ)
            ∨ py ≥ ((n.y + n.height : Int) : ℚ)
        · rw [if_pos hout] at hq
          exact absurd hq (by simp)
        · rw [if_neg hout] at hq
          by_cases hleaf : n.left_child.isNone = true ∧ n.right_child.isNone = true
          · rw [if_pos hleaf] at hq
            have e : p = q := by simpa using hq
            subst e
            simp only [not_or, not_lt, ge_iff_le, not_le] at hout
            exact ⟨n, hp, Option.isNone_iff_eq_none.mp hleaf.1,
              Option.isNone_iff_eq_none.mp hleaf.2,
              ⟨hout.1, hout.2.2.1, hout.2.1, hout.2.2.2⟩⟩
          · rw [if_neg hleaf] at hq
            cases hl : bsp_find_node_at k h n.left_child px py with
            | none => simp [hl] at hq
            | some found =>
              simp only [hl, andThen_some] at hq
              cases found with
              | some f =>
                simp only [Option.isSome_some, if_true] at hq
                have e : f = q := by simpa using hq
                subst e
                exact ih h n.left_child px py f hl
              | none =>
                simp only [Option.isSome_none, Bool.false_eq_true, if_false] at hq
                cases hr : bsp_find_node_at k h n.right_child px py with
                | none => simp [hr] at hq
                | some found2 =>
                  simp only [hr, andThen_some] at hq
                  cases found2 with
                  | some f =>
                    simp only [Option.isSome_some, if_true] at hq
                    have e : f = q := by simpa using hq
                    subst e
                    exact ih h n.right_child px py f hr
                  | none => simp at hq

theorem bsp_find_node_at_outside (k : Nat) (h : Heap) (p : Nat) (n : bsp_node) (px py : ℚ)
    (hp : h p = some n) (hout : ¬ n.rect.contains px py) :
    bsp_find_node_at (k + 1) h (some p) px py = some none := by
  have hc : px < (n.x : ℚ) ∨ py < (n.y : ℚ) ∨ px ≥ ((n.x + n.width : Int) : ℚ)
      ∨ py ≥ ((n.y + n.height : Int) : ℚ) := by
    by_contra hcon
    simp only [not_or, not_lt, ge_iff_le, not_le] at hcon
    exact hout ⟨hcon.1, hcon.2.2.1, hcon.2.1, hcon.2.2.2⟩
  simp only [bsp_find_node_at, hp, andThen_some, if_pos hc]

/-- C10: whatever the heap and its cached rectangles, a node returned by
`bsp_find_node_at` is a live leaf whose cached rectangle contains the point (half-open
containment); and when the point is not inside the cached rectangle of the live root, in
particular when `px` is the root's `x + width`, the call returns `NULL`. -/
theorem bsp_find_node_at_spec (fuel : Nat) (h : Heap) (root : Option Nat) (px py : ℚ) :
    (∀ q, bsp_find_node_at fuel h root px py = some (some q) →
      ∃ n, h q = some n ∧ n.left_child = none ∧ n.right_child = none ∧
        (n.x : ℚ) ≤ px ∧ px < ((n.x + n.width : Int) : ℚ) ∧
        (n.y : ℚ) ≤ py ∧ py < ((n.y + n.height : Int) : ℚ)) ∧
    (∀ p n, root = some p → h p = some n → 0 < fuel →
      ¬ ((n.x : ℚ) ≤ px ∧ px < ((n.x + n.width : Int) : ℚ) ∧
         (n.y : ℚ) ≤ py ∧ py < ((n.y + n.height : Int) : ℚ)) →
      bsp_find_node_at fuel h root px py = some none) ∧
    (∀ p n, root = some p → h p = some n → 0 < fuel →
      px = ((n.x + n.width : Int) : ℚ) →
      bsp_find_node_at fuel h root px py = some none) := by
  refine ⟨fun q hq => bsp_find_node_at_sound fuel h root px py q hq, ?_, ?_⟩
  · intro p n hroot hp hf hout
    obtain ⟨k, rfl⟩ : ∃ k, fuel = k + 1 := ⟨fuel - 1, by omega⟩
    rw [hroot]
    exact bsp_find_node_at_outside k h p n px py hp hout
  · intro p n hroot hp hf hx
    obtain ⟨k, rfl⟩ : ∃ k, fuel = k + 1 := ⟨fuel - 1, by omega⟩
    rw [hroot]
    refine bsp_find_node_at_outside k h p n px py hp ?_
    rintro ⟨-, h2, -, -⟩
    rw [hx] at h2
    exact lt_irrefl _ h2

theorem laid_pair_find : bsp_find_node_at 2 laid_pair_heap (some 0) 600 10 = some (some 2) := by
  simp only [bsp_find_node_at, laid_pair_heap, fresh_node, andThen_some]
  norm_num

/-- Witness of C10: in `laid_pair_heap` the point `(600, 10)` is located in leaf 2, whose
rectangle contains it, and the point `(1000, 10)` on the far edge of the root is located
nowhere. -/
theorem bsp_find_node_at_spec_witness :
    (∃ n, laid_pair_heap 2 = some n ∧ n.left_child = none ∧ n.right_child = none ∧
        (n.x : ℚ) ≤ 600 ∧ (600 : ℚ) < ((n.x + n.width : Int) : ℚ) ∧
        (n.y : ℚ) ≤ 10 ∧ (10 : ℚ) < ((n.y + n.height : Int) : ℚ)) ∧
    bsp_find_node_at 2 laid_pair_heap (some 0) 1000 10 = some none :=
  ⟨(bsp_find_node_at_spec 2 laid_pair_heap (some 0) 600 10).1 2 laid_pair_find,
   (bsp_find_node_at_spec 2 laid_pair_heap (some 0) 1000 10).2.2 0
      { fresh_node with left_child := some 1, right_child := some 2,
                        width := 1000, height := 800 }
      rfl rfl (by decide) (by norm_num [fresh_node])⟩

/-! ## Locating a point in a laid-out tree -/

/-- Whatever the signs of the sides, the two rectangles a split node with a `float` ratio
strictly between 0 and 1 passes down share no point and cover exactly the rectangle laid
out. -/
theorem split_rects_cover (n : bsp_node) (R : Rect) (r0 : 0 < n.split_ratio)
    (r1 : n.split_ratio < 1) (rf : f32_round n.split_ratio = n.split_ratio) (px py : ℚ) :
    ¬ ((left_rect n R).contains px py ∧ (right_rect n R).contains px py) ∧
    (R.contains px py ↔
      ((left_rect n R).contains px py ∨ (right_rect n R).contains px py)) := by
  by_cases hv : n.split = SPLIT_VERTICAL
  · obtain ⟨bp, bn⟩ := float_scale_between R.width n.split_ratio r0 r1 rf
    simp only [left_rect, right_rect, if_pos hv, Rect.contains]
    push_cast
    rcases le_total 0 R.width with hw | hw
    · obtain ⟨b0, b1⟩ := bp hw
      have b0q : (0 : ℚ) ≤ (float_scale R.width n.split_ratio : ℚ) := by
        exact_mod_cast b0
      have b1q : (float_scale R.width n.split_ratio : ℚ) ≤ (R.width : ℚ) := by
        exact_mod_cast b1
      refine ⟨?_, ?_, ?_⟩
      · rintro ⟨⟨-, h2, -, -⟩, ⟨h3, -, -, -⟩⟩
        linarith
      · rintro ⟨h1, h2, h3, h4⟩
        by_cases hc : px < (R.x : ℚ) + (float_scale R.width n.split_ratio : ℚ)
        · exact Or.inl ⟨h1, hc, h3, h4⟩
        · exact Or.inr ⟨not_lt.mp hc, by linarith, h3, h4⟩
      · rintro (⟨h1, h2, h3, h4⟩ | ⟨h1, h2, h3, h4⟩)
        · exact ⟨h1, by linarith, h3, h4⟩
        · exact ⟨by linarith, by linarith, h3, h4⟩
    · obtain ⟨b0, b1⟩ := bn hw
      have hwq : (R.width : ℚ) ≤ 0 := by exact_mod_cast hw
      have b0q : (R.width : ℚ) ≤ (float_scale R.width n.split_ratio : ℚ) := by
        exact_mod_cast b0
      have b1q : (float_scale R.width n.split_ratio : ℚ) ≤ 0 := by
        exact_mod_cast b1
      refine ⟨?_, ?_, ?_⟩
      · rintro ⟨⟨h1, h2, -, -⟩, -⟩
        linarith
      · rintro ⟨h1, h2, -, -⟩
        linarith
      · rintro (⟨h1, h2, h3, h4⟩ | ⟨h1, h2, h3, h4⟩)
        · linarith
        · linarith
  · obtain ⟨bp, bn⟩ := float_scale_between R.height n.split_ratio r0 r1 rf
    simp only [left_rect, right_rect, if_neg hv, Rect.contains]
    push_cast
    rcases le_total 0 R.height with hw | hw
    · obtain ⟨b0, b1⟩ := bp hw
      have b0q : (0 : ℚ) ≤ (float_scale R.height n.split_ratio : ℚ) := by
        exact_mod_cast b0
      have b1q : (float_scale R.height n.split_ratio : ℚ) ≤ (R.height : ℚ) := by
        exact_mod_cast b1
      refine ⟨?_, ?_, ?_⟩
      · rintro ⟨⟨-, -, -, h2⟩, ⟨-, -, h3, -⟩⟩
        linarith
      · rintro ⟨h1, h2, h3, h4⟩
        by_cases hc : py < (R.y : ℚ) + (float_scale R.height n.split_ratio : ℚ)
        · exact Or.inl ⟨h1, h2, h3, hc⟩
        · exact Or.inr ⟨h1, h2, not_lt.mp hc, by linarith⟩
      · rintro (⟨h1, h2, h3, h4⟩ | ⟨h1, h2, h3, h4⟩)
        · exact ⟨h1, h2, h3, by linarith⟩
        · exact ⟨h1, h2, by linarith, by linarith⟩
    · obtain ⟨b0, b1⟩ := bn hw
      have hwq : (R.height : ℚ) ≤ 0 := by exact_mod_cast hw
      have b0q : (R.height : ℚ) ≤ (float_scale R.height n.split_ratio : ℚ) := by
        exact_mod_cast b0
      have b1q : (float_scale R.height n.split_ratio : ℚ) ≤ 0 := by
        exact_mod_cast b1
      refine ⟨?_, ?_, ?_⟩
      · rintro ⟨⟨-, -, h1, h2⟩, -⟩
        linarith
      · rintro ⟨-, -, h1, h2⟩
        linarith
      · rintro (⟨h1, h2, h3, h4⟩ | ⟨h1, h2, h3, h4⟩)
        · linarith
        · linarith

theorem bsp_find_node_at_inside (k : Nat) (h : Heap) (p : Nat) (n : bsp_node) (px py : ℚ)
    (hp : h p = some n) (hin : n.rect.contains px py) :
    bsp_find_node_at (k + 1) h (some p) px py =
      if n.left_child.isNone ∧ n.right_child.isNone then some (some p)
      else
        andThen (bsp_find_node_at k h n.left_child px py) fun (found : Option Nat) =>
        if found.isSome then some found
        else
          andThen (bsp_find_node_at k h n.right_child px py) fun (found2 : Option Nat) =>
          if found2.isSome then some found2
          else some none := by
  have hc : ¬ (px < (n.x : ℚ) ∨ py < (n.y : ℚ) ∨ px ≥ ((n.x + n.width : Int) : ℚ)
      ∨ py ≥ ((n.y + n.height : Int) : ℚ)) := by
    obtain ⟨h1, h2, h3, h4⟩ := hin
    simp only [bsp_node.rect] at h1 h2 h3 h4
    simp only [not_or, not_lt, ge_iff_le, not_le]
    exact ⟨h1, h3, h2, h4⟩
  simp only [bsp_find_node_at, hp, andThen_some, if_neg hc]

/-- In a laid-out tree with ratios in range: a point inside the rectangle of the top node
is located in a leaf, the only leaf whose cached rectangle contains it; a point outside is
located nowhere and no leaf contains it. -/
theorem find_laid (h : Heap) (px py : ℚ) : ∀ (s : Shape) (R : Rect) (fuel : Nat),
    Reps h s → RatiosOK h s → Laid h s R → s.depth ≤ fuel →
    (R.contains px py →
      ∃ a ∈ s.leaf_addrs, bsp_find_node_at fuel h (some s.root) px py = some (some a) ∧
        ∀ b ∈ s.leaf_addrs, ∀ n, h b = some n → n.rect.contains px py → b = a) ∧
    (¬ R.contains px py →
      bsp_find_node_at fuel h (some s.root) px py = some none ∧
        ∀ b ∈ s.leaf_addrs, ∀ n, h b = some n → ¬ n.rect.contains px py) := by
  intro s
  induction s with
  | leaf a =>
    intro R fuel hrep _ hlaid hd
    obtain ⟨k, rfl⟩ : ∃ k, fuel = k + 1 := ⟨fuel - 1, by simp [Shape.depth] at hd; omega⟩
    obtain ⟨n, hn, hl, hr⟩ := (reps_leaf_iff h a).mp hrep
    obtain ⟨n', hn', hrect⟩ := laid_root h (.leaf a) R hlaid
    simp only [Shape.root] at hn'
    rw [hn] at hn'
    have e : n = n' := Option.some.inj hn'
    rw [← e] at hrect
    constructor
    · intro hin
      refine ⟨a, by simp [Shape.leaf_addrs], ?_, ?_⟩
      · show bsp_find_node_at (k + 1) h (some a) px py = some (some a)
        rw [bsp_find_node_at_inside k h a n px py hn (by rw [hrect]; exact hin)]
        simp [hl, hr]
      · intro b hb _ _ _
        simpa [Shape.leaf_addrs] using hb
    · intro hout
      refine ⟨bsp_find_node_at_outside k h a n px py hn (by rw [hrect]; exact hout), ?_⟩
      intro b hb m hm
      have eb : b = a := by simpa [Shape.leaf_addrs] using hb
      rw [eb, hn] at hm
      rw [← Option.some.inj hm, hrect]
      exact hout
  | node a l r ihl ihr =>
    intro R fuel hrep hrat hlaid hd
    obtain ⟨k, rfl⟩ : ∃ k, fuel = k + 1 := ⟨fuel - 1, by simp [Shape.depth] at hd; omega⟩
    have hdl : l.depth ≤ k := by simp [Shape.depth] at hd; omega
    have hdr : r.depth ≤ k := by simp [Shape.depth] at hd; omega
    obtain ⟨n, hn, hl, hr, hRl, hRr⟩ := (reps_node_iff h a l r).mp hrep
    obtain ⟨n1, hn1, r0, r1, rf, hratl, hratr⟩ := (ratios_node_iff h a l r).mp hrat
    obtain ⟨n2, hn2, hrect, laidl, laidr⟩ := (laid_node_iff h a l r R).mp hlaid
    rw [hn] at hn1 hn2
    have e1 : n = n1 := Option.some.inj hn1
    have e2 : n = n2 := Option.some.inj hn2
    rw [← e1] at r0 r1 rf
    rw [← e2] at hrect laidl laidr
    obtain ⟨hdis, hcov⟩ := split_rects_cover n R r0 r1 rf px py
    obtain ⟨inl, outl⟩ := ihl (left_rect n R) k hRl hratl laidl hdl
    obtain ⟨inr, outr⟩ := ihr (right_rect n R) k hRr hratr laidr hdr
    have hnotleaf : ¬ (n.left_child.isNone = true ∧ n.right_child.isNone = true) := by
      simp [hl]
    constructor
    · intro hin
      have hstep := bsp_find_node_at_inside k h a n px py hn (by rw [hrect]; exact hin)
      rw [if_neg hnotleaf, hl, hr] at hstep
      rcases hcov.mp hin with hL | hR
      · have hnR : ¬ (right_rect n R).contains px py := fun hc => hdis ⟨hL, hc⟩
        obtain ⟨b, hb, hfind, huniq⟩ := inl hL
        refine ⟨b, by simp [Shape.leaf_addrs, hb], ?_, ?_⟩
        · show bsp_find_node_at (k + 1) h (some a) px py = some (some b)
          rw [hstep, hfind]
          simp
        · intro c hc m hm hcm
          simp only [Shape.leaf_addrs, List.mem_append] at hc
          rcases hc with hc | hc
          · exact huniq c hc m hm hcm
          · exact absurd hcm ((outr hnR).2 c hc m hm)
      · have hnL : ¬ (left_rect n R).contains px py := fun hc => hdis ⟨hc, hR⟩
        obtain ⟨b, hb, hfind, huniq⟩ := inr hR
        refine ⟨b, by simp [Shape.leaf_addrs, hb], ?_, ?_⟩
        · show bsp_find_node_at (k + 1) h (some a) px py = some (some b)
          rw [hstep, (outl hnL).1, andThen_some]
          simp [hfind]
        · intro c hc m hm hcm
          simp only [Shape.leaf_addrs, List.mem_append] at hc
          rcases hc with hc | hc
          · exact absurd hcm ((outl hnL).2 c hc m hm)
          · exact huniq c hc m hm hcm
    · intro hout
      refine ⟨bsp_find_node_at_outside k h a n px py hn (by rw [hrect]; exact hout), ?_⟩
      have hnL : ¬ (left_rect n R).contains px py := fun hc => hout (hcov.mpr (Or.inl hc))
      have hnR : ¬ (right_rect n R).contains px py := fun hc => hout (hcov.mpr (Or.inr hc))
      intro c hc m hm
      simp only [Shape.leaf_addrs, List.mem_append] at hc
      rcases hc with hc | hc
      · exact (outl hnL).2 c hc m hm
      · exact (outr hnR).2 c hc m hm

/-- C11: for a tree of shape `s` held by the heap (distinct cells, ratios `float` values
strictly between 0 and 1), `bsp_apply_layout` on any rectangle finishes, and afterwards, for every point:
at most one leaf of the tree has a cached rectangle containing the point, and
`bsp_find_node_at` from the root returns a leaf exactly when the cached rectangle of
that leaf contains the point. -/
theorem bsp_find_node_at_laid_out (s : Shape) (fuel : Nat) (h : Heap) (x y w ht : Int)
    (px py : ℚ) (hrep : Reps h s) (hnd : s.addrs.Nodup) (hfuel : s.depth ≤ fuel)
    (hrat : RatiosOK h s) :
    ∃ h' : Heap, bsp_apply_layout fuel h (some s.root) x y w ht = some h' ∧
      (∀ a ∈ s.leaf_addrs, ∀ b ∈ s.leaf_addrs, ∀ na nb, h' a = some na → h' b = some nb →
        na.rect.contains px py → nb.rect.contains px py → a = b) ∧
      (∀ a ∈ s.leaf_addrs, ∀ na, h' a = some na →
        (bsp_find_node_at fuel h' (some s.root) px py = some (some a)
          ↔ na.rect.contains px py)) := by
  obtain ⟨h', run, laid, -, same⟩ := bsp_apply_layout_spec s fuel h x y w ht hrep hnd hfuel
  have hrep' := reps_congr h h' same s hrep
  have hrat' := ratios_congr h h' same s hrat
  obtain ⟨hin, hout⟩ := find_laid h' px py s ⟨x, y, w, ht⟩ fuel hrep' hrat' laid hfuel
  refine ⟨h', run, ?_, ?_⟩
  · intro a ha b hb na nb hna hnb ca cb
    by_cases hR : Rect.contains ⟨x, y, w, ht⟩ px py
    · obtain ⟨c, -, -, huniq⟩ := hin hR
      rw [huniq a ha na hna ca, huniq b hb nb hnb cb]
    · exact absurd ca ((hout hR).2 a ha na hna)
  · intro a ha na hna
    constructor
    · intro hfind
      obtain ⟨m, hm, -, -, hc⟩ := bsp_find_node_at_sound fuel h' (some s.root) px py a hfind
      rw [hna] at hm
      rw [Option.some.inj hm]
      exact hc
    · intro ca
      by_cases hR : Rect.contains ⟨x, y, w, ht⟩ px py
      · obtain ⟨c, -, hfind, huniq⟩ := hin hR
        rw [huniq a ha na hna ca]
        exact hfind
      · exact absurd ca ((hout hR).2 a ha na hna)

/-- Witness of C11: `nested_heap` laid out on `(0, 0, 1001, 803)`, the point `(600, 300)`. -/
theorem bsp_find_node_at_laid_out_witness :
    ∃ h' : Heap, bsp_apply_layout 3 nested_heap (some nested_shape.root) 0 0 1001 803
        = some h' ∧
      (∀ a ∈ nested_shape.leaf_addrs, ∀ b ∈ nested_shape.leaf_addrs, ∀ na nb,
        h' a = some na → h' b = some nb →
        na.rect.contains 600 300 → nb.rect.contains 600 300 → a = b) ∧
      (∀ a ∈ nested_shape.leaf_addrs, ∀ na, h' a = some na →
        (bsp_find_node_at 3 h' (some nested_shape.root) 600 300 = some (some a)
          ↔ na.rect.contains 600 300)) :=
  bsp_find_node_at_laid_out nested_shape 3 nested_heap 0 0 1001 803 600 300
    nested_reps nested_nodup nested_depth nested_ratios

/-! ## Inserting a window on map -/

theorem bsp_find_node_at_leaf_root (fuel : Nat) (h : Heap) (rt t : Nat) (R : bsp_node)
    (px py : ℚ) (hR : h rt = some R) (hl : R.left_child = none) (hr : R.right_child = none)
    (hfind : bsp_find_node_at fuel h (some rt) px py = some (some t)) : t = rt := by
  cases fuel with
  | zero => simp [bsp_find_node_at] at hfind
  | succ k =>
    simp only [bsp_find_node_at, hR, andThen_some, hl, hr, Option.isNone_none, and_self,
      if_true] at hfind
    split at hfind
    · simp at hfind
    · simpa using hfind.symm

theorem set_node_of_live (s : server) (p : Nat) (n : bsp_node) (f : bsp_node → bsp_node)
    (hp : s.nodes p = some n) :
    s.set_node p f = some { s with nodes := s.nodes.write p (f n) } := by
  simp [server.set_node, Heap.modify, hp]

theorem set_win_of_live (s : server) (w : Nat) (v : window) (f : window → window)
    (hw : s.wins w = some v) :
    s.set_win w f = some { s with wins := s.wins.write w (f v) } := by
  simp [server.set_win, hw]

theorem bind_window_of_live (s : server) (w p : Nat) (v : window) (n : bsp_node)
    (hw : s.wins w = some v) (hp : s.nodes p = some n) :
    bind_window s w p = some { s with
      nodes := s.nodes.write p { n with window := some w },
      wins := s.wins.write w { v with node := some p } } := by
  simp [bind_window, set_node_of_live s p n _ hp, server.set_win, hw]

/-- C12: when the node `t` located at the centre of the root's rectangle has an occupant
`w0`, and both allocations return fresh distinct cells `a1`, `a2`, the tiling block of
`handle_xdg_toplevel_map` splits `t` at ratio one half, vertically if `t` is wider than
high and horizontally otherwise; afterwards the first child `a1` holds `w0`, the second
child `a2` holds the new window `w`, and `w` points to `a2`. -/
theorem map_tile_splits_occupied (fuel : Nat) (s : server) (w rt t w0 a1 a2 : Nat)
    (v : window) (R T : bsp_node)
    (hroot : s.root = some rt) (hR : s.nodes rt = some R)
    (hfind : bsp_find_node_at fuel s.nodes (some rt)
      ((R.x + Int.tdiv R.width 2 : Int) : ℚ) ((R.y + Int.tdiv R.height 2 : Int) : ℚ)
      = some (some t))
    (hT : s.nodes t = some T) (hocc : T.window = some w0) (hw : s.wins w = some v)
    (f1 : s.nodes a1 = none) (f2 : s.nodes a2 = none) (hne : a1 ≠ a2) :
    ∃ (s' : server) (N L Rn : bsp_node) (v' : window),
      map_tile fuel s w (some a1) (some a2) = some s' ∧
      s'.nodes t = some N ∧ s'.nodes a1 = some L ∧ s'.nodes a2 = some Rn ∧
      s'.wins w = some v' ∧
      N.split_ratio = 1 / 2 ∧
      (T.width > T.height → N.split = SPLIT_VERTICAL) ∧
      (T.width ≤ T.height → N.split = SPLIT_HORIZONTAL) ∧
      N.left_child = some a1 ∧ N.right_child = some a2 ∧ N.window = none ∧
      L.window = some w0 ∧ L.left_child = none ∧ L.right_child = none ∧
      Rn.window = some w ∧ Rn.left_child = none ∧ Rn.right_child = none ∧
      v'.node = some a2 := by
  obtain ⟨T', hT', hTl, hTr, -⟩ := bsp_find_node_at_sound fuel s.nodes (some rt) _ _ t hfind
  rw [hT] at hT'
  have eT : T = T' := Option.some.inj hT'
  rw [← eT] at hTl hTr
  have hRnot : ¬ (R.window.isNone = true ∧ R.left_child.isNone = true
      ∧ R.right_child.isNone = true) := by
    rintro ⟨h1, h2, h3⟩
    have e := bsp_find_node_at_leaf_root fuel s.nodes rt t R _ _ hR
      (Option.isNone_iff_eq_none.mp h2) (Option.isNone_iff_eq_none.mp h3) hfind
    rw [e, hR] at hT
    rw [← Option.some.inj hT, Option.isNone_iff_eq_none.mp h1] at hocc
    exact absurd hocc (by simp)
  have hsplit := bsp_split_node_eq s.nodes t T
    (if T.width > T.height then SPLIT_VERTICAL else SPLIT_HORIZONTAL) (1 / 2) a1 a2
    hT hTl hTr (by norm_num) (by norm_num) f1 f2 hne
  have ht2 : a2 ≠ t := by rintro rfl; simp [hT] at f2
  have h21 : a2 ≠ a1 := Ne.symm hne
  have ht1 : a1 ≠ t := by rintro rfl; simp [hT] at f1
  have ha2 : (split_heap s.nodes t T
      (if T.width > T.height then SPLIT_VERTICAL else SPLIT_HORIZONTAL) (1 / 2) a1 a2) a2
      = some { fresh_node with parent := some t } := by
    simp [split_heap, ht2, h21]
  have hrun : map_tile fuel s w (some a1) (some a2) = some
      { s with
        nodes := (split_heap s.nodes t T
          (if T.width > T.height then SPLIT_VERTICAL else SPLIT_HORIZONTAL) (1 / 2) a1 a2).write
            a2 { fresh_node with parent := some t, window := some w },
        wins := s.wins.write w { v with node := some a2 } } := by
    simp only [map_tile, hroot, hR, hfind, hT, andThen_some, hocc, Option.isNone_some,
      Bool.false_eq_true, if_false, map_no_empty, if_neg hRnot, map_split, hsplit]
    simp only [bind_window, server.set_node, Heap.modify, ha2, andThen_some, server.set_win, hw]
  refine ⟨_,
    { T with left_child := some a1, right_child := some a2, window := none,
             split := (if T.width > T.height then SPLIT_VERTICAL else SPLIT_HORIZONTAL),
             split_ratio := 1 / 2 },
    { fresh_node with parent := some t, window := T.window },
    { fresh_node with parent := some t, window := some w },
    { v with node := some a2 },
    hrun, ?_, ?_, ?_, ?_, ?_, ?_, ?_, ?_, ?_, ?_, ?_, ?_, ?_, ?_, ?_, ?_, ?_⟩
  · simp only [Heap.write, if_neg (Ne.symm ht2), split_heap, if_true]
  · simp only [Heap.write, if_neg h21.symm, split_heap, if_neg ht1, if_true]
  · simp only [Heap.write, if_true]
  · simp only [WHeap.write, if_true]
  · rfl
  · intro hgt; simp only [if_pos hgt]
  · intro hle; simp only [if_neg (not_lt.mpr hle)]
  all_goals first | rfl | exact hocc

theorem one_window_find :
    bsp_find_node_at 1 one_window.nodes (some 0)
      (((0 : Int) + Int.tdiv 1000 2 : Int) : ℚ) (((0 : Int) + Int.tdiv 800 2 : Int) : ℚ)
      = some (some 0) := by
  decide!

/-- Witness of C12: the root leaf of `one_window` (1000 wide, 800 high, held by window
100) is split vertically for window 101. -/
theorem map_tile_splits_occupied_witness :
    ∃ (s' : server) (N L Rn : bsp_node) (v' : window),
      map_tile 1 one_window 101 (some 1) (some 2) = some s' ∧
      s'.nodes 0 = some N ∧ s'.nodes 1 = some L ∧ s'.nodes 2 = some Rn ∧
      s'.wins 101 = some v' ∧
      N.split_ratio = 1 / 2 ∧
      ((1000 : Int) > 800 → N.split = SPLIT_VERTICAL) ∧
      ((1000 : Int) ≤ 800 → N.split = SPLIT_HORIZONTAL) ∧
      N.left_child = some 1 ∧ N.right_child = some 2 ∧ N.window = none ∧
      L.window = some 100 ∧ L.left_child = none ∧ L.right_child = none ∧
      Rn.window = some 101 ∧ Rn.left_child = none ∧ Rn.right_child = none ∧
      v'.node = some 2 :=
  map_tile_splits_occupied 1 one_window 101 0 0 100 1 2
    { fresh_window with mapped := true }
    { fresh_node with width := 1000, height := 800, window := some 100 }
    { fresh_node with width := 1000, height := 800, window := some 100 }
    rfl rfl one_window_find rfl rfl rfl rfl rfl (by decide)

/-- C13 (evaluation): in `side_empty`, a laid-out tree whose leaf 4 is empty, the
tiling block locates the occupied leaf 3 at the centre `(500, 400)` and splits it into
the new cells 5 and 6: window 102 is bound to the new cell 6, leaf 3 gets children, and
leaf 4 stays empty. -/
theorem map_tile_ignores_empty_leaf :
    (side_empty.nodes 4).map (fun n => (n.left_child, n.right_child, n.window))
      = some (none, none, none) ∧
    (side_empty.nodes 3).map (fun n => (n.left_child, n.right_child, n.window))
      = some (none, none, some 101) ∧
    ((map_tile 3 side_empty 102 (some 5) (some 6)).bind fun s' => s'.nodes 3).map
      (fun n => (n.left_child, n.right_child, n.window)) = some (some 5, some 6, none) ∧
    ((map_tile 3 side_empty 102 (some 5) (some 6)).bind fun s' => s'.nodes 4).map
      (fun n => (n.left_child, n.right_child, n.window)) = some (none, none, none) ∧
    ((map_tile 3 side_empty 102 (some 5) (some 6)).bind fun s' => s'.nodes 6).map
      (fun n => (n.left_child, n.right_child, n.window)) = some (none, none, some 102) ∧
    ((map_tile 3 side_empty 102 (some 5) (some 6)).bind fun s' => s'.wins 102).map
      (fun v => v.node) = some (some 6) := by
  decide!

/-- What the tiling block does with the node it probes: let `target` be what `bsp_find_node_at` returns for the centre of the
root's rectangle.  When it is a node without occupant, the tiling block binds the new
window to that node and changes nothing else in the tree, whatever the allocator would
return; and whenever the block changes the child pointers of some cell, `target` is a
node that had an occupant. -/
theorem map_tile_centre_leaf (fuel : Nat) (s : server) (w rt : Nat) (v : window)
    (R : bsp_node) (target c1 c2 : Option Nat)
    (hroot : s.root = some rt) (hR : s.nodes rt = some R) (hw : s.wins w = some v)
    (hfind : bsp_find_node_at fuel s.nodes (some rt)
      ((R.x + Int.tdiv R.width 2 : Int) : ℚ) ((R.y + Int.tdiv R.height 2 : Int) : ℚ)
      = some target) :
    (∀ t T, target = some t → s.nodes t = some T → T.window = none →
      map_tile fuel s w c1 c2 = some { s with
        nodes := s.nodes.write t { T with window := some w },
        wins := s.wins.write w { v with node := some t } }) ∧
    (∀ s', map_tile fuel s w c1 c2 = some s' →
      (∃ q, (s'.nodes q).map (fun n => (n.left_child, n.right_child))
          ≠ (s.nodes q).map (fun n => (n.left_child, n.right_child))) →
      ∃ t T w0, target = some t ∧ s.nodes t = some T ∧ T.window = some w0) := by
  have hbind : ∀ t T, s.nodes t = some T →
      bind_window s w t = some { s with
        nodes := s.nodes.write t { T with window := some w },
        wins := s.wins.write w { v with node := some t } } :=
    fun t T hT => bind_window_of_live s w t v T hw hT
  have hsame : ∀ t T, s.nodes t = some T → ∀ q,
      ((s.nodes.write t { T with window := some w }) q).map
        (fun n => (n.left_child, n.right_child))
      = (s.nodes q).map (fun n => (n.left_child, n.right_child)) := by
    intro t T hT q
    by_cases e : q = t
    · subst e; simp [Heap.write, hT]
    · simp [Heap.write, e]
  constructor
  · intro t T ht hT hempty
    simp only [map_tile, hroot, hR, hfind, ht, hT, andThen_some, hempty, Option.isNone_none,
      if_true]
    rw [hbind t T hT, hroot]
  · intro s' hrun ⟨q, hq⟩
    cases target with
    | none =>
      exfalso
      simp only [map_tile, hroot, hR, hfind, andThen_some, map_no_empty] at hrun
      split at hrun
      · rw [hbind rt R hR] at hrun
        rw [← Option.some.inj hrun] at hq
        exact hq (hsame rt R hR q)
      · rw [set_win_of_live s w v _ hw] at hrun
        rw [← Option.some.inj hrun] at hq
        exact hq rfl
    | some t =>
      cases hT : s.nodes t with
      | none =>
        simp only [map_tile, hroot, hR, hfind, hT, andThen_some, andThen_none] at hrun
        exact absurd hrun (by simp)
      | some T =>
        cases hocc : T.window with
        | some w0 => exact ⟨t, T, w0, rfl, hT, hocc⟩
        | none =>
          exfalso
          simp only [map_tile, hroot, hR, hfind, hT, andThen_some, hocc, Option.isNone_none,
            if_true] at hrun
          rw [hbind t T hT] at hrun
          rw [← Option.some.inj hrun] at hq
          exact hq (hsame t T hT q)

theorem empty_workspace_find :
    bsp_find_node_at 1 empty_workspace.nodes (some 0)
      (((0 : Int) + Int.tdiv 1000 2 : Int) : ℚ) (((0 : Int) + Int.tdiv 800 2 : Int) : ℚ)
      = some (some 0) := by
  decide!

/-- Example of `map_tile_centre_leaf`: window 100, created in `empty_workspace`, is bound
to the empty root leaf. -/
theorem map_tile_centre_leaf_witness :
    map_tile 1 (window_create_xdg empty_workspace (some 100)).1 100 (some 1) (some 2)
      = some { (window_create_xdg empty_workspace (some 100)).1 with
        nodes := (window_create_xdg empty_workspace (some 100)).1.nodes.write 0
          { fresh_node with width := 1000, height := 800, window := some 100 },
        wins := (window_create_xdg empty_workspace (some 100)).1.wins.write 100
          { fresh_window with node := some 0 } } :=
  (map_tile_centre_leaf 1 (window_create_xdg empty_workspace (some 100)).1 100 0
    fresh_window { fresh_node with width := 1000, height := 800 } (some 0) (some 1) (some 2)
    rfl rfl (by simp [window_create_xdg, WHeap.write]) empty_workspace_find).1 0
    { fresh_node with width := 1000, height := 800 } rfl rfl rfl

/-! ## Scenarios -/

/-- C14: from the empty root laid out on `(0, 0, 1000, 800)`, mapping window 100 makes the
root a leaf held by it; mapping window 101 then gives a root split vertically whose
first child is a leaf held by window 100 with rectangle `(0, 0, 500, 800)` and whose
second child is a leaf held by window 101 with rectangle `(500, 0, 500, 800)`. -/
theorem two_windows_scenario :
    node_view after_A 0 = some (none, none, some 100, SPLIT_VERTICAL, ⟨0, 0, 1000, 800⟩) ∧
    node_view after_AB 0
      = some (some 1, some 2, none, SPLIT_VERTICAL, ⟨0, 0, 1000, 800⟩) ∧
    node_view after_AB 1 = some (none, none, some 100, SPLIT_VERTICAL, ⟨0, 0, 500, 800⟩) ∧
    node_view after_AB 2
      = some (none, none, some 101, SPLIT_VERTICAL, ⟨500, 0, 500, 800⟩) :=
  ⟨by decide!, by decide!, by decide!, by decide!⟩

/-- C15 (evaluation): window 100 holds the root leaf; `window_destroy` frees the window
and leaves it the occupant of the root. -/
theorem window_destroy_keeps_root_occupant :
    node_view after_A 0 = some (none, none, some 100, SPLIT_VERTICAL, ⟨0, 0, 1000, 800⟩) ∧
    (window_view after_A 100).map (fun o => o.map (fun v => v.node)) = some (some (some 0)) ∧
    node_view (andThen after_A fun s => window_destroy s 100) 0
      = some (none, none, some 100, SPLIT_VERTICAL, ⟨0, 0, 1000, 800⟩) ∧
    window_view (andThen after_A fun s => window_destroy s 100) 100 = some none :=
  ⟨by decide!, by decide!, by decide!, by decide!⟩

/-- C16 (evaluation): after windows 100 and 101 were mapped, window 100 still points to
the root; `window_destroy` on it frees the window and changes nothing in the tree: leaf 1
still has window 100 as occupant and the tree still has its two leaves. -/
theorem window_destroy_stale_node :
    (window_view after_AB 100).map (fun o => o.map (fun v => v.node)) = some (some (some 0)) ∧
    node_view after_AB 1 = some (none, none, some 100, SPLIT_VERTICAL, ⟨0, 0, 500, 800⟩) ∧
    window_view (andThen after_AB fun s => window_destroy s 100) 100 = some none ∧
    node_view (andThen after_AB fun s => window_destroy s 100) 0
      = some (some 1, some 2, none, SPLIT_VERTICAL, ⟨0, 0, 1000, 800⟩) ∧
    node_view (andThen after_AB fun s => window_destroy s 100) 1
      = some (none, none, some 100, SPLIT_VERTICAL, ⟨0, 0, 500, 800⟩) ∧
    node_view (andThen after_AB fun s => window_destroy s 100) 2
      = some (none, none, some 101, SPLIT_VERTICAL, ⟨500, 0, 500, 800⟩) :=
  ⟨by decide!, by decide!, by decide!, by decide!, by decide!, by decide!⟩

/-- C17 (evaluation): window 100 holds the root leaf; `window_set_floating` makes it
floating and clears its node pointer, and leaves it the occupant of the root. -/
theorem window_set_floating_keeps_root_occupant :
    (window_view (andThen after_A fun s => window_set_floating s 100 640 480) 100).map
      (fun o => o.map (fun v => (v.floating, v.node))) = some (some (true, none)) ∧
    node_view (andThen after_A fun s => window_set_floating s 100 640 480) 0
      = some (none, none, some 100, SPLIT_VERTICAL, ⟨0, 0, 1000, 800⟩) :=
  ⟨by decide!, by decide!⟩

/-- C18 (evaluation): window 100 holds the root leaf; a second map event of window 100
splits the root and makes window 100 the occupant of both new leaves. -/
theorem second_map_binds_twice :
    node_view after_A 0 = some (none, none, some 100, SPLIT_VERTICAL, ⟨0, 0, 1000, 800⟩) ∧
    node_view (andThen after_A fun s => map_event s 100) 0
      = some (some 1, some 2, none, SPLIT_VERTICAL, ⟨0, 0, 1000, 800⟩) ∧
    node_view (andThen after_A fun s => map_event s 100) 1
      = some (none, none, some 100, SPLIT_VERTICAL, ⟨0, 0, 500, 800⟩) ∧
    node_view (andThen after_A fun s => map_event s 100) 2
      = some (none, none, some 100, SPLIT_VERTICAL, ⟨500, 0, 500, 800⟩) :=
  ⟨by decide!, by decide!, by decide!, by decide!⟩

/-- C19 (evaluation): after windows 100 and 101 were mapped, window 101 is tiled and
mapped and is the occupant of leaf 2, whose rectangle is `(500, 0, 500, 800)`, but its
stored geometry is `(0, 0, 500, 800)`, the rectangle of leaf 1; one more
`server_update_layout` changes nothing of this. -/
theorem update_layout_misplaces_window :
    node_view after_AB 2
      = some (none, none, some 101, SPLIT_VERTICAL, ⟨500, 0, 500, 800⟩) ∧
    window_view after_AB 101
      = some (some { x := 0, y := 0, width := 500, height := 800, node := some 2,
                     floating := false, mapped := true }) ∧
    node_view (andThen after_AB fun s => server_update_layout 3 s) 2
      = some (none, none, some 101, SPLIT_VERTICAL, ⟨500, 0, 500, 800⟩) ∧
    window_view (andThen after_AB fun s => server_update_layout 3 s) 101
      = some (some { x := 0, y := 0, width := 500, height := 800, node := some 2,
                     floating := false, mapped := true }) :=
  ⟨by decide!, by decide!, by decide!, by decide!⟩

/-! ## Well-formed trees under removal and split -/

theorem parents_leaf_iff (h : Heap) (a : Nat) (par : Option Nat) :
    ParentsOK h (.leaf a) par ↔ ∃ n, h a = some n ∧ n.parent = par := by
  simp only [ParentsOK]
  cases h a with
  | none => simp
  | some n => simp

theorem parents_node_iff (h : Heap) (a : Nat) (l r : Shape) (par : Option Nat) :
    ParentsOK h (.node a l r) par ↔ ∃ n, h a = some n ∧ n.parent = par ∧
      ParentsOK h l (some a) ∧ ParentsOK h r (some a) := by
  simp only [ParentsOK]
  cases h a with
  | none => simp
  | some n => simp

theorem occ_node_iff (h : Heap) (a : Nat) (l r : Shape) :
    OccOK h (.node a l r) ↔ ∃ n, h a = some n ∧ n.window = none ∧ OccOK h l ∧ OccOK h r := by
  simp only [OccOK]
  cases h a with
  | none => simp
  | some n => simp

theorem parents_root (h : Heap) (s : Shape) (par : Option Nat) (hp : ParentsOK h s par) :
    ∃ n, h s.root = some n ∧ n.parent = par := by
  cases s with
  | leaf a => exact (parents_leaf_iff h a par).mp hp
  | node a l r =>
    obtain ⟨n, hn, hpar, -, -⟩ := (parents_node_iff h a l r par).mp hp
    exact ⟨n, hn, hpar⟩

theorem reps_frame (h h' : Heap) : ∀ s : Shape,
    (∀ q ∈ s.addrs, h' q = h q) → Reps h s → Reps h' s := by
  intro s
  induction s with
  | leaf a =>
    intro hq hr
    have e : h' a = h a := hq a (by simp [Shape.addrs])
    simpa only [Reps, e] using hr
  | node a l r ihl ihr =>
    intro hq hr
    have e : h' a = h a := hq a (by simp [Shape.addrs])
    simp only [Reps, e] at hr ⊢
    exact ⟨hr.1, ihl (fun q hq' => hq q (by simp [Shape.addrs, hq'])) hr.2.1,
      ihr (fun q hq' => hq q (by simp [Shape.addrs, hq'])) hr.2.2⟩

theorem parents_frame (h h' : Heap) : ∀ (s : Shape) (par : Option Nat),
    (∀ q ∈ s.addrs, h' q = h q) → ParentsOK h s par → ParentsOK h' s par := by
  intro s
  induction s with
  | leaf a =>
    intro par hq hr
    have e : h' a = h a := hq a (by simp [Shape.addrs])
    simpa only [ParentsOK, e] using hr
  | node a l r ihl ihr =>
    intro par hq hr
    have e : h' a = h a := hq a (by simp [Shape.addrs])
    simp only [ParentsOK, e] at hr ⊢
    exact ⟨hr.1, ihl _ (fun q hq' => hq q (by simp [Shape.addrs, hq'])) hr.2.1,
      ihr _ (fun q hq' => hq q (by simp [Shape.addrs, hq'])) hr.2.2⟩

theorem occ_frame (h h' : Heap) : ∀ s : Shape,
    (∀ q ∈ s.addrs, h' q = h q) → OccOK h s → OccOK h' s := by
  intro s
  induction s with
  | leaf a => intro _ _; simp [OccOK]
  | node a l r ihl ihr =>
    intro hq hr
    have e : h' a = h a := hq a (by simp [Shape.addrs])
    simp only [OccOK, e] at hr ⊢
    exact ⟨hr.1, ihl (fun q hq' => hq q (by simp [Shape.addrs, hq'])) hr.2.1,
      ihr (fun q hq' => hq q (by simp [Shape.addrs, hq'])) hr.2.2⟩

theorem wf_frame (h h' : Heap) (s : Shape) (par : Option Nat)
    (hq : ∀ q ∈ s.addrs, h' q = h q) (hw : WellFormed h s par) : WellFormed h' s par :=
  ⟨reps_frame h h' s hq hw.1, parents_frame h h' s par hq hw.2.1,
    occ_frame h h' s hq hw.2.2.1, hw.2.2.2⟩

theorem wf_leaf_iff (h : Heap) (a : Nat) (par : Option Nat) :
    WellFormed h (.leaf a) par ↔
      ∃ n, h a = some n ∧ n.parent = par ∧ n.left_child = none ∧ n.right_child = none := by
  constructor
  · rintro ⟨hr, hp, -, -⟩
    obtain ⟨n, hn, hl, hrr⟩ := (reps_leaf_iff h a).mp hr
    obtain ⟨m, hm, hpar⟩ := (parents_leaf_iff h a par).mp hp
    rw [hn] at hm
    rw [← Option.some.inj hm] at hpar
    exact ⟨n, hn, hpar, hl, hrr⟩
  · rintro ⟨n, hn, hpar, hl, hrr⟩
    exact ⟨(reps_leaf_iff h a).mpr ⟨n, hn, hl, hrr⟩, (parents_leaf_iff h a par).mpr ⟨n, hn, hpar⟩,
      by simp [OccOK], by simp [Shape.addrs]⟩

theorem wf_node_iff (h : Heap) (a : Nat) (l r : Shape) (par : Option Nat) :
    WellFormed h (.node a l r) par ↔
      ∃ n, h a = some n ∧ n.parent = par ∧ n.left_child = some l.root ∧
        n.right_child = some r.root ∧ n.window = none ∧
        WellFormed h l (some a) ∧ WellFormed h r (some a) ∧
        a ∉ l.addrs ∧ a ∉ r.addrs ∧ (∀ q, q ∈ l.addrs → q ∉ r.addrs) := by
  constructor
  · rintro ⟨hr, hp, ho, hnd⟩
    obtain ⟨n, hn, hl, hrr, hRl, hRr⟩ := (reps_node_iff h a l r).mp hr
    obtain ⟨m, hm, hpar, hPl, hPr⟩ := (parents_node_iff h a l r par).mp hp
    obtain ⟨k, hk, hwin, hOl, hOr⟩ := (occ_node_iff h a l r).mp ho
    rw [hn] at hm hk
    rw [← Option.some.inj hm] at hpar
    rw [← Option.some.inj hk] at hwin
    simp only [Shape.addrs, List.nodup_cons, List.mem_append, not_or,
      List.nodup_append] at hnd
    obtain ⟨⟨hal, har⟩, hndl, hndr, hdisj⟩ := hnd
    exact ⟨n, hn, hpar, hl, hrr, hwin, ⟨hRl, hPl, hOl, hndl⟩, ⟨hRr, hPr, hOr, hndr⟩, hal, har,
      fun q hql hqr => hdisj hql hqr⟩
  · rintro ⟨n, hn, hpar, hl, hrr, hwin, ⟨hRl, hPl, hOl, hndl⟩, ⟨hRr, hPr, hOr, hndr⟩, hal, har,
      hdisj⟩
    refine ⟨(reps_node_iff h a l r).mpr ⟨n, hn, hl, hrr, hRl, hRr⟩,
      (parents_node_iff h a l r par).mpr ⟨n, hn, hpar, hPl, hPr⟩,
      (occ_node_iff h a l r).mpr ⟨n, hn, hwin, hOl, hOr⟩, ?_⟩
    simp only [Shape.addrs, List.nodup_cons, List.mem_append, not_or, List.nodup_append]
    exact ⟨⟨hal, har⟩, hndl, hndr, fun q hql hqr => hdisj q hql hqr⟩

theorem wf_root (h : Heap) (s : Shape) (par : Option Nat) (hw : WellFormed h s par) :
    ∃ n, h s.root = some n ∧ n.parent = par := parents_root h s par hw.2.1

theorem root_not_mem_children (a : Nat) (l r : Shape) (hnd : (Shape.node a l r).addrs.Nodup) :
    a ∉ l.addrs ∧ a ∉ r.addrs := by
  simp only [Shape.addrs, List.nodup_cons, List.mem_append, not_or] at hnd
  exact hnd.1

/-- A well-formed subtree whose top cell only gets a new parent pointer, all other cells
staying as they are, is well-formed under the new parent. -/
theorem wf_reparent (h h' : Heap) (t : Shape) (par : Option Nat) (x : Nat)
    (hroot : h' t.root = (h t.root).map (fun C => { C with parent := some x }))
    (hframe : ∀ q ∈ t.addrs, q ≠ t.root → h' q = h q)
    (hw : WellFormed h t par) : WellFormed h' t (some x) := by
  cases t with
  | leaf a =>
    obtain ⟨n, hn, -, hl, hr⟩ := (wf_leaf_iff h a par).mp hw
    simp only [Shape.root, hn, Option.map_some'] at hroot
    exact (wf_leaf_iff h' a (some x)).mpr ⟨_, hroot, rfl, hl, hr⟩
  | node a l r =>
    obtain ⟨n, hn, -, hl, hr, hwin, hwl, hwr, hal, har, hdisj⟩ :=
      (wf_node_iff h a l r par).mp hw
    simp only [Shape.root, hn, Option.map_some'] at hroot
    have hfl : ∀ q ∈ l.addrs, h' q = h q := fun q hq =>
      hframe q (by simp [Shape.addrs, hq]) (by rintro rfl; exact hal hq)
    have hfr : ∀ q ∈ r.addrs, h' q = h q := fun q hq =>
      hframe q (by simp [Shape.addrs, hq]) (by rintro rfl; exact har hq)
    exact (wf_node_iff h' a l r (some x)).mpr ⟨_, hroot, rfl, hl, hr, hwin,
      wf_frame h h' l (some a) hfl hwl, wf_frame h h' r (some a) hfr hwr, hal, har, hdisj⟩

theorem root_reroot (v : Shape) (x : Nat) : (v.reroot x).root = x := by
  cases v <;> rfl

theorem mem_addrs_reroot (v : Shape) (x q : Nat) (hq : q ∈ (v.reroot x).addrs) :
    q = x ∨ (q ∈ v.addrs ∧ q ≠ v.root) ∨ q ∈ v.addrs := by
  cases v with
  | leaf a =>
    left
    simpa [Shape.reroot, Shape.addrs] using hq
  | node a l r =>
    simp only [Shape.reroot, Shape.addrs, List.mem_cons, List.mem_append] at hq
    rcases hq with hq | hq | hq
    · exact Or.inl hq
    · exact Or.inr (Or.inr (by simp [Shape.addrs, hq]))
    · exact Or.inr (Or.inr (by simp [Shape.addrs, hq]))

/-- `bsp_remove_node` on the top `u.root` of one subtree of the split node `x`: the other
subtree `v` takes the place of `x`, and the tree stays well-formed. -/
theorem remove_child (h : Heap) (x : Nat) (par : Option Nat) (u v : Shape) (P : bsp_node)
    (hP : h x = some P) (hPpar : P.parent = par)
    (hkids : (P.left_child = some u.root ∧ P.right_child = some v.root) ∨
             (P.left_child = some v.root ∧ P.right_child = some u.root))
    (hu : WellFormed h u (some x)) (hv : WellFormed h v (some x))
    (hxu : x ∉ u.addrs) (hxv : x ∉ v.addrs) (hdisj : ∀ q, q ∈ u.addrs → q ∉ v.addrs) :
    ∃ h' : Heap, bsp_remove_node h (some u.root) = some h' ∧
      WellFormed h' (v.reroot x) par ∧
      (∀ q, q ≠ x → q ∉ u.addrs → q ∉ v.addrs → h' q = h q) := by
  obtain ⟨n, hn, hnpar⟩ := wf_root h u (some x) hu
  obtain ⟨S, hS, -⟩ := wf_root h v (some x) hv
  have hur : u.root ∈ u.addrs := root_mem_addrs u
  have hvr : v.root ∈ v.addrs := root_mem_addrs v
  have hsp : v.root ≠ u.root := fun e => hdisj u.root hur (e ▸ hvr)
  have hpp : x ≠ u.root := fun e => hxu (e ▸ hur)
  have hps : x ≠ v.root := fun e => hxv (e ▸ hvr)
  cases v with
  | leaf b =>
    obtain ⟨S', hS', -, hSl, hSr⟩ := (wf_leaf_iff h b (some x)).mp hv
    have hS2 : h b = some S := hS
    have hsp2 : b ≠ u.root := hsp
    have hps2 : x ≠ b := hps
    have hkids2 : (P.left_child = some u.root ∧ P.right_child = some b) ∨
        (P.left_child = some b ∧ P.right_child = some u.root) := hkids
    clear hS hsp hps hkids
    rw [hS2] at hS'
    rw [← Option.some.inj hS'] at hSl hSr
    have hrun := bsp_remove_node_eq h u.root x b n P S hn hnpar hP hkids2 hS2 hsp2 hpp hps2
      (by intro c hc; rw [hSl] at hc; exact absurd hc (by simp))
      (by intro c hc; rw [hSr] at hc; exact absurd hc (by simp))
    refine ⟨_, hrun, ?_, ?_⟩
    · refine (wf_leaf_iff _ x par).mpr
        ⟨{ P with window := S.window, left_child := S.left_child,
                  right_child := S.right_child }, ?_, hPpar, hSl, hSr⟩
      simp [remove_heap]
    · intro q q0 q1 q2
      have qb : q ≠ b := by simpa [Shape.addrs] using q2
      have qu : q ≠ u.root := fun e => q1 (e ▸ hur)
      simp [remove_heap, q0, qb, qu, hSl, hSr]
  | node b rl rr =>
    obtain ⟨S', hS', -, hSl, hSr, hSwin, hwl, hwr, hbl, hbr, hdlr⟩ :=
      (wf_node_iff h b rl rr (some x)).mp hv
    have hS2 : h b = some S := hS
    have hsp2 : b ≠ u.root := hsp
    have hps2 : x ≠ b := hps
    have hkids2 : (P.left_child = some u.root ∧ P.right_child = some b) ∨
        (P.left_child = some b ∧ P.right_child = some u.root) := hkids
    clear hS hsp hps hkids
    rw [hS2] at hS'
    rw [← Option.some.inj hS'] at hSl hSr hSwin
    have hrl : rl.root ∈ rl.addrs := root_mem_addrs rl
    have hrr : rr.root ∈ rr.addrs := root_mem_addrs rr
    have inl : ∀ q, q ∈ rl.addrs → q ∈ (Shape.node b rl rr).addrs := fun q hq => by
      simp [Shape.addrs, hq]
    have inr : ∀ q, q ∈ rr.addrs → q ∈ (Shape.node b rl rr).addrs := fun q hq => by
      simp [Shape.addrs, hq]
    obtain ⟨Cl, hCl, -⟩ := wf_root h rl (some b) hwl
    obtain ⟨Cr, hCr, -⟩ := wf_root h rr (some b) hwr
    -- the cells of the sibling's subtrees are neither x, nor the removed node, nor b
    have nl : ∀ q, q ∈ rl.addrs → q ≠ x ∧ q ≠ u.root ∧ q ≠ b := fun q hq =>
      ⟨fun e => hxv (e ▸ inl q hq), fun e => hdisj u.root hur (e ▸ inl q hq),
        fun e => hbl (e ▸ hq)⟩
    have nr : ∀ q, q ∈ rr.addrs → q ≠ x ∧ q ≠ u.root ∧ q ≠ b := fun q hq =>
      ⟨fun e => hxv (e ▸ inr q hq), fun e => hdisj u.root hur (e ▸ inr q hq),
        fun e => hbr (e ▸ hq)⟩
    have hrun := bsp_remove_node_eq h u.root x b n P S hn hnpar hP hkids2 hS2 hsp2 hpp hps2
      (by
        intro c hc
        rw [hSl] at hc
        have e : rl.root = c := Option.some.inj hc
        rw [← e]
        exact ⟨by simp [hCl], (nl _ hrl).2.1, (nl _ hrl).2.2, (nl _ hrl).1⟩)
      (by
        intro c hc
        rw [hSr] at hc
        have e : rr.root = c := Option.some.inj hc
        rw [← e]
        exact ⟨by simp [hCr], (nr _ hrr).2.1, (nr _ hrr).2.2, (nr _ hrr).1⟩)
    have hcell : ∀ q, q ≠ x → q ≠ u.root → q ≠ b →
        remove_heap h u.root x b P S q =
          if some q = S.left_child ∨ some q = S.right_child then
            (h q).map (fun C => { C with parent := some x })
          else h q := by
      intro q q0 q1 q2
      simp [remove_heap, q0, q1, q2]
    refine ⟨_, hrun, ?_, ?_⟩
    · refine (wf_node_iff _ x rl rr par).mpr
        ⟨{ P with window := S.window, left_child := S.left_child,
                  right_child := S.right_child }, ?_, hPpar, hSl, hSr, hSwin, ?_, ?_, ?_, ?_,
          hdlr⟩
      · simp [remove_heap]
      · refine wf_reparent h _ rl (some b) x ?_ ?_ hwl
        · rw [hcell _ (nl _ hrl).1 (nl _ hrl).2.1 (nl _ hrl).2.2, hSl]
          simp
        · intro q hq hqr
          rw [hcell _ (nl _ hq).1 (nl _ hq).2.1 (nl _ hq).2.2, hSl, hSr]
          have e1 : ¬ (some q = some rl.root) := by simpa using hqr
          have e2 : ¬ (some q = some rr.root) := by
            intro e
            exact hdlr q hq ((Option.some.inj e) ▸ hrr)
          simp [e1, e2]
      · refine wf_reparent h _ rr (some b) x ?_ ?_ hwr
        · rw [hcell _ (nr _ hrr).1 (nr _ hrr).2.1 (nr _ hrr).2.2, hSr]
          simp
        · intro q hq hqr
          rw [hcell _ (nr _ hq).1 (nr _ hq).2.1 (nr _ hq).2.2, hSl, hSr]
          have e1 : ¬ (some q = some rr.root) := by simpa using hqr
          have e2 : ¬ (some q = some rl.root) := by
            intro e
            exact hdlr q ((Option.some.inj e) ▸ hrl) hq
          simp [e1, e2]
      · exact fun hq => hxv (inl x hq)
      · exact fun hq => hxv (inr x hq)
    · intro q q0 q1 q2
      have qu : q ≠ u.root := fun e => q1 (e ▸ hur)
      have qb : q ≠ b := fun e => q2 (by simp [Shape.addrs, e])
      rw [hcell q q0 qu qb, hSl, hSr]
      have e1 : ¬ (some q = some rl.root) := by
        intro e
        exact q2 (inl q ((Option.some.inj e) ▸ hrl))
      have e2 : ¬ (some q = some rr.root) := by
        intro e
        exact q2 (inr q ((Option.some.inj e) ▸ hrr))
      simp [e1, e2]

theorem mem_reroot (v : Shape) (x q : Nat) (hq : q ∈ (v.reroot x).addrs) :
    q = x ∨ q ∈ v.addrs := by
  cases v with
  | leaf a =>
    left
    simpa [Shape.reroot, Shape.addrs] using hq
  | node a l r =>
    simp only [Shape.reroot, Shape.addrs, List.mem_cons, List.mem_append] at hq
    rcases hq with hq | hq | hq
    · exact Or.inl hq
    · exact Or.inr (by simp [Shape.addrs, hq])
    · exact Or.inr (by simp [Shape.addrs, hq])

theorem collapse_of_not_mem : ∀ (s : Shape) (a : Nat), a ∉ s.addrs → s.collapse a = s := by
  intro s
  induction s with
  | leaf x => intro a _; rfl
  | node x l r ihl ihr =>
    intro a ha
    simp only [Shape.addrs, List.mem_cons, List.mem_append, not_or] at ha
    have e1 : ¬ l.root = a := fun e => ha.2.1 (e ▸ root_mem_addrs l)
    have e2 : ¬ r.root = a := fun e => ha.2.2 (e ▸ root_mem_addrs r)
    simp only [Shape.collapse, if_neg e1, if_neg e2, ihl a ha.2.1, ihr a ha.2.2]

/-- `bsp_remove_node` on a node `a` of a well-formed tree, not its top: the run is
defined, the tree that results is well-formed with the shape `s.collapse a`, under the
same top, and cells outside the old tree are untouched. -/
theorem remove_tree (h : Heap) : ∀ (s : Shape) (par : Option Nat), WellFormed h s par →
    ∀ a, a ∈ s.addrs → a ≠ s.root →
    ∃ h' : Heap, bsp_remove_node h (some a) = some h' ∧
      WellFormed h' (s.collapse a) par ∧ (s.collapse a).root = s.root ∧
      (∀ q, q ∉ s.addrs → h' q = h q) ∧
      (∀ q, q ∈ (s.collapse a).addrs → q ∈ s.addrs) := by
  intro s
  induction s with
  | leaf x =>
    intro par _ a ha hne
    exact absurd (by simpa [Shape.addrs] using ha) hne
  | node x l r ihl ihr =>
    intro par hw a ha hne
    obtain ⟨P, hP, hPpar, hl, hr, hwin, hwl, hwr, hal, har, hdisj⟩ :=
      (wf_node_iff h x l r par).mp hw
    have hne' : a ≠ x := hne
    simp only [Shape.addrs, List.mem_cons, List.mem_append] at ha
    have ha' : a ∈ l.addrs ∨ a ∈ r.addrs := by
      rcases ha with ha | ha
      · exact absurd ha hne'
      · exact ha
    by_cases e1 : l.root = a
    · obtain ⟨h', run, wf, frame⟩ :=
        remove_child h x par l r P hP hPpar (Or.inl ⟨hl, hr⟩) hwl hwr hal har hdisj
      rw [e1] at run
      refine ⟨h', run, ?_, ?_, ?_, ?_⟩
      · simpa only [Shape.collapse, if_pos e1] using wf
      · simp only [Shape.collapse, if_pos e1]
        exact root_reroot r x
      · intro q hq
        simp only [Shape.addrs, List.mem_cons, List.mem_append, not_or] at hq
        exact frame q hq.1 hq.2.1 hq.2.2
      · intro q hq
        simp only [Shape.collapse, if_pos e1] at hq
        rcases mem_reroot r x q hq with hq | hq
        · simp [Shape.addrs, hq]
        · simp [Shape.addrs, hq]
    · by_cases e2 : r.root = a
      · obtain ⟨h', run, wf, frame⟩ :=
          remove_child h x par r l P hP hPpar (Or.inr ⟨hl, hr⟩) hwr hwl har hal
            (fun q hqr hql => hdisj q hql hqr)
        rw [e2] at run
        refine ⟨h', run, ?_, ?_, ?_, ?_⟩
        · simpa only [Shape.collapse, if_neg e1, if_pos e2] using wf
        · simp only [Shape.collapse, if_neg e1, if_pos e2]
          exact root_reroot l x
        · intro q hq
          simp only [Shape.addrs, List.mem_cons, List.mem_append, not_or] at hq
          exact frame q hq.1 hq.2.2 hq.2.1
        · intro q hq
          simp only [Shape.collapse, if_neg e1, if_pos e2] at hq
          rcases mem_reroot l x q hq with hq | hq
          · simp [Shape.addrs, hq]
          · simp [Shape.addrs, hq]
      · rcases ha' with hal' | har'
        · obtain ⟨h', run, wf, hroot, frame, sub⟩ := ihl (some x) hwl a hal' (Ne.symm e1)
          have hcr : r.collapse a = r := collapse_of_not_mem r a (hdisj a hal')
          refine ⟨h', run, ?_, ?_, ?_, ?_⟩
          · simp only [Shape.collapse, if_neg e1, if_neg e2, hcr]
            refine (wf_node_iff h' x (l.collapse a) r par).mpr
              ⟨P, ?_, hPpar, ?_, hr, hwin, wf, ?_, ?_, har, ?_⟩
            · rw [frame x hal]; exact hP
            · rw [hroot]; exact hl
            · exact wf_frame h h' r (some x) (fun q hq => frame q (fun hql => hdisj q hql hq)) hwr
            · exact fun hq => hal (sub x hq)
            · exact fun q hq => hdisj q (sub q hq)
          · simp only [Shape.collapse, if_neg e1, if_neg e2]
            rfl
          · intro q hq
            simp only [Shape.addrs, List.mem_cons, List.mem_append, not_or] at hq
            exact frame q hq.2.1
          · intro q hq
            simp only [Shape.collapse, if_neg e1, if_neg e2, hcr, Shape.addrs, List.mem_cons,
              List.mem_append] at hq
            simp only [Shape.addrs, List.mem_cons, List.mem_append]
            rcases hq with hq | hq | hq
            · exact Or.inl hq
            · exact Or.inr (Or.inl (sub q hq))
            · exact Or.inr (Or.inr hq)
        · obtain ⟨h', run, wf, hroot, frame, sub⟩ := ihr (some x) hwr a har' (Ne.symm e2)
          have hcl : l.collapse a = l :=
            collapse_of_not_mem l a (fun hql => hdisj a hql har')
          refine ⟨h', run, ?_, ?_, ?_, ?_⟩
          · simp only [Shape.collapse, if_neg e1, if_neg e2, hcl]
            refine (wf_node_iff h' x l (r.collapse a) par).mpr
              ⟨P, ?_, hPpar, hl, ?_, hwin, ?_, wf, hal, ?_, ?_⟩
            · rw [frame x har]; exact hP
            · rw [hroot]; exact hr
            · exact wf_frame h h' l (some x) (fun q hq => frame q (fun hqr => hdisj q hq hqr)) hwl
            · exact fun hq => har (sub x hq)
            · exact fun q hq hq' => hdisj q hq (sub q hq')
          · simp only [Shape.collapse, if_neg e1, if_neg e2]
            rfl
          · intro q hq
            simp only [Shape.addrs, List.mem_cons, List.mem_append, not_or] at hq
            exact frame q hq.2.2
          · intro q hq
            simp only [Shape.collapse, if_neg e1, if_neg e2, hcl, Shape.addrs, List.mem_cons,
              List.mem_append] at hq
            simp only [Shape.addrs, List.mem_cons, List.mem_append]
            rcases hq with hq | hq | hq
            · exact Or.inl hq
            · exact Or.inr (Or.inl hq)
            · exact Or.inr (Or.inr (sub q hq))

theorem reps_live (h : Heap) : ∀ s : Shape, Reps h s → ∀ q ∈ s.addrs, (h q).isSome := by
  intro s
  induction s with
  | leaf a =>
    intro hr q hq
    obtain ⟨n, hn, -, -⟩ := (reps_leaf_iff h a).mp hr
    have e : q = a := by simpa [Shape.addrs] using hq
    simp [e, hn]
  | node a l r ihl ihr =>
    intro hr q hq
    obtain ⟨n, hn, -, -, hRl, hRr⟩ := (reps_node_iff h a l r).mp hr
    simp only [Shape.addrs, List.mem_cons, List.mem_append] at hq
    rcases hq with hq | hq | hq
    · simp [hq, hn]
    · exact ihl hRl q hq
    · exact ihr hRr q hq

theorem mem_split_at : ∀ (s : Shape) (p a1 a2 q : Nat), q ∈ (s.split_at p a1 a2).addrs →
    q ∈ s.addrs ∨ ((q = a1 ∨ q = a2) ∧ p ∈ s.addrs) := by
  intro s
  induction s with
  | leaf x =>
    intro p a1 a2 q hq
    by_cases e : x = p
    · simp only [Shape.split_at, if_pos e, Shape.addrs, List.mem_cons, List.mem_append,
        List.mem_singleton, List.not_mem_nil, or_false] at hq
      rcases hq with hq | hq | hq
      · exact Or.inl (by simp [Shape.addrs, hq])
      · exact Or.inr ⟨Or.inl hq, by simp [Shape.addrs, e]⟩
      · exact Or.inr ⟨Or.inr hq, by simp [Shape.addrs, e]⟩
    · simp only [Shape.split_at, if_neg e] at hq
      exact Or.inl hq
  | node x l r ihl ihr =>
    intro p a1 a2 q hq
    simp only [Shape.split_at, Shape.addrs, List.mem_cons, List.mem_append] at hq ⊢
    rcases hq with hq | hq | hq
    · exact Or.inl (Or.inl hq)
    · rcases ihl p a1 a2 q hq with h1 | ⟨h1, h2⟩
      · exact Or.inl (Or.inr (Or.inl h1))
      · exact Or.inr ⟨h1, Or.inr (Or.inl h2)⟩
    · rcases ihr p a1 a2 q hq with h1 | ⟨h1, h2⟩
      · exact Or.inl (Or.inr (Or.inr h1))
      · exact Or.inr ⟨h1, Or.inr (Or.inr h2)⟩

theorem root_split_at (s : Shape) (p a1 a2 : Nat) : (s.split_at p a1 a2).root = s.root := by
  cases s with
  | leaf x =>
    by_cases e : x = p
    · simp only [Shape.split_at, if_pos e, Shape.root]
    · simp only [Shape.split_at, if_neg e]
  | node x l r => rfl

/-- A successful `bsp_split_node` on a leaf `p`, with fresh cells `a1`, `a2`, takes a
well-formed tree of shape `s` to a well-formed tree of shape `s.split_at p a1 a2`. -/
theorem split_tree (h : Heap) (p : Nat) (n : bsp_node) (o : split_type) (ratio : ℚ)
    (a1 a2 : Nat) (hp : h p = some n) (hnl : n.left_child = none)
    (f1 : h a1 = none) (f2 : h a2 = none) (hne : a1 ≠ a2) :
    ∀ (s : Shape) (par : Option Nat), WellFormed h s par →
      WellFormed (split_heap h p n o ratio a1 a2) (s.split_at p a1 a2) par := by
  have hp1 : p ≠ a1 := by rintro rfl; simp [hp] at f1
  have hp2 : p ≠ a2 := by rintro rfl; simp [hp] at f2
  have hold : ∀ q, (h q).isSome → q ≠ p →
      split_heap h p n o ratio a1 a2 q = h q := by
    intro q hq hqp
    have q1 : q ≠ a1 := by rintro rfl; simp [f1] at hq
    have q2 : q ≠ a2 := by rintro rfl; simp [f2] at hq
    simp [split_heap, hqp, q1, q2]
  intro s
  induction s with
  | leaf x =>
    intro par hw
    obtain ⟨m, hm, hmpar, hml, hmr⟩ := (wf_leaf_iff h x par).mp hw
    by_cases e : x = p
    · simp only [Shape.split_at, if_pos e]
      rw [e] at hm
      rw [hp] at hm
      have emn : n = m := Option.some.inj hm
      rw [← emn] at hmpar
      rw [e]
      refine (wf_node_iff _ p (.leaf a1) (.leaf a2) par).mpr
        ⟨{ n with left_child := some a1, right_child := some a2, window := none,
                  split := o, split_ratio := ratio }, ?_, hmpar, rfl, rfl, rfl, ?_, ?_, ?_, ?_, ?_⟩
      · simp [split_heap]
      · refine (wf_leaf_iff _ a1 (some p)).mpr
          ⟨{ fresh_node with parent := some p, window := n.window }, ?_, rfl, rfl, rfl⟩
        simp [split_heap, Ne.symm hp1]
      · refine (wf_leaf_iff _ a2 (some p)).mpr
          ⟨{ fresh_node with parent := some p }, ?_, rfl, rfl, rfl⟩
        simp [split_heap, Ne.symm hp2, Ne.symm hne]
      · simpa [Shape.addrs] using hp1
      · simpa [Shape.addrs] using hp2
      · intro q hq
        have e1 : q = a1 := by simpa [Shape.addrs] using hq
        simpa [Shape.addrs, e1] using hne
    · simp only [Shape.split_at, if_neg e]
      refine wf_frame h _ (.leaf x) par ?_ hw
      intro q hq
      have eq : q = x := by simpa [Shape.addrs] using hq
      rw [eq]
      exact hold x (by simp [hm]) e
  | node x l r ihl ihr =>
    intro par hw
    obtain ⟨P, hP, hPpar, hl, hr, hwin, hwl, hwr, hal, har, hdisj⟩ :=
      (wf_node_iff h x l r par).mp hw
    have hxp : x ≠ p := by
      rintro rfl
      rw [hP] at hp
      rw [Option.some.inj hp, hnl] at hl
      exact absurd hl (by simp)
    have hx1 : x ≠ a1 := by rintro rfl; simp [hP] at f1
    have hx2 : x ≠ a2 := by rintro rfl; simp [hP] at f2
    have livel := reps_live h l hwl.1
    have liver := reps_live h r hwr.1
    have dead : ∀ q, (q = a1 ∨ q = a2) → ¬ (h q).isSome := by
      rintro q (rfl | rfl)
      · simp [f1]
      · simp [f2]
    simp only [Shape.split_at]
    refine (wf_node_iff _ x (l.split_at p a1 a2) (r.split_at p a1 a2) par).mpr
      ⟨P, ?_, hPpar, ?_, ?_, hwin, ihl (some x) hwl, ihr (some x) hwr, ?_, ?_, ?_⟩
    · rw [hold x (by simp [hP]) hxp]; exact hP
    · rw [root_split_at]; exact hl
    · rw [root_split_at]; exact hr
    · intro hq
      rcases mem_split_at l p a1 a2 x hq with hq | ⟨hq, -⟩
      · exact hal hq
      · rcases hq with hq | hq
        · exact hx1 hq
        · exact hx2 hq
    · intro hq
      rcases mem_split_at r p a1 a2 x hq with hq | ⟨hq, -⟩
      · exact har hq
      · rcases hq with hq | hq
        · exact hx1 hq
        · exact hx2 hq
    · intro q hql hqr
      rcases mem_split_at l p a1 a2 q hql with hl1 | ⟨hl1, hl2⟩
      · rcases mem_split_at r p a1 a2 q hqr with hr1 | ⟨hr1, hr2⟩
        · exact hdisj q hl1 hr1
        · exact dead q hr1 (livel q hl1)
      · rcases mem_split_at r p a1 a2 q hqr with hr1 | ⟨hr1, hr2⟩
        · exact dead q hl1 (liver q hr1)
        · exact hdisj p hl2 hr2

/-- When an allocation fails, `bsp_split_node` on a leaf returns `NULL` and leaves the
heap as it was: the one cell that was allocated is freed and the leaf has no child. -/
theorem bsp_split_node_alloc_fail (h : Heap) (p : Nat) (n : bsp_node) (o : split_type)
    (r : ℚ) (c1 c2 : Option Nat) (hp : h p = some n) (hl : n.left_child = none)
    (hr : n.right_child = none) (r0 : 0 < r) (r1 : r < 1)
    (f1 : ∀ a, c1 = some a → h a = none) (f2 : ∀ a, c2 = some a → h a = none)
    (hfail : c1 = none ∨ c2 = none) :
    bsp_split_node h (some p) o r c1 c2 = some (h, none) := by
  have nr : ¬ (r ≤ 0 ∨ r ≥ 1) := by
    intro hc
    rcases hc with hc | hc
    · exact absurd r0 (not_lt.mpr hc)
    · exact absurd r1 (not_lt.mpr hc)
  have hnn : (⟨n.parent, none, none, n.window, n.x, n.y, n.width, n.height, n.split,
      n.split_ratio⟩ : bsp_node) = n := by
    cases n
    simp only [bsp_node.mk.injEq, true_and, and_true] at hl hr ⊢
    exact ⟨hl.symm, hr.symm⟩
  cases c1 with
  | none =>
    cases c2 with
    | none =>
      simp only [bsp_split_node, if_neg nr, hp, andThen_some, hl, hr, bsp_create_node]
      simp [Heap.modify, Heap.write, hp, cleanup_left, cleanup_right, hl, hr]
      funext q
      by_cases e : q = p
      · subst e; simp [Heap.write, Heap.erase, hp, hnn]
      · simp [Heap.write, Heap.erase, e]
    | some a2 =>
      have d2 := f2 a2 rfl
      have hp2 : p ≠ a2 := by rintro rfl; simp [hp] at d2
      simp only [bsp_split_node, if_neg nr, hp, andThen_some, hl, hr, bsp_create_node]
      simp [Heap.modify, Heap.write, Heap.erase, c_free, hp, hp2, Ne.symm hp2, cleanup_left,
        cleanup_right, hl, hr]
      funext q
      by_cases e : q = p
      · subst e; simp [Heap.write, Heap.erase, hp, hnn, hp2]
      · by_cases e2 : q = a2
        · subst e2; simp [Heap.write, Heap.erase, e, d2]
        · simp [Heap.write, Heap.erase, e, e2]
  | some a1 =>
    have d1 := f1 a1 rfl
    have hp1 : p ≠ a1 := by rintro rfl; simp [hp] at d1
    cases c2 with
    | none =>
      simp only [bsp_split_node, if_neg nr, hp, andThen_some, hl, hr, bsp_create_node]
      simp [Heap.modify, Heap.write, Heap.erase, c_free, hp, hp1, Ne.symm hp1, cleanup_left,
        cleanup_right, hl, hr]
      funext q
      by_cases e : q = p
      · subst e; simp [Heap.write, Heap.erase, hp, hnn, hp1]
      · by_cases e1 : q = a1
        · subst e1; simp [Heap.write, Heap.erase, e, d1]
        · simp [Heap.write, Heap.erase, e, e1]
    | some a2 => simp at hfail

theorem occ_of_leaf_or_internal (h : Heap) : ∀ s : Shape,
    Reps h s → LeafOrInternal h s → OccOK h s := by
  intro s
  induction s with
  | leaf a => intro _ _; simp [OccOK]
  | node a l r ihl ihr =>
    intro hr hinv
    obtain ⟨n, hn, hl, -, hRl, hRr⟩ := (reps_node_iff h a l r).mp hr
    refine (occ_node_iff h a l r).mpr ⟨n, hn, ?_, ?_, ?_⟩
    · rcases hinv a (by simp [Shape.addrs]) n hn with ⟨h1, -⟩ | ⟨-, -, h3⟩
      · rw [hl] at h1
        exact absurd h1 (by simp)
      · exact h3
    · exact ihl hRl (fun q hq => hinv q (by simp [Shape.addrs, hq]))
    · exact ihr hRr (fun q hq => hinv q (by simp [Shape.addrs, hq]))

theorem leaf_or_internal_of_occ (h : Heap) : ∀ s : Shape,
    Reps h s → OccOK h s → LeafOrInternal h s := by
  intro s
  induction s with
  | leaf a =>
    intro hr _ q hq n hn
    obtain ⟨m, hm, hl, hrr⟩ := (reps_leaf_iff h a).mp hr
    have e : q = a := by simpa [Shape.addrs] using hq
    rw [e, hm] at hn
    rw [← Option.some.inj hn]
    exact Or.inl ⟨hl, hrr⟩
  | node a l r ihl ihr =>
    intro hr ho q hq n hn
    obtain ⟨m, hm, hl, hrr, hRl, hRr⟩ := (reps_node_iff h a l r).mp hr
    obtain ⟨k, hk, hwin, hOl, hOr⟩ := (occ_node_iff h a l r).mp ho
    simp only [Shape.addrs, List.mem_cons, List.mem_append] at hq
    rcases hq with hq | hq | hq
    · rw [hq, hm] at hn
      rw [hm] at hk
      rw [← Option.some.inj hk] at hwin
      rw [← Option.some.inj hn]
      exact Or.inr ⟨by simp [hl], by simp [hrr], hwin⟩
    · exact ihl hRl hOl q hq n hn
    · exact ihr hRr hOr q hq n hn

theorem bsp_split_node_guard (h : Heap) (p : Nat) (n : bsp_node) (o : split_type) (r : ℚ)
    (c1 c2 : Option Nat) (hp : h p = some n)
    (hbad : ¬ (n.left_child = none ∧ n.right_child = none ∧ 0 < r ∧ r < 1)) :
    bsp_split_node h (some p) o r c1 c2 = some (h, none) := by
  by_cases hr : r ≤ 0 ∨ r ≥ 1
  · simp only [bsp_split_node, if_pos hr]
  · have hk : n.left_child.isSome = true ∨ n.right_child.isSome = true := by
      by_contra hcon
      simp only [not_or, Bool.not_eq_true, Option.not_isSome, Option.isNone_iff_eq_none]
        at hcon
      simp only [not_or, not_le, ge_iff_le] at hr
      exact hbad ⟨hcon.1, hcon.2, hr.1, hr.2⟩
    simp only [bsp_split_node, if_neg hr, hp, andThen_some, if_pos hk]

/-- C20: let the heap hold a tree of shape `s` (child and parent pointers right, cells
distinct) in which every node is a leaf or an internal node with two children and no
occupant.  Then after `bsp_split_node` on any node of the tree, whether it succeeds,
is refused or fails to allocate, and after `bsp_remove_node` on any node of the tree,
the heap holds a tree under the same root in which every node is again a leaf or an
internal node with two children and no occupant. -/
theorem leaf_or_internal_preserved (h : Heap) (s : Shape) (hrep : Reps h s)
    (hnd : s.addrs.Nodup) (hpar : ParentsOK h s none) (hinv : LeafOrInternal h s) :
    (∀ p ∈ s.addrs, ∀ (o : split_type) (r : ℚ) (c1 c2 : Option Nat),
      (∀ a, c1 = some a → h a = none) →
      (∀ a, c2 = some a → h a = none ∧ c1 ≠ some a) →
      ∃ (h' : Heap) (res : Option Nat) (s' : Shape),
        bsp_split_node h (some p) o r c1 c2 = some (h', res) ∧
        s'.root = s.root ∧ Reps h' s' ∧ LeafOrInternal h' s') ∧
    (∀ a ∈ s.addrs, ∃ (h' : Heap) (s' : Shape),
      bsp_remove_node h (some a) = some h' ∧
      s'.root = s.root ∧ Reps h' s' ∧ LeafOrInternal h' s') := by
  have hwf : WellFormed h s none := ⟨hrep, hpar, occ_of_leaf_or_internal h s hrep hinv, hnd⟩
  constructor
  · intro p hp o r c1 c2 f1 f2
    obtain ⟨n, hn⟩ := Option.isSome_iff_exists.mp (reps_live h s hrep p hp)
    by_cases hok : n.left_child = none ∧ n.right_child = none ∧ 0 < r ∧ r < 1
    · obtain ⟨hl, hr, r0, r1⟩ := hok
      cases c1 with
      | none =>
        exact ⟨h, none, s, bsp_split_node_alloc_fail h p n o r none c2 hn hl hr r0 r1 f1
          (fun a ha => (f2 a ha).1) (Or.inl rfl), rfl, hrep, hinv⟩
      | some a1 =>
        cases c2 with
        | none =>
          exact ⟨h, none, s, bsp_split_node_alloc_fail h p n o r (some a1) none hn hl hr r0 r1
            f1 (fun a ha => (f2 a ha).1) (Or.inr rfl), rfl, hrep, hinv⟩
        | some a2 =>
          have d1 := f1 a1 rfl
          obtain ⟨d2, hne⟩ := f2 a2 rfl
          have hne' : a1 ≠ a2 := fun e => hne (by rw [e])
          have hw' := split_tree h p n o r a1 a2 hn hl d1 d2 hne' s none hwf
          exact ⟨_, some a2, s.split_at p a1 a2,
            bsp_split_node_eq h p n o r a1 a2 hn hl hr r0 r1 d1 d2 hne',
            root_split_at s p a1 a2, hw'.1, leaf_or_internal_of_occ _ _ hw'.1 hw'.2.2.1⟩
    · exact ⟨h, none, s, bsp_split_node_guard h p n o r c1 c2 hn hok, rfl, hrep, hinv⟩
  · intro a ha
    by_cases e : a = s.root
    · obtain ⟨n, hn, hnpar⟩ := wf_root h s none hwf
      refine ⟨h, s, ?_, rfl, hrep, hinv⟩
      rw [e]
      simp only [bsp_remove_node, hn, andThen_some, hnpar]
    · obtain ⟨h', run, hw', hroot, -, -⟩ := remove_tree h s none hwf a ha e
      exact ⟨h', s.collapse a, run, hroot, hw'.1,
        leaf_or_internal_of_occ _ _ hw'.1 hw'.2.2.1⟩

theorem nested_parents : ParentsOK nested_heap nested_shape none := by
  decide

theorem nested_occ : OccOK nested_heap nested_shape := by
  decide

/-- Witness of C20: the tree of `nested_heap`. -/
theorem leaf_or_internal_preserved_witness :
    (∀ p ∈ nested_shape.addrs, ∀ (o : split_type) (r : ℚ) (c1 c2 : Option Nat),
      (∀ a, c1 = some a → nested_heap a = none) →
      (∀ a, c2 = some a → nested_heap a = none ∧ c1 ≠ some a) →
      ∃ (h' : Heap) (res : Option Nat) (s' : Shape),
        bsp_split_node nested_heap (some p) o r c1 c2 = some (h', res) ∧
        s'.root = nested_shape.root ∧ Reps h' s' ∧ LeafOrInternal h' s') ∧
    (∀ a ∈ nested_shape.addrs, ∃ (h' : Heap) (s' : Shape),
      bsp_remove_node nested_heap (some a) = some h' ∧
      s'.root = nested_shape.root ∧ Reps h' s' ∧ LeafOrInternal h' s') :=
  leaf_or_internal_preserved nested_heap nested_shape nested_reps nested_nodup
    nested_parents (leaf_or_internal_of_occ nested_heap nested_shape nested_reps nested_occ)

/-! ## Creating a node -/

/-- C24: when `calloc` returns the cell `a`, `bsp_create_node` returns `a`, and the node it
leaves there has no parent, no child, no occupant, the rectangle `(0, 0, 0, 0)` and the
split ratio one half, which is strictly between 0 and 1; no other cell changes. -/
theorem bsp_create_node_leaf (h : Heap) (a : Nat) :
    (bsp_create_node h (some a)).2 = some a ∧
    ∃ n, (bsp_create_node h (some a)).1 a = some n ∧
      n.parent = none ∧ n.left_child = none ∧ n.right_child = none ∧ n.window = none ∧
      n.rect = ⟨0, 0, 0, 0⟩ ∧ n.split_ratio = 1 / 2 ∧
      0 < n.split_ratio ∧ n.split_ratio < 1 ∧
      ∀ q, q ≠ a → (bsp_create_node h (some a)).1 q = h q := by
  refine ⟨rfl, fresh_node, ?_, rfl, rfl, rfl, rfl, rfl, rfl, ?_, ?_, ?_⟩
  · simp [bsp_create_node]
  · norm_num [fresh_node]
  · norm_num [fresh_node]
  · intro q hq
    simp [bsp_create_node, Heap.write, hq]

/-! ## The layout as a function of the tree -/

theorem node_eq_of_parts (n m : bsp_node) (e : n.no_rect = m.no_rect) (r : n.rect = m.rect) :
    n = m := by
  cases n; cases m
  simp only [bsp_node.no_rect, bsp_node.rect, bsp_node.mk.injEq, Rect.mk.injEq] at e r ⊢
  tauto

/-- Two heaps that hold the same tree laid out on the same rectangle, and that agree on
everything but the rectangles, agree on the cells of the tree. -/
theorem laid_unique (h1 h2 : Heap)
    (hsame : ∀ q, (h2 q).map bsp_node.no_rect = (h1 q).map bsp_node.no_rect) :
    ∀ (s : Shape) (R : Rect), Laid h1 s R → Laid h2 s R → ∀ q ∈ s.addrs, h2 q = h1 q := by
  intro s
  induction s with
  | leaf a =>
    intro R l1 l2 q hq
    have e : q = a := by simpa [Shape.addrs] using hq
    obtain ⟨n1, hn1, r1⟩ := laid_root h1 (.leaf a) R l1
    obtain ⟨n2, hn2, r2⟩ := laid_root h2 (.leaf a) R l2
    have hn1' : h1 a = some n1 := hn1
    have hn2' : h2 a = some n2 := hn2
    have hs := hsame a
    rw [hn1', hn2'] at hs
    rw [e, hn1', hn2', node_eq_of_parts n2 n1 (by simpa using hs) (by rw [r1, r2])]
  | node a l r ihl ihr =>
    intro R l1 l2 q hq
    obtain ⟨n1, hn1, r1, ll1, lr1⟩ := (laid_node_iff h1 a l r R).mp l1
    obtain ⟨n2, hn2, r2, ll2, lr2⟩ := (laid_node_iff h2 a l r R).mp l2
    have hs := hsame a
    rw [hn1, hn2] at hs
    have e21 : n2 = n1 := node_eq_of_parts n2 n1 (by simpa using hs) (by rw [r1, r2])
    rw [e21] at ll2 lr2
    simp only [Shape.addrs, List.mem_cons, List.mem_append] at hq
    rcases hq with hq | hq | hq
    · rw [hq, hn1, hn2, e21]
    · exact ihl _ ll1 ll2 q hq
    · exact ihr _ lr1 lr2 q hq

/-- C22: for a tree of shape `s` held by the heap (distinct cells) and any rectangle,
`bsp_apply_layout` finishes, and a second application on the same rectangle returns the
heap of the first: every cached rectangle, and every other field, stays as it was. -/
theorem bsp_apply_layout_idempotent (s : Shape) (fuel : Nat) (h : Heap) (x y w ht : Int)
    (hrep : Reps h s) (hnd : s.addrs.Nodup) (hfuel : s.depth ≤ fuel) :
    ∃ h1 : Heap, bsp_apply_layout fuel h (some s.root) x y w ht = some h1 ∧
      bsp_apply_layout fuel h1 (some s.root) x y w ht = some h1 := by
  obtain ⟨h1, run1, laid1, -, same1⟩ := bsp_apply_layout_spec s fuel h x y w ht hrep hnd hfuel
  obtain ⟨h2, run2, laid2, frame2, same2⟩ :=
    bsp_apply_layout_spec s fuel h1 x y w ht (reps_congr h h1 same1 s hrep) hnd hfuel
  have e : h2 = h1 := by
    funext q
    by_cases hq : q ∈ s.addrs
    · exact laid_unique h1 h2 same2 s _ laid1 laid2 q hq
    · exact frame2 q hq
  exact ⟨h1, run1, by rw [run2, e]⟩

/-- Witness of C22: `nested_heap` laid out on `(0, 0, 1001, 803)`. -/
theorem bsp_apply_layout_idempotent_witness :
    ∃ h1 : Heap, bsp_apply_layout 3 nested_heap (some nested_shape.root) 0 0 1001 803
        = some h1 ∧
      bsp_apply_layout 3 h1 (some nested_shape.root) 0 0 1001 803 = some h1 :=
  bsp_apply_layout_idempotent nested_shape 3 nested_heap 0 0 1001 803
    nested_reps nested_nodup nested_depth

/-- C25: for a tree of shape `s` held by the heap (distinct cells), `bsp_apply_layout` on
`(x, y, w, ht)` finishes; afterwards the root has exactly that rectangle and every node
of the tree has the rectangle the layout computes for it; every cell keeps its parent and
child pointers, its occupant, its orientation and its ratio; cells outside the tree are
unchanged. -/
theorem bsp_apply_layout_writes_rects_only (s : Shape) (fuel : Nat) (h : Heap)
    (x y w ht : Int) (hrep : Reps h s) (hnd : s.addrs.Nodup) (hfuel : s.depth ≤ fuel) :
    ∃ h' : Heap, bsp_apply_layout fuel h (some s.root) x y w ht = some h' ∧
      (∃ n, h' s.root = some n ∧ n.x = x ∧ n.y = y ∧ n.width = w ∧ n.height = ht) ∧
      Laid h' s ⟨x, y, w, ht⟩ ∧
      (∀ q n, h q = some n → ∃ n', h' q = some n' ∧
        n'.parent = n.parent ∧ n'.left_child = n.left_child ∧
        n'.right_child = n.right_child ∧ n'.window = n.window ∧
        n'.split = n.split ∧ n'.split_ratio = n.split_ratio) ∧
      (∀ q, h q = none → h' q = none) ∧
      (∀ q, q ∉ s.addrs → h' q = h q) := by
  obtain ⟨h', run, laid, frame, same⟩ := bsp_apply_layout_spec s fuel h x y w ht hrep hnd hfuel
  refine ⟨h', run, ?_, laid, ?_, ?_, frame⟩
  · obtain ⟨n, hn, hr⟩ := laid_root h' s _ laid
    simp only [bsp_node.rect, Rect.mk.injEq] at hr
    exact ⟨n, hn, hr.1, hr.2.1, hr.2.2.1, hr.2.2.2⟩
  · intro q n hq
    obtain ⟨m, hm, hmn⟩ := no_rect_live h h' same q n hq
    exact ⟨m, hm, no_rect_fields m n hmn⟩
  · intro q hq
    have e := same q
    rw [hq] at e
    cases e' : h' q with
    | none => rfl
    | some m => simp [e'] at e

/-- Witness of C25: `nested_heap` laid out on `(0, 0, 1001, 803)`. -/
theorem bsp_apply_layout_writes_rects_only_witness :
    ∃ h' : Heap, bsp_apply_layout 3 nested_heap (some nested_shape.root) 0 0 1001 803
        = some h' ∧
      (∃ n, h' nested_shape.root = some n ∧ n.x = 0 ∧ n.y = 0 ∧ n.width = 1001 ∧
        n.height = 803) ∧
      Laid h' nested_shape ⟨0, 0, 1001, 803⟩ ∧
      (∀ q n, nested_heap q = some n → ∃ n', h' q = some n' ∧
        n'.parent = n.parent ∧ n'.left_child = n.left_child ∧
        n'.right_child = n.right_child ∧ n'.window = n.window ∧
        n'.split = n.split ∧ n'.split_ratio = n.split_ratio) ∧
      (∀ q, nested_heap q = none → h' q = none) ∧
      (∀ q, q ∉ nested_shape.addrs → h' q = nested_heap q) :=
  bsp_apply_layout_writes_rects_only nested_shape 3 nested_heap 0 0 1001 803
    nested_reps nested_nodup nested_depth

/-! ## A point in a gap between the children -/

/-- With fuel for the depth of the tree, `bsp_find_node_at` returns. -/
theorem find_terminates (h : Heap) (px py : ℚ) : ∀ (s : Shape) (fuel : Nat),
    Reps h s → s.depth ≤ fuel →
    ∃ res, bsp_find_node_at fuel h (some s.root) px py = some res := by
  intro s
  induction s with
  | leaf a =>
    intro fuel hrep hfuel
    obtain ⟨n, hn, hnl, hnr⟩ := (reps_leaf_iff h a).mp hrep
    obtain ⟨k, rfl⟩ : ∃ k, fuel = k + 1 := ⟨fuel - 1, by simp [Shape.depth] at hfuel; omega⟩
    have hn' : h (Shape.leaf a).root = some n := hn
    simp only [bsp_find_node_at, hn', andThen_some, hnl, hnr]
    split <;> simp
  | node a l r ihl ihr =>
    intro fuel hrep hfuel
    obtain ⟨n, hn, hnl, hnr, hRl, hRr⟩ := (reps_node_iff h a l r).mp hrep
    simp only [Shape.depth] at hfuel
    obtain ⟨k, rfl⟩ : ∃ k, fuel = k + 1 := ⟨fuel - 1, by omega⟩
    obtain ⟨resl, hresl⟩ := ihl k hRl (by omega)
    obtain ⟨resr, hresr⟩ := ihr k hRr (by omega)
    have hn' : h (Shape.node a l r).root = some n := hn
    simp only [bsp_find_node_at, hn', andThen_some, hnl, hnr, hresl, hresr]
    split
    · exact ⟨_, rfl⟩
    · split
      · exact ⟨_, rfl⟩
      · split
        · exact ⟨_, rfl⟩
        · split <;> exact ⟨_, rfl⟩

/-- C23 (counterexample): in `gap_heap` the point `(500, 10)` is inside the rectangle of
the split root and inside the rectangle of neither child; `bsp_find_node_at` returns
`NULL` for it, the very result it returns for `(2000, 10)`, a point outside the root. -/
theorem bsp_find_node_at_silent_on_gap :
    (∃ n L R, gap_heap 0 = some n ∧ gap_heap 1 = some L ∧ gap_heap 2 = some R ∧
      n.left_child = some 1 ∧ n.right_child = some 2 ∧
      n.rect.contains 500 10 ∧ ¬ L.rect.contains 500 10 ∧ ¬ R.rect.contains 500 10 ∧
      ¬ n.rect.contains 2000 10) ∧
    bsp_find_node_at 2 gap_heap (some 0) 500 10 = some none ∧
    bsp_find_node_at 2 gap_heap (some 0) 500 10
      = bsp_find_node_at 2 gap_heap (some 0) 2000 10 :=
  ⟨⟨_, _, _, rfl, rfl, rfl, rfl, rfl, by decide!, by decide!, by decide!, by decide!⟩,
    by decide!, by decide!⟩

/-- In `deep_gap_heap` the point `(300, 10)` is inside the rectangle of the split node 1
and inside the rectangle of neither of its children; the search from the root finds
nothing below node 1 and returns leaf 2, whose rectangle contains the point as well. -/
theorem deep_gap_finds_other_leaf :
    (∃ n L R, deep_gap_heap 1 = some n ∧ deep_gap_heap 3 = some L ∧
      deep_gap_heap 4 = some R ∧ n.left_child = some 3 ∧ n.right_child = some 4 ∧
      n.rect.contains 300 10 ∧ ¬ L.rect.contains 300 10 ∧ ¬ R.rect.contains 300 10) ∧
    bsp_find_node_at 2 deep_gap_heap (some 1) 300 10 = some none ∧
    bsp_find_node_at 3 deep_gap_heap (some 0) 300 10 = some (some 2) :=
  ⟨⟨_, _, _, rfl, rfl, rfl, rfl, rfl, by decide!, by decide!, by decide!⟩,
    by decide!, by decide!⟩

/-- C23 (amended): in a tree of shape `s` held by the heap, let a point lie inside the
cached rectangle of a split node `g` of the tree and inside the cached rectangle of
neither of its two children.  With fuel for the depth of the tree, `bsp_find_node_at`
from the root of the tree returns, and what it returns is `NULL` or a live leaf whose
cached rectangle contains the point: it signals no error.  When `g` is the root itself,
it returns `NULL`, and this is the result it returns for every point outside the
rectangle of the root. -/
theorem bsp_find_node_at_gap (s : Shape) (fuel : Nat) (h : Heap) (g l r : Nat)
    (n L R : bsp_node) (px py : ℚ) (hrep : Reps h s) (hfuel : s.depth ≤ fuel)
    (hg : g ∈ s.addrs) (hgn : h g = some n) (hl : n.left_child = some l)
    (hr : n.right_child = some r) (hL : h l = some L) (hR : h r = some R)
    (hin : n.rect.contains px py) (hnl : ¬ L.rect.contains px py)
    (hnr : ¬ R.rect.contains px py) :
    (∃ res, bsp_find_node_at fuel h (some s.root) px py = some res ∧
      ∀ q, res = some q → ∃ m, h q = some m ∧ m.left_child = none ∧
        m.right_child = none ∧ m.rect.contains px py) ∧
    (g = s.root →
      bsp_find_node_at fuel h (some s.root) px py = some none ∧
      ∀ qx qy : ℚ, ¬ n.rect.contains qx qy →
        bsp_find_node_at fuel h (some s.root) qx qy
          = bsp_find_node_at fuel h (some s.root) px py) := by
  constructor
  · obtain ⟨res, hres⟩ := find_terminates h px py s fuel hrep hfuel
    refine ⟨res, hres, ?_⟩
    intro q hq
    rw [hq] at hres
    exact bsp_find_node_at_sound fuel h (some s.root) px py q hres
  · intro e
    have hd : 2 ≤ s.depth := by
      cases s with
      | leaf a =>
        obtain ⟨m, hm, hml, -⟩ := (reps_leaf_iff h a).mp hrep
        have ea : g = a := e
        rw [ea, hm] at hgn
        rw [Option.some.inj hgn, hl] at hml
        exact absurd hml (by simp)
      | node a sl sr =>
        have := depth_pos sl
        simp only [Shape.depth]
        omega
    obtain ⟨k, rfl⟩ : ∃ k, fuel = k + 2 := ⟨fuel - 2, by omega⟩
    rw [← e]
    have e0 : bsp_find_node_at (k + 2) h (some g) px py = some none := by
      rw [bsp_find_node_at_inside (k + 1) h g n px py hgn hin, hl, hr,
        bsp_find_node_at_outside k h l L px py hL hnl,
        bsp_find_node_at_outside k h r R px py hR hnr]
      simp
    refine ⟨e0, ?_⟩
    intro qx qy hq
    rw [e0, bsp_find_node_at_outside (k + 1) h g n qx qy hgn hq]

/-- Witness of C23 (amended): the point `(500, 10)` in `gap_heap`, the split node being
the root. -/
theorem bsp_find_node_at_gap_witness :
    (∃ res, bsp_find_node_at 2 gap_heap (some 0) 500 10 = some res ∧
      ∀ q, res = some q → ∃ m, gap_heap q = some m ∧ m.left_child = none ∧
        m.right_child = none ∧ m.rect.contains 500 10) ∧
    ((0 : Nat) = 0 →
      bsp_find_node_at 2 gap_heap (some 0) 500 10 = some none ∧
      ∀ qx qy : ℚ,
        ¬ (bsp_node.rect { fresh_node with left_child := some 1, right_child := some 2,
                                           width := 1000, height := 800 }).contains qx qy →
        bsp_find_node_at 2 gap_heap (some 0) qx qy
          = bsp_find_node_at 2 gap_heap (some 0) 500 10) :=
  bsp_find_node_at_gap (.node 0 (.leaf 1) (.leaf 2)) 2 gap_heap 0 1 2
    { fresh_node with left_child := some 1, right_child := some 2,
                      width := 1000, height := 800 }
    { fresh_node with parent := some 0, width := 400, height := 800 }
    { fresh_node with parent := some 0, x := 600, width := 400, height := 800 }
    500 10 (by decide) (by decide) (by simp [Shape.addrs]) rfl rfl rfl rfl rfl
    (by decide!) (by decide!) (by decide!)

/-! ## The two removal paths -/

/-- C26: in `nested_heap`, a well-formed tree, leaf 1 is not the root; `bsp_remove_node`
on it leaves the root with the children 3 and 4, vertical with ratio one half, while
`bsp_remove_window` on it leaves the root with the children 3 and 4, horizontal with ratio
one quarter: the trees differ in the orientation and the ratio of the surviving parent. -/
theorem removal_paths_diverge :
    WellFormed nested_heap nested_shape none ∧
    (nested_heap 1).map (fun n => (n.parent, n.left_child, n.right_child))
      = some (some 0, none, none) ∧
    ((andThen (bsp_remove_node nested_heap (some 1)) fun h => h 0).map
        fun n => (n.left_child, n.right_child, n.window, n.split, n.split_ratio))
      = some (some 3, some 4, none, SPLIT_VERTICAL, 1 / 2) ∧
    ((andThen (bsp_remove_window nested_heap (some 1)) fun h => h 0).map
        fun n => (n.left_child, n.right_child, n.window, n.split, n.split_ratio))
      = some (some 3, some 4, none, SPLIT_HORIZONTAL, 1 / 4) :=
  ⟨⟨nested_reps, nested_parents, nested_occ, nested_nodup⟩, by decide!, by decide!,
    by decide!⟩

/-! ## Termination -/

theorem depth_le_leaves (s : Shape) : s.depth ≤ s.leaves := by
  induction s with
  | leaf a => simp [Shape.depth, Shape.leaves]
  | node a l r ihl ihr =>
    have hl := leaves_pos l
    have hr := leaves_pos r
    simp only [Shape.depth, Shape.leaves]
    omega

/-- C27: for a tree of shape `s` held by the heap (distinct cells), the number of nodes on
the longest path from the root to a leaf is at most the number of leaves, and a recursion
of that depth is enough for both traversals: with fuel for `s.depth` nested calls, and so
with fuel for as many nested calls as the tree has leaves, `bsp_apply_layout` and
`bsp_find_node_at` return. -/
theorem traversals_terminate (s : Shape) (h : Heap) (x y w ht : Int) (px py : ℚ)
    (hrep : Reps h s) (hnd : s.addrs.Nodup) :
    s.depth ≤ s.leaves ∧
    (∀ fuel, s.depth ≤ fuel →
      (∃ h', bsp_apply_layout fuel h (some s.root) x y w ht = some h') ∧
      (∃ res, bsp_find_node_at fuel h (some s.root) px py = some res)) ∧
    (∃ h', bsp_apply_layout s.leaves h (some s.root) x y w ht = some h') ∧
    (∃ res, bsp_find_node_at s.leaves h (some s.root) px py = some res) := by
  have key : ∀ fuel, s.depth ≤ fuel →
      (∃ h', bsp_apply_layout fuel h (some s.root) x y w ht = some h') ∧
      (∃ res, bsp_find_node_at fuel h (some s.root) px py = some res) := by
    intro fuel hfuel
    obtain ⟨h', run, -⟩ := bsp_apply_layout_spec s fuel h x y w ht hrep hnd hfuel
    exact ⟨⟨h', run⟩, find_terminates h px py s fuel hrep hfuel⟩
  exact ⟨depth_le_leaves s, key, (key s.leaves (depth_le_leaves s)).1,
    (key s.leaves (depth_le_leaves s)).2⟩

/-- Witness of C27: `nested_heap`, whose tree has three leaves. -/
theorem traversals_terminate_witness :
    nested_shape.depth ≤ nested_shape.leaves ∧
    (∀ fuel, nested_shape.depth ≤ fuel →
      (∃ h', bsp_apply_layout fuel nested_heap (some nested_shape.root) 0 0 1001 803
        = some h') ∧
      (∃ res, bsp_find_node_at fuel nested_heap (some nested_shape.root) 5 5 = some res)) ∧
    (∃ h', bsp_apply_layout nested_shape.leaves nested_heap (some nested_shape.root)
      0 0 1001 803 = some h') ∧
    (∃ res, bsp_find_node_at nested_shape.leaves nested_heap (some nested_shape.root) 5 5
      = some res) :=
  traversals_terminate nested_shape nested_heap 0 0 1001 803 5 5 nested_reps nested_nodup

/-! ## No pixel is lost -/

/-- In a laid-out tree with ratios in range, on a rectangle with no negative side, no
node has a negative cached width or height. -/
theorem laid_nonneg (h : Heap) : ∀ (s : Shape) (R : Rect),
    RatiosOK h s → Laid h s R → 0 ≤ R.width → 0 ≤ R.height →
    ∀ q ∈ s.addrs, ∀ n, h q = some n → 0 ≤ n.width ∧ 0 ≤ n.height := by
  intro s
  induction s with
  | leaf a =>
    intro R _ hlaid hw hh q hq n hn
    have e : q = a := by simpa [Shape.addrs] using hq
    obtain ⟨m, hm, hr⟩ := laid_root h (.leaf a) R hlaid
    have hm' : h a = some m := hm
    rw [e, hm'] at hn
    have e2 : m = n := Option.some.inj hn
    rw [e2] at hr
    rw [← hr] at hw hh
    exact ⟨hw, hh⟩
  | node a l r ihl ihr =>
    intro R hrat hlaid hw hh q hq n hn
    obtain ⟨m1, hm1, r0, r1, rf, hratl, hratr⟩ := (ratios_node_iff h a l r).mp hrat
    obtain ⟨m, hm, hrect, laidl, laidr⟩ := (laid_node_iff h a l r R).mp hlaid
    have e1 : m1 = m := by rw [hm] at hm1; exact (Option.some.inj hm1).symm
    subst e1
    obtain ⟨nnl, nnr, -, -⟩ := split_rects_tile m1 R hw hh r0 r1 rf
    simp only [Shape.addrs, List.mem_cons, List.mem_append] at hq
    rcases hq with hq | hq | hq
    · rw [hq, hm] at hn
      have e2 : m1 = n := Option.some.inj hn
      rw [e2] at hrect
      rw [← hrect] at hw hh
      exact ⟨hw, hh⟩
    · exact ihl _ hratl laidl nnl.1 nnl.2 q hq n hn
    · exact ihr _ hratr laidr nnr.1 nnr.2 q hq n hn

/-- C28: for a tree of shape `s` held by the heap (distinct cells, ratios `float` values
strictly between 0 and 1) and a rectangle `(x, y, w, ht)` with `w` and `ht` not negative,
`bsp_apply_layout` finishes; afterwards the cached width and height of every node of the
tree are not negative, and the areas of the cached rectangles of the leaves sum to
exactly `w * ht`. -/
theorem bsp_apply_layout_no_pixel_lost (s : Shape) (fuel : Nat) (h : Heap) (x y w ht : Int)
    (hrep : Reps h s) (hnd : s.addrs.Nodup) (hfuel : s.depth ≤ fuel)
    (hrat : RatiosOK h s) (hw : 0 ≤ w) (hh : 0 ≤ ht) :
    ∃ h' : Heap, bsp_apply_layout fuel h (some s.root) x y w ht = some h' ∧
      (∀ q ∈ s.addrs, ∃ n, h' q = some n ∧ 0 ≤ n.width ∧ 0 ≤ n.height) ∧
      leaf_area_sum h' s = w * ht := by
  obtain ⟨h', run, laid, -, same⟩ := bsp_apply_layout_spec s fuel h x y w ht hrep hnd hfuel
  have hrep' := reps_congr h h' same s hrep
  refine ⟨h', run, ?_, laid_area h' s _ laid⟩
  intro q hq
  have live := reps_live h' s hrep' q hq
  obtain ⟨n, hn⟩ := Option.isSome_iff_exists.mp live
  exact ⟨n, hn, laid_nonneg h' s ⟨x, y, w, ht⟩ (ratios_congr h h' same s hrat) laid hw hh
    q hq n hn⟩

/-- Witness of C28: `nested_heap` laid out on `(0, 0, 1001, 803)`. -/
theorem bsp_apply_layout_no_pixel_lost_witness :
    ∃ h' : Heap, bsp_apply_layout 3 nested_heap (some nested_shape.root) 0 0 1001 803
        = some h' ∧
      (∀ q ∈ nested_shape.addrs, ∃ n, h' q = some n ∧ 0 ≤ n.width ∧ 0 ≤ n.height) ∧
      leaf_area_sum h' nested_shape = 1001 * 803 :=
  bsp_apply_layout_no_pixel_lost nested_shape 3 nested_heap 0 0 1001 803
    nested_reps nested_nodup nested_depth nested_ratios (by norm_num) (by norm_num)

/-! ## Back-references -/

/-- C29 (evaluation): from the empty workspace, after windows 100 and 101 were mapped,
window 100 points to node 0, which has no occupant, while leaf 1 has window 100 as
occupant; and after window 100 alone was mapped and the key handler split the node of the
focused window, window 100 points to node 0, now split and without occupant, while leaf 1
has window 100 as occupant. -/
theorem split_leaves_stale_back_reference :
    (window_view after_AB 100).map (fun o => o.map (fun v => v.node))
      = some (some (some 0)) ∧
    node_view after_AB 0
      = some (some 1, some 2, none, SPLIT_VERTICAL, ⟨0, 0, 1000, 800⟩) ∧
    node_view after_AB 1 = some (none, none, some 100, SPLIT_VERTICAL, ⟨0, 0, 500, 800⟩) ∧
    (window_view (andThen after_A fun s => key_split 3 s SPLIT_VERTICAL (some 1) (some 2))
      100).map (fun o => o.map (fun v => v.node)) = some (some (some 0)) ∧
    node_view (andThen after_A fun s => key_split 3 s SPLIT_VERTICAL (some 1) (some 2)) 0
      = some (some 1, some 2, none, SPLIT_VERTICAL, ⟨0, 0, 1000, 800⟩) ∧
    node_view (andThen after_A fun s => key_split 3 s SPLIT_VERTICAL (some 1) (some 2)) 1
      = some (none, none, some 100, SPLIT_VERTICAL, ⟨0, 0, 500, 800⟩) :=
  ⟨by decide!, by decide!, by decide!, by decide!, by decide!, by decide!⟩

/-! ## Parent links and occupants under removal and split -/

theorem linked_leaf_iff (h : Heap) (a : Nat) (par : Option Nat) :
    Linked h (.leaf a) par ↔
      ∃ n, h a = some n ∧ n.parent = par ∧ n.left_child = none ∧ n.right_child = none := by
  constructor
  · rintro ⟨hr, hp, -⟩
    obtain ⟨n, hn, hl, hrr⟩ := (reps_leaf_iff h a).mp hr
    obtain ⟨m, hm, hpar⟩ := (parents_leaf_iff h a par).mp hp
    rw [hn] at hm
    rw [← Option.some.inj hm] at hpar
    exact ⟨n, hn, hpar, hl, hrr⟩
  · rintro ⟨n, hn, hpar, hl, hrr⟩
    exact ⟨(reps_leaf_iff h a).mpr ⟨n, hn, hl, hrr⟩,
      (parents_leaf_iff h a par).mpr ⟨n, hn, hpar⟩, by simp [Shape.addrs]⟩

theorem linked_node_iff (h : Heap) (a : Nat) (l r : Shape) (par : Option Nat) :
    Linked h (.node a l r) par ↔
      ∃ n, h a = some n ∧ n.parent = par ∧ n.left_child = some l.root ∧
        n.right_child = some r.root ∧
        Linked h l (some a) ∧ Linked h r (some a) ∧
        a ∉ l.addrs ∧ a ∉ r.addrs ∧ (∀ q, q ∈ l.addrs → q ∉ r.addrs) := by
  constructor
  · rintro ⟨hr, hp, hnd⟩
    obtain ⟨n, hn, hl, hrr, hRl, hRr⟩ := (reps_node_iff h a l r).mp hr
    obtain ⟨m, hm, hpar, hPl, hPr⟩ := (parents_node_iff h a l r par).mp hp
    rw [hn] at hm
    rw [← Option.some.inj hm] at hpar
    simp only [Shape.addrs, List.nodup_cons, List.mem_append, not_or,
      List.nodup_append] at hnd
    obtain ⟨⟨hal, har⟩, hndl, hndr, hdisj⟩ := hnd
    exact ⟨n, hn, hpar, hl, hrr, ⟨hRl, hPl, hndl⟩, ⟨hRr, hPr, hndr⟩, hal, har,
      fun q hql hqr => hdisj hql hqr⟩
  · rintro ⟨n, hn, hpar, hl, hrr, ⟨hRl, hPl, hndl⟩, ⟨hRr, hPr, hndr⟩, hal, har, hdisj⟩
    refine ⟨(reps_node_iff h a l r).mpr ⟨n, hn, hl, hrr, hRl, hRr⟩,
      (parents_node_iff h a l r par).mpr ⟨n, hn, hpar, hPl, hPr⟩, ?_⟩
    simp only [Shape.addrs, List.nodup_cons, List.mem_append, not_or, List.nodup_append]
    exact ⟨⟨hal, har⟩, hndl, hndr, fun q hql hqr => hdisj q hql hqr⟩

theorem linked_frame (h h' : Heap) (s : Shape) (par : Option Nat)
    (hq : ∀ q ∈ s.addrs, h' q = h q) (hw : Linked h s par) : Linked h' s par :=
  ⟨reps_frame h h' s hq hw.1, parents_frame h h' s par hq hw.2.1, hw.2.2⟩

theorem linked_root (h : Heap) (s : Shape) (par : Option Nat) (hw : Linked h s par) :
    ∃ n, h s.root = some n ∧ n.parent = par := parents_root h s par hw.2.1

/-- A linked subtree whose top cell only gets a new parent pointer, all other cells
staying as they are, is linked under the new parent. -/
theorem linked_reparent (h h' : Heap) (t : Shape) (par : Option Nat) (x : Nat)
    (hroot : h' t.root = (h t.root).map (fun C => { C with parent := some x }))
    (hframe : ∀ q ∈ t.addrs, q ≠ t.root → h' q = h q)
    (hw : Linked h t par) : Linked h' t (some x) := by
  cases t with
  | leaf a =>
    obtain ⟨n, hn, -, hl, hr⟩ := (linked_leaf_iff h a par).mp hw
    simp only [Shape.root, hn, Option.map_some'] at hroot
    exact (linked_leaf_iff h' a (some x)).mpr ⟨_, hroot, rfl, hl, hr⟩
  | node a l r =>
    obtain ⟨n, hn, -, hl, hr, hwl, hwr, hal, har, hdisj⟩ :=
      (linked_node_iff h a l r par).mp hw
    simp only [Shape.root, hn, Option.map_some'] at hroot
    have hfl : ∀ q ∈ l.addrs, h' q = h q := fun q hq =>
      hframe q (by simp [Shape.addrs, hq]) (by rintro rfl; exact hal hq)
    have hfr : ∀ q ∈ r.addrs, h' q = h q := fun q hq =>
      hframe q (by simp [Shape.addrs, hq]) (by rintro rfl; exact har hq)
    exact (linked_node_iff h' a l r (some x)).mpr ⟨_, hroot, rfl, hl, hr,
      linked_frame h h' l (some a) hfl hwl, linked_frame h h' r (some a) hfr hwr, hal, har,
      hdisj⟩

/-- The occupants of the leaves depend on the occupant fields of the cells only. -/
theorem leaf_windows_congr (h h' : Heap) : ∀ s : Shape,
    (∀ q ∈ s.addrs, (h' q).map (fun n => n.window) = (h q).map (fun n => n.window)) →
    leaf_windows h' s = leaf_windows h s := by
  intro s
  induction s with
  | leaf a =>
    intro hq
    have e := hq a (by simp [Shape.addrs])
    simp only [leaf_windows]
    cases h1 : h a with
    | none =>
      cases h2 : h' a with
      | none => rfl
      | some m => simp [h1, h2] at e
    | some n =>
      cases h2 : h' a with
      | none => simp [h1, h2] at e
      | some m =>
        simp only [h1, h2, Option.map_some', Option.some.injEq] at e
        simp only [e]
  | node a l r ihl ihr =>
    intro hq
    simp only [leaf_windows]
    rw [ihl (fun q hq' => hq q (by simp [Shape.addrs, hq'])),
      ihr (fun q hq' => hq q (by simp [Shape.addrs, hq']))]

/-- In a linked tree every node but the top one has its parent in the tree. -/
theorem linked_inner_parent (h : Heap) : ∀ (s : Shape) (par : Option Nat), Linked h s par →
    ∀ q ∈ s.addrs, q ≠ s.root → ∀ n, h q = some n → ∃ a ∈ s.addrs, n.parent = some a := by
  intro s
  induction s with
  | leaf x =>
    intro par _ q hq hne
    exact absurd (by simpa [Shape.addrs] using hq) hne
  | node x l r ihl ihr =>
    intro par hw q hq hne n hn
    obtain ⟨P, hP, hPpar, hl, hr, hwl, hwr, hal, har, hdisj⟩ :=
      (linked_node_iff h x l r par).mp hw
    have hne' : q ≠ x := hne
    simp only [Shape.addrs, List.mem_cons, List.mem_append] at hq
    rcases hq with hq | hq | hq
    · exact absurd hq hne'
    · by_cases e : q = l.root
      · obtain ⟨m, hm, hmpar⟩ := linked_root h l (some x) hwl
        rw [← e, hn] at hm
        rw [← Option.some.inj hm] at hmpar
        exact ⟨x, by simp [Shape.addrs], hmpar⟩
      · obtain ⟨a, ha, hpa⟩ := ihl (some x) hwl q hq e n hn
        exact ⟨a, by simp [Shape.addrs, ha], hpa⟩
    · by_cases e : q = r.root
      · obtain ⟨m, hm, hmpar⟩ := linked_root h r (some x) hwr
        rw [← e, hn] at hm
        rw [← Option.some.inj hm] at hmpar
        exact ⟨x, by simp [Shape.addrs], hmpar⟩
      · obtain ⟨a, ha, hpa⟩ := ihr (some x) hwr q hq e n hn
        exact ⟨a, by simp [Shape.addrs, ha], hpa⟩

/-- A linked tree whose top node has no parent has exactly one node without parent. -/
theorem linked_one_root (h : Heap) (s : Shape) (hw : Linked h s none) :
    ∀ q ∈ s.addrs, ∀ n, h q = some n → (n.parent = none ↔ q = s.root) := by
  intro q hq n hn
  constructor
  · intro hpar
    by_contra hne
    obtain ⟨a, -, hpa⟩ := linked_inner_parent h s none hw q hq hne n hn
    rw [hpar] at hpa
    exact absurd hpa (by simp)
  · intro e
    obtain ⟨m, hm, hmpar⟩ := linked_root h s none hw
    rw [← e, hn] at hm
    rw [← Option.some.inj hm] at hmpar
    exact hmpar

/-- In a linked tree every child pointer of a node leads to a live cell whose parent
pointer leads back to that node. -/
theorem linked_children (h : Heap) : ∀ (s : Shape) (par : Option Nat), Linked h s par →
    ∀ q ∈ s.addrs, ∀ n c, h q = some n → (n.left_child = some c ∨ n.right_child = some c) →
    ∃ C, h c = some C ∧ C.parent = some q := by
  intro s
  induction s with
  | leaf x =>
    intro par hw q hq n c hn hc
    obtain ⟨m, hm, -, hl, hr⟩ := (linked_leaf_iff h x par).mp hw
    have e : q = x := by simpa [Shape.addrs] using hq
    rw [e, hm] at hn
    rw [← Option.some.inj hn, hl, hr] at hc
    simp at hc
  | node x l r ihl ihr =>
    intro par hw q hq n c hn hc
    obtain ⟨P, hP, hPpar, hl, hr, hwl, hwr, hal, har, hdisj⟩ :=
      (linked_node_iff h x l r par).mp hw
    simp only [Shape.addrs, List.mem_cons, List.mem_append] at hq
    rcases hq with hq | hq | hq
    · rw [hq, hP] at hn
      rw [← Option.some.inj hn, hl, hr] at hc
      rw [hq]
      rcases hc with hc | hc
      · rw [← Option.some.inj hc]
        exact linked_root h l (some x) hwl
      · rw [← Option.some.inj hc]
        exact linked_root h r (some x) hwr
    · exact ihl (some x) hwl q hq n c hn hc
    · exact ihr (some x) hwr q hq n c hn hc

/-- `bsp_remove_node` on the top `u.root` of one subtree of the split node `x` of a
linked tree: the other subtree `v` takes the place of `x`, the tree stays linked, and
the leaves of `v` keep their occupants. -/
theorem remove_child_linked (h : Heap) (x : Nat) (par : Option Nat) (u v : Shape)
    (P : bsp_node) (hP : h x = some P) (hPpar : P.parent = par)
    (hkids : (P.left_child = some u.root ∧ P.right_child = some v.root) ∨
             (P.left_child = some v.root ∧ P.right_child = some u.root))
    (hu : Linked h u (some x)) (hv : Linked h v (some x))
    (hxu : x ∉ u.addrs) (hxv : x ∉ v.addrs) (hdisj : ∀ q, q ∈ u.addrs → q ∉ v.addrs) :
    ∃ h' : Heap, bsp_remove_node h (some u.root) = some h' ∧
      Linked h' (v.reroot x) par ∧
      (∀ q, q ≠ x → q ∉ u.addrs → q ∉ v.addrs → h' q = h q) ∧
      leaf_windows h' (v.reroot x) = leaf_windows h v := by
  obtain ⟨n, hn, hnpar⟩ := linked_root h u (some x) hu
  obtain ⟨S, hS, -⟩ := linked_root h v (some x) hv
  have hur : u.root ∈ u.addrs := root_mem_addrs u
  have hvr : v.root ∈ v.addrs := root_mem_addrs v
  have hsp : v.root ≠ u.root := fun e => hdisj u.root hur (e ▸ hvr)
  have hpp : x ≠ u.root := fun e => hxu (e ▸ hur)
  have hps : x ≠ v.root := fun e => hxv (e ▸ hvr)
  cases v with
  | leaf b =>
    obtain ⟨S', hS', -, hSl, hSr⟩ := (linked_leaf_iff h b (some x)).mp hv
    have hS2 : h b = some S := hS
    have hsp2 : b ≠ u.root := hsp
    have hps2 : x ≠ b := hps
    have hkids2 : (P.left_child = some u.root ∧ P.right_child = some b) ∨
        (P.left_child = some b ∧ P.right_child = some u.root) := hkids
    clear hS hsp hps hkids
    rw [hS2] at hS'
    rw [← Option.some.inj hS'] at hSl hSr
    have hrun := bsp_remove_node_eq h u.root x b n P S hn hnpar hP hkids2 hS2 hsp2 hpp hps2
      (by intro c hc; rw [hSl] at hc; exact absurd hc (by simp))
      (by intro c hc; rw [hSr] at hc; exact absurd hc (by simp))
    have hx : remove_heap h u.root x b P S x
        = some { P with window := S.window, left_child := S.left_child,
                        right_child := S.right_child } := by
      simp [remove_heap]
    refine ⟨_, hrun, ?_, ?_, ?_⟩
    · exact (linked_leaf_iff _ x par).mpr ⟨_, hx, hPpar, hSl, hSr⟩
    · intro q q0 q1 q2
      have qb : q ≠ b := by simpa [Shape.addrs] using q2
      have qu : q ≠ u.root := fun e => q1 (e ▸ hur)
      simp [remove_heap, q0, qb, qu, hSl, hSr]
    · simp only [Shape.reroot, leaf_windows, hx, hS2]
  | node b rl rr =>
    obtain ⟨S', hS', -, hSl, hSr, hwl, hwr, hbl, hbr, hdlr⟩ :=
      (linked_node_iff h b rl rr (some x)).mp hv
    have hS2 : h b = some S := hS
    have hsp2 : b ≠ u.root := hsp
    have hps2 : x ≠ b := hps
    have hkids2 : (P.left_child = some u.root ∧ P.right_child = some b) ∨
        (P.left_child = some b ∧ P.right_child = some u.root) := hkids
    clear hS hsp hps hkids
    rw [hS2] at hS'
    rw [← Option.some.inj hS'] at hSl hSr
    have hrl : rl.root ∈ rl.addrs := root_mem_addrs rl
    have hrr : rr.root ∈ rr.addrs := root_mem_addrs rr
    have inl : ∀ q, q ∈ rl.addrs → q ∈ (Shape.node b rl rr).addrs := fun q hq => by
      simp [Shape.addrs, hq]
    have inr : ∀ q, q ∈ rr.addrs → q ∈ (Shape.node b rl rr).addrs := fun q hq => by
      simp [Shape.addrs, hq]
    obtain ⟨Cl, hCl, -⟩ := linked_root h rl (some b) hwl
    obtain ⟨Cr, hCr, -⟩ := linked_root h rr (some b) hwr
    have nl : ∀ q, q ∈ rl.addrs → q ≠ x ∧ q ≠ u.root ∧ q ≠ b := fun q hq =>
      ⟨fun e => hxv (e ▸ inl q hq), fun e => hdisj u.root hur (e ▸ inl q hq),
        fun e => hbl (e ▸ hq)⟩
    have nr : ∀ q, q ∈ rr.addrs → q ≠ x ∧ q ≠ u.root ∧ q ≠ b := fun q hq =>
      ⟨fun e => hxv (e ▸ inr q hq), fun e => hdisj u.root hur (e ▸ inr q hq),
        fun e => hbr (e ▸ hq)⟩
    have hrun := bsp_remove_node_eq h u.root x b n P S hn hnpar hP hkids2 hS2 hsp2 hpp hps2
      (by
        intro c hc
        rw [hSl] at hc
        have e : rl.root = c := Option.some.inj hc
        rw [← e]
        exact ⟨by simp [hCl], (nl _ hrl).2.1, (nl _ hrl).2.2, (nl _ hrl).1⟩)
      (by
        intro c hc
        rw [hSr] at hc
        have e : rr.root = c := Option.some.inj hc
        rw [← e]
        exact ⟨by simp [hCr], (nr _ hrr).2.1, (nr _ hrr).2.2, (nr _ hrr).1⟩)
    have hcell : ∀ q, q ≠ x → q ≠ u.root → q ≠ b →
        remove_heap h u.root x b P S q =
          if some q = S.left_child ∨ some q = S.right_child then
            (h q).map (fun C => { C with parent := some x })
          else h q := by
      intro q q0 q1 q2
      simp [remove_heap, q0, q1, q2]
    have hwin : ∀ q, q ≠ x → q ≠ u.root → q ≠ b →
        (remove_heap h u.root x b P S q).map (fun n => n.window)
          = (h q).map (fun n => n.window) := by
      intro q q0 q1 q2
      rw [hcell q q0 q1 q2]
      split
      · cases h q <;> simp
      · rfl
    refine ⟨_, hrun, ?_, ?_, ?_⟩
    · refine (linked_node_iff _ x rl rr par).mpr
        ⟨{ P with window := S.window, left_child := S.left_child,
                  right_child := S.right_child }, ?_, hPpar, hSl, hSr, ?_, ?_, ?_, ?_,
          hdlr⟩
      · simp [remove_heap]
      · refine linked_reparent h _ rl (some b) x ?_ ?_ hwl
        · rw [hcell _ (nl _ hrl).1 (nl _ hrl).2.1 (nl _ hrl).2.2, hSl]
          simp
        · intro q hq hqr
          rw [hcell _ (nl _ hq).1 (nl _ hq).2.1 (nl _ hq).2.2, hSl, hSr]
          have e1 : ¬ (some q = some rl.root) := by simpa using hqr
          have e2 : ¬ (some q = some rr.root) := by
            intro e
            exact hdlr q hq ((Option.some.inj e) ▸ hrr)
          simp [e1, e2]
      · refine linked_reparent h _ rr (some b) x ?_ ?_ hwr
        · rw [hcell _ (nr _ hrr).1 (nr _ hrr).2.1 (nr _ hrr).2.2, hSr]
          simp
        · intro q hq hqr
          rw [hcell _ (nr _ hq).1 (nr _ hq).2.1 (nr _ hq).2.2, hSl, hSr]
          have e1 : ¬ (some q = some rr.root) := by simpa using hqr
          have e2 : ¬ (some q = some rl.root) := by
            intro e
            exact hdlr q ((Option.some.inj e) ▸ hrl) hq
          simp [e1, e2]
      · exact fun hq => hxv (inl x hq)
      · exact fun hq => hxv (inr x hq)
    · intro q q0 q1 q2
      have qu : q ≠ u.root := fun e => q1 (e ▸ hur)
      have qb : q ≠ b := fun e => q2 (by simp [Shape.addrs, e])
      rw [hcell q q0 qu qb, hSl, hSr]
      have e1 : ¬ (some q = some rl.root) := by
        intro e
        exact q2 (inl q ((Option.some.inj e) ▸ hrl))
      have e2 : ¬ (some q = some rr.root) := by
        intro e
        exact q2 (inr q ((Option.some.inj e) ▸ hrr))
      simp [e1, e2]
    · simp only [Shape.reroot, leaf_windows]
      rw [leaf_windows_congr h _ rl
          (fun q hq => hwin q (nl q hq).1 (nl q hq).2.1 (nl q hq).2.2),
        leaf_windows_congr h _ rr
          (fun q hq => hwin q (nr q hq).1 (nr q hq).2.1 (nr q hq).2.2)]

/-- `bsp_remove_node` on a node `a` of a linked tree, not its top: the run is defined, the
tree that results is linked with the shape `s.collapse a`, under the same top, cells
outside the old tree are untouched, and when `a` is a leaf the occupants of the leaves
are those of before but for the occupant of `a`. -/
theorem remove_tree_linked (h : Heap) : ∀ (s : Shape) (par : Option Nat), Linked h s par →
    ∀ a, a ∈ s.addrs → a ≠ s.root →
    ∃ h' : Heap, bsp_remove_node h (some a) = some h' ∧
      Linked h' (s.collapse a) par ∧ (s.collapse a).root = s.root ∧
      (∀ q, q ∉ s.addrs → h' q = h q) ∧
      (∀ q, q ∈ (s.collapse a).addrs → q ∈ s.addrs) ∧
      (∀ n, h a = some n → n.left_child = none → n.right_child = none →
        (leaf_windows h s).Perm (n.window.toList ++ leaf_windows h' (s.collapse a))) := by
  intro s
  induction s with
  | leaf x =>
    intro par _ a ha hne
    exact absurd (by simpa [Shape.addrs] using ha) hne
  | node x l r ihl ihr =>
    intro par hw a ha hne
    obtain ⟨P, hP, hPpar, hl, hr, hwl, hwr, hal, har, hdisj⟩ :=
      (linked_node_iff h x l r par).mp hw
    have hne' : a ≠ x := hne
    simp only [Shape.addrs, List.mem_cons, List.mem_append] at ha
    have ha' : a ∈ l.addrs ∨ a ∈ r.addrs := by
      rcases ha with ha | ha
      · exact absurd ha hne'
      · exact ha
    -- a subtree whose top is a cell without children is that leaf
    have leaf_top : ∀ (t : Shape) (n : bsp_node), Linked h t (some x) → t.root = a →
        h a = some n → n.left_child = none → leaf_windows h t = n.window.toList := by
      intro t n ht et hn hnl
      cases t with
      | leaf b =>
        have eb : b = a := et
        simp only [leaf_windows, eb, hn]
      | node b tl tr =>
        obtain ⟨m, hm, -, hml, -⟩ := (linked_node_iff h b tl tr (some x)).mp ht
        have eb : b = a := et
        rw [eb, hn] at hm
        rw [← Option.some.inj hm, hnl] at hml
        exact absurd hml (by simp)
    by_cases e1 : l.root = a
    · obtain ⟨h', run, wf, frame, wins⟩ :=
        remove_child_linked h x par l r P hP hPpar (Or.inl ⟨hl, hr⟩) hwl hwr hal har hdisj
      rw [e1] at run
      refine ⟨h', run, ?_, ?_, ?_, ?_, ?_⟩
      · simpa only [Shape.collapse, if_pos e1] using wf
      · simp only [Shape.collapse, if_pos e1]
        exact root_reroot r x
      · intro q hq
        simp only [Shape.addrs, List.mem_cons, List.mem_append, not_or] at hq
        exact frame q hq.1 hq.2.1 hq.2.2
      · intro q hq
        simp only [Shape.collapse, if_pos e1] at hq
        rcases mem_reroot r x q hq with hq | hq
        · simp [Shape.addrs, hq]
        · simp [Shape.addrs, hq]
      · intro n hn hnl _
        simp only [Shape.collapse, if_pos e1, leaf_windows, wins,
          leaf_top l n hwl e1 hn hnl]
        exact List.Perm.refl _
    · by_cases e2 : r.root = a
      · obtain ⟨h', run, wf, frame, wins⟩ :=
          remove_child_linked h x par r l P hP hPpar (Or.inr ⟨hl, hr⟩) hwr hwl har hal
            (fun q hqr hql => hdisj q hql hqr)
        rw [e2] at run
        refine ⟨h', run, ?_, ?_, ?_, ?_, ?_⟩
        · simpa only [Shape.collapse, if_neg e1, if_pos e2] using wf
        · simp only [Shape.collapse, if_neg e1, if_pos e2]
          exact root_reroot l x
        · intro q hq
          simp only [Shape.addrs, List.mem_cons, List.mem_append, not_or] at hq
          exact frame q hq.1 hq.2.2 hq.2.1
        · intro q hq
          simp only [Shape.collapse, if_neg e1, if_pos e2] at hq
          rcases mem_reroot l x q hq with hq | hq
          · simp [Shape.addrs, hq]
          · simp [Shape.addrs, hq]
        · intro n hn hnl _
          simp only [Shape.collapse, if_neg e1, if_pos e2, leaf_windows, wins,
            leaf_top r n hwr e2 hn hnl]
          exact List.perm_append_comm
      · rcases ha' with hal' | har'
        · obtain ⟨h', run, wf, hroot, frame, sub, wins⟩ :=
            ihl (some x) hwl a hal' (Ne.symm e1)
          have hcr : r.collapse a = r := collapse_of_not_mem r a (hdisj a hal')
          have hfr : ∀ q ∈ r.addrs, h' q = h q := fun q hq =>
            frame q (fun hql => hdisj q hql hq)
          refine ⟨h', run, ?_, ?_, ?_, ?_, ?_⟩
          · simp only [Shape.collapse, if_neg e1, if_neg e2, hcr]
            refine (linked_node_iff h' x (l.collapse a) r par).mpr
              ⟨P, ?_, hPpar, ?_, hr, wf, ?_, ?_, har, ?_⟩
            · rw [frame x hal]; exact hP
            · rw [hroot]; exact hl
            · exact linked_frame h h' r (some x) hfr hwr
            · exact fun hq => hal (sub x hq)
            · exact fun q hq => hdisj q (sub q hq)
          · simp only [Shape.collapse, if_neg e1, if_neg e2]
            rfl
          · intro q hq
            simp only [Shape.addrs, List.mem_cons, List.mem_append, not_or] at hq
            exact frame q hq.2.1
          · intro q hq
            simp only [Shape.collapse, if_neg e1, if_neg e2, hcr, Shape.addrs, List.mem_cons,
              List.mem_append] at hq
            simp only [Shape.addrs, List.mem_cons, List.mem_append]
            rcases hq with hq | hq | hq
            · exact Or.inl hq
            · exact Or.inr (Or.inl (sub q hq))
            · exact Or.inr (Or.inr hq)
          · intro n hn hnl hnr
            have er : leaf_windows h' r = leaf_windows h r :=
              leaf_windows_congr h h' r (fun q hq => by rw [hfr q hq])
            simp only [Shape.collapse, if_neg e1, if_neg e2, hcr, leaf_windows, er]
            rw [← List.append_assoc]
            exact List.Perm.append_right _ (wins n hn hnl hnr)
        · obtain ⟨h', run, wf, hroot, frame, sub, wins⟩ :=
            ihr (some x) hwr a har' (Ne.symm e2)
          have hcl : l.collapse a = l :=
            collapse_of_not_mem l a (fun hql => hdisj a hql har')
          have hfl : ∀ q ∈ l.addrs, h' q = h q := fun q hq =>
            frame q (fun hqr => hdisj q hq hqr)
          refine ⟨h', run, ?_, ?_, ?_, ?_, ?_⟩
          · simp only [Shape.collapse, if_neg e1, if_neg e2, hcl]
            refine (linked_node_iff h' x l (r.collapse a) par).mpr
              ⟨P, ?_, hPpar, hl, ?_, ?_, wf, hal, ?_, ?_⟩
            · rw [frame x har]; exact hP
            · rw [hroot]; exact hr
            · exact linked_frame h h' l (some x) hfl hwl
            · exact fun hq => har (sub x hq)
            · exact fun q hq hq' => hdisj q hq (sub q hq')
          · simp only [Shape.collapse, if_neg e1, if_neg e2]
            rfl
          · intro q hq
            simp only [Shape.addrs, List.mem_cons, List.mem_append, not_or] at hq
            exact frame q hq.2.2
          · intro q hq
            simp only [Shape.collapse, if_neg e1, if_neg e2, hcl, Shape.addrs, List.mem_cons,
              List.mem_append] at hq
            simp only [Shape.addrs, List.mem_cons, List.mem_append]
            rcases hq with hq | hq | hq
            · exact Or.inl hq
            · exact Or.inr (Or.inl hq)
            · exact Or.inr (Or.inr (sub q hq))
          · intro n hn hnl hnr
            have el : leaf_windows h' l = leaf_windows h l :=
              leaf_windows_congr h h' l (fun q hq => by rw [hfl q hq])
            simp only [Shape.collapse, if_neg e1, if_neg e2, hcl, leaf_windows, el]
            exact (List.Perm.append_left _ (wins n hn hnl hnr)).trans
              (List.perm_append_comm_assoc _ _ _)

/-- A successful `bsp_split_node` on a leaf `p`, with fresh cells `a1`, `a2`, takes a
linked tree of shape `s` to a linked tree of shape `s.split_at p a1 a2` whose leaves have
the occupants of before, in the same order. -/
theorem split_tree_linked (h : Heap) (p : Nat) (n : bsp_node) (o : split_type) (ratio : ℚ)
    (a1 a2 : Nat) (hp : h p = some n) (hnl : n.left_child = none)
    (f1 : h a1 = none) (f2 : h a2 = none) (hne : a1 ≠ a2) :
    ∀ (s : Shape) (par : Option Nat), Linked h s par →
      Linked (split_heap h p n o ratio a1 a2) (s.split_at p a1 a2) par ∧
      leaf_windows (split_heap h p n o ratio a1 a2) (s.split_at p a1 a2)
        = leaf_windows h s := by
  have hp1 : p ≠ a1 := by rintro rfl; simp [hp] at f1
  have hp2 : p ≠ a2 := by rintro rfl; simp [hp] at f2
  have hold : ∀ q, (h q).isSome → q ≠ p →
      split_heap h p n o ratio a1 a2 q = h q := by
    intro q hq hqp
    have q1 : q ≠ a1 := by rintro rfl; simp [f1] at hq
    have q2 : q ≠ a2 := by rintro rfl; simp [f2] at hq
    simp [split_heap, hqp, q1, q2]
  have c1 : split_heap h p n o ratio a1 a2 a1
      = some { fresh_node with parent := some p, window := n.window } := by
    simp [split_heap, Ne.symm hp1]
  have c2 : split_heap h p n o ratio a1 a2 a2 = some { fresh_node with parent := some p } := by
    simp [split_heap, Ne.symm hp2, Ne.symm hne]
  intro s
  induction s with
  | leaf x =>
    intro par hw
    obtain ⟨m, hm, hmpar, hml, hmr⟩ := (linked_leaf_iff h x par).mp hw
    by_cases e : x = p
    · simp only [Shape.split_at, if_pos e]
      rw [e] at hm
      rw [hp] at hm
      have emn : n = m := Option.some.inj hm
      rw [← emn] at hmpar
      rw [e]
      constructor
      · refine (linked_node_iff _ p (.leaf a1) (.leaf a2) par).mpr
          ⟨{ n with left_child := some a1, right_child := some a2, window := none,
                    split := o, split_ratio := ratio }, ?_, hmpar, rfl, rfl, ?_, ?_, ?_, ?_, ?_⟩
        · simp [split_heap]
        · exact (linked_leaf_iff _ a1 (some p)).mpr ⟨_, c1, rfl, rfl, rfl⟩
        · exact (linked_leaf_iff _ a2 (some p)).mpr ⟨_, c2, rfl, rfl, rfl⟩
        · simpa [Shape.addrs] using hp1
        · simpa [Shape.addrs] using hp2
        · intro q hq
          have e1 : q = a1 := by simpa [Shape.addrs] using hq
          simpa [Shape.addrs, e1] using hne
      · simp only [leaf_windows, c1, c2, hp]
        simp [fresh_node]
    · simp only [Shape.split_at, if_neg e]
      have hx : split_heap h p n o ratio a1 a2 x = h x := hold x (by simp [hm]) e
      constructor
      · refine linked_frame h _ (.leaf x) par ?_ hw
        intro q hq
        have eq : q = x := by simpa [Shape.addrs] using hq
        rw [eq]
        exact hx
      · simp only [leaf_windows, hx]
  | node x l r ihl ihr =>
    intro par hw
    obtain ⟨P, hP, hPpar, hl, hr, hwl, hwr, hal, har, hdisj⟩ :=
      (linked_node_iff h x l r par).mp hw
    have hxp : x ≠ p := by
      rintro rfl
      rw [hP] at hp
      rw [Option.some.inj hp, hnl] at hl
      exact absurd hl (by simp)
    have hx1 : x ≠ a1 := by rintro rfl; simp [hP] at f1
    have hx2 : x ≠ a2 := by rintro rfl; simp [hP] at f2
    have livel := reps_live h l hwl.1
    have liver := reps_live h r hwr.1
    have dead : ∀ q, (q = a1 ∨ q = a2) → ¬ (h q).isSome := by
      rintro q (rfl | rfl)
      · simp [f1]
      · simp [f2]
    simp only [Shape.split_at]
    constructor
    · refine (linked_node_iff _ x (l.split_at p a1 a2) (r.split_at p a1 a2) par).mpr
        ⟨P, ?_, hPpar, ?_, ?_, (ihl (some x) hwl).1, (ihr (some x) hwr).1, ?_, ?_, ?_⟩
      · rw [hold x (by simp [hP]) hxp]; exact hP
      · rw [root_split_at]; exact hl
      · rw [root_split_at]; exact hr
      · intro hq
        rcases mem_split_at l p a1 a2 x hq with hq | ⟨hq, -⟩
        · exact hal hq
        · rcases hq with hq | hq
          · exact hx1 hq
          · exact hx2 hq
      · intro hq
        rcases mem_split_at r p a1 a2 x hq with hq | ⟨hq, -⟩
        · exact har hq
        · rcases hq with hq | hq
          · exact hx1 hq
          · exact hx2 hq
      · intro q hql hqr
        rcases mem_split_at l p a1 a2 q hql with hl1 | ⟨hl1, hl2⟩
        · rcases mem_split_at r p a1 a2 q hqr with hr1 | ⟨hr1, hr2⟩
          · exact hdisj q hl1 hr1
          · exact dead q hr1 (livel q hl1)
        · rcases mem_split_at r p a1 a2 q hqr with hr1 | ⟨hr1, hr2⟩
          · exact dead q hl1 (liver q hr1)
          · exact hdisj p hl2 hr2
    · simp only [leaf_windows, (ihl (some x) hwl).2, (ihr (some x) hwr).2]

/-- C21: let the heap hold a tree of shape `s` (cells distinct) whose root has no parent
and in which the top of each subtree of a split node points to that node as its parent.
Then after `bsp_split_node` on any node of the tree, whether it succeeds, is refused or
fails to allocate, and after `bsp_remove_node` on any node of the tree, the heap holds
such a tree again under the same root: exactly one of its nodes, the root, has no parent,
and every child pointer of every node leads to a cell whose parent pointer leads back to
that node, so the children a parent takes over from an internal sibling point to the
parent; and both new children of a successful split point to the split node. -/
theorem parent_links_preserved (h : Heap) (s : Shape) (hlink : Linked h s none) :
    (∀ p ∈ s.addrs, ∀ (o : split_type) (r : ℚ) (c1 c2 : Option Nat),
      (∀ a, c1 = some a → h a = none) →
      (∀ a, c2 = some a → h a = none ∧ c1 ≠ some a) →
      ∃ (h' : Heap) (res : Option Nat) (s' : Shape),
        bsp_split_node h (some p) o r c1 c2 = some (h', res) ∧
        s'.root = s.root ∧ Linked h' s' none ∧
        (∀ q ∈ s'.addrs, ∀ n, h' q = some n → (n.parent = none ↔ q = s'.root)) ∧
        (∀ q ∈ s'.addrs, ∀ n c, h' q = some n →
          (n.left_child = some c ∨ n.right_child = some c) →
          ∃ C, h' c = some C ∧ C.parent = some q) ∧
        (∀ a2, res = some a2 → ∃ a1 N A1 A2, h' p = some N ∧
          N.left_child = some a1 ∧ N.right_child = some a2 ∧
          h' a1 = some A1 ∧ A1.parent = some p ∧ h' a2 = some A2 ∧ A2.parent = some p)) ∧
    (∀ a ∈ s.addrs, ∃ (h' : Heap) (s' : Shape),
      bsp_remove_node h (some a) = some h' ∧
      s'.root = s.root ∧ Linked h' s' none ∧
      (∀ q ∈ s'.addrs, ∀ n, h' q = some n → (n.parent = none ↔ q = s'.root)) ∧
      (∀ q ∈ s'.addrs, ∀ n c, h' q = some n →
        (n.left_child = some c ∨ n.right_child = some c) →
        ∃ C, h' c = some C ∧ C.parent = some q)) := by
  constructor
  · intro p hp o r c1 c2 f1 f2
    obtain ⟨n, hn⟩ := Option.isSome_iff_exists.mp (reps_live h s hlink.1 p hp)
    have same : ∀ run : bsp_split_node h (some p) o r c1 c2 = some (h, none),
        ∃ (h' : Heap) (res : Option Nat) (s' : Shape),
          bsp_split_node h (some p) o r c1 c2 = some (h', res) ∧
          s'.root = s.root ∧ Linked h' s' none ∧
          (∀ q ∈ s'.addrs, ∀ n, h' q = some n → (n.parent = none ↔ q = s'.root)) ∧
          (∀ q ∈ s'.addrs, ∀ n c, h' q = some n →
            (n.left_child = some c ∨ n.right_child = some c) →
            ∃ C, h' c = some C ∧ C.parent = some q) ∧
          (∀ a2, res = some a2 → ∃ a1 N A1 A2, h' p = some N ∧
            N.left_child = some a1 ∧ N.right_child = some a2 ∧
            h' a1 = some A1 ∧ A1.parent = some p ∧ h' a2 = some A2 ∧
            A2.parent = some p) := fun run =>
      ⟨h, none, s, run, rfl, hlink, linked_one_root h s hlink,
        linked_children h s none hlink, fun a2 ha2 => absurd ha2 (by simp)⟩
    by_cases hok : n.left_child = none ∧ n.right_child = none ∧ 0 < r ∧ r < 1
    · obtain ⟨hl, hr, r0, r1⟩ := hok
      cases c1 with
      | none =>
        exact same (bsp_split_node_alloc_fail h p n o r none c2 hn hl hr r0 r1 f1
          (fun a ha => (f2 a ha).1) (Or.inl rfl))
      | some a1 =>
        cases c2 with
        | none =>
          exact same (bsp_split_node_alloc_fail h p n o r (some a1) none hn hl hr r0 r1
            f1 (fun a ha => (f2 a ha).1) (Or.inr rfl))
        | some a2 =>
          have d1 := f1 a1 rfl
          obtain ⟨d2, hne⟩ := f2 a2 rfl
          have hne' : a1 ≠ a2 := fun e => hne (by rw [e])
          have hp1 : p ≠ a1 := by rintro rfl; simp [hn] at d1
          have hp2 : p ≠ a2 := by rintro rfl; simp [hn] at d2
          have hw' := (split_tree_linked h p n o r a1 a2 hn hl d1 d2 hne' s none hlink).1
          refine ⟨_, some a2, s.split_at p a1 a2,
            bsp_split_node_eq h p n o r a1 a2 hn hl hr r0 r1 d1 d2 hne',
            root_split_at s p a1 a2, hw', linked_one_root _ _ hw',
            linked_children _ _ none hw', ?_⟩
          intro b hb
          have eb : a2 = b := Option.some.inj hb
          rw [← eb]
          exact ⟨a1, { n with left_child := some a1, right_child := some a2, window := none,
                              split := o, split_ratio := r },
            { fresh_node with parent := some p, window := n.window },
            { fresh_node with parent := some p },
            by simp [split_heap], rfl, rfl, by simp [split_heap, Ne.symm hp1], rfl,
            by simp [split_heap, Ne.symm hp2, Ne.symm hne'], rfl⟩
    · exact same (bsp_split_node_guard h p n o r c1 c2 hn hok)
  · intro a ha
    by_cases e : a = s.root
    · obtain ⟨n, hn, hnpar⟩ := linked_root h s none hlink
      refine ⟨h, s, ?_, rfl, hlink, linked_one_root h s hlink, linked_children h s none hlink⟩
      rw [e]
      simp only [bsp_remove_node, hn, andThen_some, hnpar]
    · obtain ⟨h', run, hw', hroot, -, -, -⟩ := remove_tree_linked h s none hlink a ha e
      exact ⟨h', s.collapse a, run, hroot, hw', linked_one_root _ _ hw',
        linked_children _ _ none hw'⟩

/-- Witness of C21: the tree of `nested_heap`. -/
theorem parent_links_preserved_witness :
    (∀ p ∈ nested_shape.addrs, ∀ (o : split_type) (r : ℚ) (c1 c2 : Option Nat),
      (∀ a, c1 = some a → nested_heap a = none) →
      (∀ a, c2 = some a → nested_heap a = none ∧ c1 ≠ some a) →
      ∃ (h' : Heap) (res : Option Nat) (s' : Shape),
        bsp_split_node nested_heap (some p) o r c1 c2 = some (h', res) ∧
        s'.root = nested_shape.root ∧ Linked h' s' none ∧
        (∀ q ∈ s'.addrs, ∀ n, h' q = some n → (n.parent = none ↔ q = s'.root)) ∧
        (∀ q ∈ s'.addrs, ∀ n c, h' q = some n →
          (n.left_child = some c ∨ n.right_child = some c) →
          ∃ C, h' c = some C ∧ C.parent = some q) ∧
        (∀ a2, res = some a2 → ∃ a1 N A1 A2, h' p = some N ∧
          N.left_child = some a1 ∧ N.right_child = some a2 ∧
          h' a1 = some A1 ∧ A1.parent = some p ∧ h' a2 = some A2 ∧ A2.parent = some p)) ∧
    (∀ a ∈ nested_shape.addrs, ∃ (h' : Heap) (s' : Shape),
      bsp_remove_node nested_heap (some a) = some h' ∧
      s'.root = nested_shape.root ∧ Linked h' s' none ∧
      (∀ q ∈ s'.addrs, ∀ n, h' q = some n → (n.parent = none ↔ q = s'.root)) ∧
      (∀ q ∈ s'.addrs, ∀ n c, h' q = some n →
        (n.left_child = some c ∨ n.right_child = some c) →
        ∃ C, h' c = some C ∧ C.parent = some q)) :=
  parent_links_preserved nested_heap nested_shape ⟨nested_reps, nested_parents, nested_nodup⟩

/-- C30: let the heap hold a well-formed tree of shape `s` whose root has no parent.
After `bsp_split_node` on any node of the tree the heap holds a well-formed tree under
the same root whose leaves have the occupants of before, and the call succeeds exactly
on a leaf with a ratio strictly between 0 and 1 when both allocations succeed.  After
`bsp_remove_node` on a leaf `a` that is not the root the heap holds the well-formed tree
of shape `s.collapse a`, and the occupants of the leaves of before are, up to their
order, the occupant of `a` (if any) followed by the occupants of the leaves now: every
other window occupies as many leaves as before. -/
theorem occupants_conserved (h : Heap) (s : Shape) (hwf : WellFormed h s none) :
    (∀ p ∈ s.addrs, ∀ (o : split_type) (r : ℚ) (c1 c2 : Option Nat),
      (∀ a, c1 = some a → h a = none) →
      (∀ a, c2 = some a → h a = none ∧ c1 ≠ some a) →
      ∃ (h' : Heap) (res : Option Nat) (s' : Shape),
        bsp_split_node h (some p) o r c1 c2 = some (h', res) ∧
        s'.root = s.root ∧ WellFormed h' s' none ∧
        leaf_windows h' s' = leaf_windows h s ∧
        (res.isSome ↔
          ((∃ n, h p = some n ∧ n.left_child = none ∧ n.right_child = none) ∧
            0 < r ∧ r < 1 ∧ c1.isSome ∧ c2.isSome))) ∧
    (∀ a ∈ s.addrs, a ≠ s.root → ∀ n, h a = some n → n.left_child = none →
      n.right_child = none →
      ∃ h' : Heap, bsp_remove_node h (some a) = some h' ∧
        (s.collapse a).root = s.root ∧ WellFormed h' (s.collapse a) none ∧
        (leaf_windows h s).Perm (n.window.toList ++ leaf_windows h' (s.collapse a)) ∧
        (∀ w, n.window ≠ some w →
          (leaf_windows h' (s.collapse a)).count w = (leaf_windows h s).count w)) := by
  have hlink : Linked h s none := ⟨hwf.1, hwf.2.1, hwf.2.2.2⟩
  constructor
  · intro p hp o r c1 c2 f1 f2
    obtain ⟨n, hn⟩ := Option.isSome_iff_exists.mp (reps_live h s hwf.1 p hp)
    by_cases hok : n.left_child = none ∧ n.right_child = none ∧ 0 < r ∧ r < 1
    · obtain ⟨hl, hr, r0, r1⟩ := hok
      cases c1 with
      | none =>
        refine ⟨h, none, s, bsp_split_node_alloc_fail h p n o r none c2 hn hl hr r0 r1 f1
          (fun a ha => (f2 a ha).1) (Or.inl rfl), rfl, hwf, rfl, ?_⟩
        simp
      | some a1 =>
        cases c2 with
        | none =>
          refine ⟨h, none, s, bsp_split_node_alloc_fail h p n o r (some a1) none hn hl hr
            r0 r1 f1 (fun a ha => (f2 a ha).1) (Or.inr rfl), rfl, hwf, rfl, ?_⟩
          simp
        | some a2 =>
          have d1 := f1 a1 rfl
          obtain ⟨d2, hne⟩ := f2 a2 rfl
          have hne' : a1 ≠ a2 := fun e => hne (by rw [e])
          refine ⟨_, some a2, s.split_at p a1 a2,
            bsp_split_node_eq h p n o r a1 a2 hn hl hr r0 r1 d1 d2 hne',
            root_split_at s p a1 a2, split_tree h p n o r a1 a2 hn hl d1 d2 hne' s none hwf,
            (split_tree_linked h p n o r a1 a2 hn hl d1 d2 hne' s none hlink).2, ?_⟩
          simp only [Option.isSome_some, true_iff, and_true]
          exact ⟨⟨n, hn, hl, hr⟩, r0, r1⟩
    · refine ⟨h, none, s, bsp_split_node_guard h p n o r c1 c2 hn hok, rfl, hwf, rfl, ?_⟩
      simp only [Option.isSome_none, Bool.false_eq_true, false_iff]
      rintro ⟨⟨m, hm, hml, hmr⟩, r0, r1, -, -⟩
      rw [hn] at hm
      rw [← Option.some.inj hm] at hml hmr
      exact hok ⟨hml, hmr, r0, r1⟩
  · intro a ha hne n hn hnl hnr
    obtain ⟨h', run, -, hroot, -, -, wins⟩ := remove_tree_linked h s none hlink a ha hne
    obtain ⟨h2, run2, hw2, -, -, -⟩ := remove_tree h s none hwf a ha hne
    have e : h2 = h' := by
      rw [run] at run2
      exact (Option.some.inj run2).symm
    rw [e] at hw2
    have perm := wins n hn hnl hnr
    refine ⟨h', run, hroot, hw2, perm, ?_⟩
    intro w hw
    have c := perm.count_eq w
    rw [List.count_append] at c
    have z : n.window.toList.count w = 0 := by
      cases hwin : n.window with
      | none => simp
      | some v =>
        rw [hwin] at hw
        have hvw : w ≠ v := fun e => hw (by rw [e])
        exact List.count_eq_zero.mpr (by simpa using hvw)
    omega

/-- Witness of C30: the tree of `nested_heap`. -/
theorem occupants_conserved_witness :
    (∀ p ∈ nested_shape.addrs, ∀ (o : split_type) (r : ℚ) (c1 c2 : Option Nat),
      (∀ a, c1 = some a → nested_heap a = none) →
      (∀ a, c2 = some a → nested_heap a = none ∧ c1 ≠ some a) →
      ∃ (h' : Heap) (res : Option Nat) (s' : Shape),
        bsp_split_node nested_heap (some p) o r c1 c2 = some (h', res) ∧
        s'.root = nested_shape.root ∧ WellFormed h' s' none ∧
        leaf_windows h' s' = leaf_windows nested_heap nested_shape ∧
        (res.isSome ↔
          ((∃ n, nested_heap p = some n ∧ n.left_child = none ∧ n.right_child = none) ∧
            0 < r ∧ r < 1 ∧ c1.isSome ∧ c2.isSome))) ∧
    (∀ a ∈ nested_shape.addrs, a ≠ nested_shape.root → ∀ n, nested_heap a = some n →
      n.left_child = none → n.right_child = none →
      ∃ h' : Heap, bsp_remove_node nested_heap (some a) = some h' ∧
        (nested_shape.collapse a).root = nested_shape.root ∧
        WellFormed h' (nested_shape.collapse a) none ∧
        (leaf_windows nested_heap nested_shape).Perm
          (n.window.toList ++ leaf_windows h' (nested_shape.collapse a)) ∧
        (∀ w, n.window ≠ some w →
          (leaf_windows h' (nested_shape.collapse a)).count w
            = (leaf_windows nested_heap nested_shape).count w)) :=
  occupants_conserved nested_heap nested_shape
    ⟨nested_reps, nested_parents, nested_occ, nested_nodup⟩

end BSP
